import Mathlib

/-!
# Verification of the red-black tree in `RBT_implementation.c`

Shallow embedding of the most advanced red-black-tree draft of the
repository (the file defining `sexy_rb_tree`, `insert_baby`, `search_baby`,
`is_valid_rb_tree`, `simple_replace`, `lrot`/`rrot`, `free_rb`).

Modelling conventions:
* payloads: `my_type` holds a single `int x`, so a payload is an `Int`;
* colors: the C tags RED/BLACK are the only values `set_color` admits
  (it asserts every other tag away), so they are a two-value type `Color`;
* comparator results: `int_compare` returns exactly the tags
  LESS/EQUAL/GREATER, and all consumers `assert(0)` on any other value,
  so they are a three-value type `Cmp`;
* `sorp` keeps the C integer encoding (PRED = 153, SUCC = 161) because
  `simple_replace` branches on the raw integer and asserts otherwise;
* parent pointers: child-to-parent back-references along the search path
  are represented by a zipper context `Path`; separately, a pointer-level
  heap model (`Heap`, `rrot`, `lrot`) embeds the rotation code with
  explicit parent fields, for the claims that speak about back-references;
* `assert(0)` / failed `assert` aborts the process; the embedding returns
  an `Except CErr` error instead (no mutation is published on an abort,
  matching the fact that the aborting C code never returns to its caller);
* dereferencing a NULL pointer is the error `CErr.nullDeref`.
-/

namespace RBT

/-- Color tag of a node. The C uses the int tags RED = 50 and BLACK = 51;
`set_color` asserts that no other value is ever stored. -/
inductive Color where
  | red : Color
  | black : Color
deriving DecidableEq

/-- Comparator result. The C uses the int tags LESS = 61, EQUAL = 121,
GREATER = 124; `int_compare` returns exactly these three. -/
inductive Cmp where
  | less : Cmp
  | equal : Cmp
  | greater : Cmp
deriving DecidableEq

/-- Abort/crash conditions of the C code. -/
inductive CErr where
  | duplicateKey : CErr
  | assertFail : CErr
  | nullDeref : CErr
deriving DecidableEq

/-- `int_compare` from the USER-DEFINED section: LESS iff `a < b`,
GREATER iff `a > b`, EQUAL otherwise. -/
def int_compare (a b : Int) : Cmp :=
  if a < b then Cmp.less else if a > b then Cmp.greater else Cmp.equal

/-- An `rb_node` subtree: either an absent child (NULL) or a node carrying
its payload, its color and its two child subtrees. The `parent` back
pointer is represented by the surrounding `Path` context. -/
inductive RBNode where
  | nil : RBNode
  | node (node_color : Color) (left : RBNode) (data : Int) (right : RBNode) : RBNode
deriving DecidableEq

/-- The `sexy_rb_tree` struct: root pointer, node count, removal bias and
the injected comparator. -/
structure sexy_rb_tree where
  root : RBNode
  num_nodes : Int
  sorp : Int
  comp : Int → Int → Cmp

/-- The C constant PRED = 153. -/
def PRED : Int := 153

/-- The C constant SUCC = 161. -/
def SUCC : Int := 161

/-- `get_root`. -/
def get_root (t : sexy_rb_tree) : RBNode := t.root

/-- `create_rb`: empty root, zero nodes, bias SUCC, the given comparator. -/
def create_rb (comp : Int → Int → Cmp) : sexy_rb_tree :=
  ⟨RBNode.nil, 0, SUCC, comp⟩

/-- `get_left` (the C dereferences `n`; never called on NULL). -/
def get_left : RBNode → RBNode
  | RBNode.nil => RBNode.nil
  | RBNode.node _ l _ _ => l

/-- `get_right` (the C dereferences `n`; never called on NULL). -/
def get_right : RBNode → RBNode
  | RBNode.nil => RBNode.nil
  | RBNode.node _ _ _ r => r

/-- `is_red`: 0 for NULL and BLACK, 1 for RED. -/
def is_red : RBNode → Bool
  | RBNode.nil => false
  | RBNode.node c _ _ _ => c = Color.red

/-- `set_color` (the C mutates `n->node_color`; never called on NULL). -/
def set_color : RBNode → Color → RBNode
  | RBNode.nil, _ => RBNode.nil
  | RBNode.node _ l v r, c => RBNode.node c l v r

/-- The payload of a node (`n->data`); never read from NULL in the source. -/
def node_data : RBNode → Int
  | RBNode.nil => 0
  | RBNode.node _ _ v _ => v

/-- A zipper context: the chain of ancestors of a focused subtree, each
recording its color, payload and off-path child. `goLeft c v r p` means the
focus is the LEFT child of a node `(c, _, v, r)` whose own context is `p`;
the head of the path is the focus's parent (`n->parent`). -/
inductive Path where
  | root : Path
  | goLeft (c : Color) (v : Int) (r : RBNode) (p : Path) : Path
  | goRight (c : Color) (l : RBNode) (v : Int) (p : Path) : Path
deriving DecidableEq

/-- Rebuild the whole tree from a focused subtree and its context. -/
def plug : RBNode → Path → RBNode
  | m, Path.root => m
  | m, Path.goLeft c v r p => plug (RBNode.node c m v r) p
  | m, Path.goRight c l v p => plug (RBNode.node c l v m) p

/-- Number of ancestors recorded in a context. -/
def pathSize : Path → Nat
  | Path.root => 0
  | Path.goLeft _ _ _ p => pathSize p + 1
  | Path.goRight _ _ _ p => pathSize p + 1

/-- In-order traversal of the keys (left subtree, node, right subtree). -/
def inorder : RBNode → List Int
  | RBNode.nil => []
  | RBNode.node _ l v r => inorder l ++ v :: inorder r

/-- Keys of the context that lie to the LEFT of the focus in in-order. -/
def ctxL : Path → List Int
  | Path.root => []
  | Path.goLeft _ _ _ p => ctxL p
  | Path.goRight _ l v p => ctxL p ++ inorder l ++ [v]

/-- Keys of the context that lie to the RIGHT of the focus in in-order. -/
def ctxR : Path → List Int
  | Path.root => []
  | Path.goLeft _ v r p => v :: inorder r ++ ctxR p
  | Path.goRight _ _ _ p => ctxR p

/-- `node_insert_node`: binary-search descent attaching the (already red)
new node at the NULL child it reaches; EQUAL hits the
`assert(0) /* DON'T ALLOW DUPLICATES */`, modelled as `duplicateKey`.
Returns the attached node together with its context (its parent chain). -/
def node_insert_node (k : Int) (cur : RBNode) (p : Path)
    (comp : Int → Int → Cmp) : Except CErr (RBNode × Path) :=
  match cur with
  | RBNode.nil => Except.error CErr.nullDeref
  | RBNode.node c l v r =>
    match comp k v with
    | Cmp.less =>
      match l with
      | RBNode.nil =>
        Except.ok (RBNode.node Color.red RBNode.nil k RBNode.nil, Path.goLeft c v r p)
      | RBNode.node _ _ _ _ => node_insert_node k l (Path.goLeft c v r p) comp
    | Cmp.equal => Except.error CErr.duplicateKey
    | Cmp.greater =>
      match r with
      | RBNode.nil =>
        Except.ok (RBNode.node Color.red RBNode.nil k RBNode.nil, Path.goRight c l v p)
      | RBNode.node _ _ _ _ => node_insert_node k r (Path.goRight c l v p) comp

/-- `binary_insert_node`: empty tree gets a BLACK root; otherwise the new
node is colored RED and attached by `node_insert_node` (the C function's
else-branch falls through without a `return` statement and its callers rely
on receiving `node_insert_node`'s value, which is what the tests exercise;
the embedding returns that value). -/
def binary_insert_node (k : Int) (t : sexy_rb_tree) :
    Except CErr (RBNode × Path) :=
  match t.root with
  | RBNode.nil =>
    Except.ok (RBNode.node Color.black RBNode.nil k RBNode.nil, Path.root)
  | RBNode.node c l v r =>
    node_insert_node k (RBNode.node c l v r) Path.root t.comp

/-- Structural content of `rrot` on the subtree rooted at the rotation
point: `rrot` lifts the left child above its parent and moves the displaced
inner grandchild (`l->right`) under the old parent. The surrounding pointer
rewiring (parent slot, back-references, root update) amounts to plugging
the result into the same hole; the pointer-level `rrot` below is proved to
realize exactly this shape. The two error cases are `assert(top != NULL)`
and `assert(l != NULL)`. -/
def rrot_local : RBNode → Except CErr RBNode
  | RBNode.nil => Except.error CErr.assertFail
  | RBNode.node _ RBNode.nil _ _ => Except.error CErr.assertFail
  | RBNode.node c (RBNode.node lc ll lv lr) v r =>
    Except.ok (RBNode.node lc ll lv (RBNode.node c lr v r))

/-- Structural content of `lrot`, mirror image of `rrot_local`. -/
def lrot_local : RBNode → Except CErr RBNode
  | RBNode.nil => Except.error CErr.assertFail
  | RBNode.node _ _ _ RBNode.nil => Except.error CErr.assertFail
  | RBNode.node c l v (RBNode.node rc rl rv rr) =>
    Except.ok (RBNode.node rc (RBNode.node c l v rl) rv rr)

/-- `insert_pred_ublack_same`: recolor parent BLACK and grandparent RED,
then rotate at the grandparent (rrot if the focus is its parent's left
child, lrot otherwise). The two `assert(p != NULL)` / `assert(g != NULL)`
checks fail when the context is too short. The rotation reads whatever
child the grandparent has on the rotation side, exactly as the C does. -/
def insert_pred_ublack_same (n : RBNode) (p : Path) : Except CErr RBNode :=
  match p with
  | Path.root => Except.error CErr.assertFail
  | Path.goLeft _ pv pr g =>
    match g with
    | Path.root => Except.error CErr.assertFail
    | Path.goLeft _ gv gr gp =>
      match rrot_local (RBNode.node Color.red (RBNode.node Color.black n pv pr) gv gr) with
      | Except.ok t2 => Except.ok (plug t2 gp)
      | Except.error e => Except.error e
    | Path.goRight _ gl gv gp =>
      match rrot_local (RBNode.node Color.red gl gv (RBNode.node Color.black n pv pr)) with
      | Except.ok t2 => Except.ok (plug t2 gp)
      | Except.error e => Except.error e
  | Path.goRight _ pl pv g =>
    match g with
    | Path.root => Except.error CErr.assertFail
    | Path.goLeft _ gv gr gp =>
      match lrot_local (RBNode.node Color.red (RBNode.node Color.black pl pv n) gv gr) with
      | Except.ok t2 => Except.ok (plug t2 gp)
      | Except.error e => Except.error e
    | Path.goRight _ gl gv gp =>
      match lrot_local (RBNode.node Color.red gl gv (RBNode.node Color.black pl pv n)) with
      | Except.ok t2 => Except.ok (plug t2 gp)
      | Except.error e => Except.error e

/-- `insert_pred_ublack_opp`: when the focus is an inner grandchild
(right-of-parent with parent left-of-grandparent, or the mirror), rotate at
the parent and refocus on the old parent (`n = n->left` resp.
`n = n->right`); then fall through to `insert_pred_ublack_same`. -/
def insert_pred_ublack_opp (n : RBNode) (p : Path) : Except CErr RBNode :=
  match p with
  | Path.root => Except.error CErr.assertFail
  | Path.goRight pc pl pv g =>
    match g with
    | Path.root => Except.error CErr.assertFail
    | Path.goLeft gc gv gr gp =>
      match lrot_local (RBNode.node pc pl pv n) with
      | Except.ok (RBNode.node nc nl nv nr) =>
        insert_pred_ublack_same nl (Path.goLeft nc nv nr (Path.goLeft gc gv gr gp))
      | Except.ok RBNode.nil => Except.error CErr.assertFail
      | Except.error e => Except.error e
    | Path.goRight gc gl gv gp =>
      insert_pred_ublack_same n (Path.goRight pc pl pv (Path.goRight gc gl gv gp))
  | Path.goLeft pc pv pr g =>
    match g with
    | Path.root => Except.error CErr.assertFail
    | Path.goRight gc gl gv gp =>
      match rrot_local (RBNode.node pc n pv pr) with
      | Except.ok (RBNode.node nc nl nv nr) =>
        insert_pred_ublack_same nr (Path.goRight nc nl nv (Path.goRight gc gl gv gp))
      | Except.ok RBNode.nil => Except.error CErr.assertFail
      | Except.error e => Except.error e
    | Path.goLeft gc gv gr gp =>
      insert_pred_ublack_same n (Path.goLeft pc pv pr (Path.goLeft gc gv gr gp))

mutual

/-- `insert_base`: at the root recolor BLACK and stop, otherwise continue
with `insert_black_parent`. -/
def insert_base (n : RBNode) (p : Path) : Except CErr RBNode :=
  match p with
  | Path.root => Except.ok (set_color n Color.black)
  | Path.goLeft c v r q => insert_black_parent n (Path.goLeft c v r q)
  | Path.goRight c l v q => insert_black_parent n (Path.goRight c l v q)
termination_by pathSize p * 3 + 2
decreasing_by
all_goals simp [pathSize]

/-- `insert_black_parent`: a black parent needs no fixing (the tree is the
plugged focus); a red parent continues with `insert_both_red`.
`assert(p != NULL)` fails on an empty context. -/
def insert_black_parent (n : RBNode) (p : Path) : Except CErr RBNode :=
  match p with
  | Path.root => Except.error CErr.assertFail
  | Path.goLeft c v r q =>
    if c = Color.black then Except.ok (plug n (Path.goLeft c v r q))
    else insert_both_red n (Path.goLeft c v r q)
  | Path.goRight c l v q =>
    if c = Color.black then Except.ok (plug n (Path.goRight c l v q))
    else insert_both_red n (Path.goRight c l v q)
termination_by pathSize p * 3 + 1
decreasing_by
all_goals simp [pathSize]

/-- `insert_both_red`: if the uncle exists and is red, recolor parent and
uncle BLACK and grandparent RED and recurse `insert_base` on the
grandparent; otherwise continue with `insert_pred_ublack_opp`. When there
is no grandparent the uncle is NULL and the else-branch is taken. -/
def insert_both_red (n : RBNode) (p : Path) : Except CErr RBNode :=
  match p with
  | Path.goLeft pc pv pr (Path.goLeft gc gv gr gp) =>
    if is_red gr then
      insert_base (RBNode.node Color.red (RBNode.node Color.black n pv pr) gv
        (set_color gr Color.black)) gp
    else insert_pred_ublack_opp n (Path.goLeft pc pv pr (Path.goLeft gc gv gr gp))
  | Path.goLeft pc pv pr (Path.goRight gc gl gv gp) =>
    if is_red gl then
      insert_base (RBNode.node Color.red (set_color gl Color.black) gv
        (RBNode.node Color.black n pv pr)) gp
    else insert_pred_ublack_opp n (Path.goLeft pc pv pr (Path.goRight gc gl gv gp))
  | Path.goRight pc pl pv (Path.goLeft gc gv gr gp) =>
    if is_red gr then
      insert_base (RBNode.node Color.red (RBNode.node Color.black pl pv n) gv
        (set_color gr Color.black)) gp
    else insert_pred_ublack_opp n (Path.goRight pc pl pv (Path.goLeft gc gv gr gp))
  | Path.goRight pc pl pv (Path.goRight gc gl gv gp) =>
    if is_red gl then
      insert_base (RBNode.node Color.red (set_color gl Color.black) gv
        (RBNode.node Color.black pl pv n)) gp
    else insert_pred_ublack_opp n (Path.goRight pc pl pv (Path.goRight gc gl gv gp))
  | _ => insert_pred_ublack_opp n p
termination_by pathSize p * 3
decreasing_by
all_goals simp [pathSize]
all_goals omega

end

/-- `insert_rb_node`: attach with `binary_insert_node`, then run the
fix-up from the attached node. -/
def insert_rb_node (k : Int) (t : sexy_rb_tree) : Except CErr RBNode :=
  match binary_insert_node k t with
  | Except.ok (inserting, p) => insert_base inserting p
  | Except.error e => Except.error e

/-- `insert_baby`: allocate the new red node, insert it, and bump
`num_nodes` on success. -/
def insert_baby (k : Int) (t : sexy_rb_tree) : Except CErr sexy_rb_tree :=
  match insert_rb_node k t with
  | Except.ok newRoot => Except.ok ⟨newRoot, t.num_nodes + 1, t.sorp, t.comp⟩
  | Except.error e => Except.error e

/-- Insert a list of keys in sequence (left to right). -/
def insertList : List Int → sexy_rb_tree → Except CErr sexy_rb_tree
  | [], t => Except.ok t
  | k :: ks, t =>
    match insert_baby k t with
    | Except.ok t2 => insertList ks t2
    | Except.error e => Except.error e

/-- Tree-level effect of a bare `binary_insert_node` call (no fix-up), as
exercised by the C test script `test_1` .. `test_6`: the root becomes the
rebuilt tree; `num_nodes` is untouched. -/
def binary_insert_tree (k : Int) (t : sexy_rb_tree) :
    Except CErr sexy_rb_tree :=
  match binary_insert_node k t with
  | Except.ok (n, p) => Except.ok ⟨plug n p, t.num_nodes, t.sorp, t.comp⟩
  | Except.error e => Except.error e

/-- Run `binary_insert_tree` over a list of keys. -/
def binaryInsertList : List Int → sexy_rb_tree → Except CErr sexy_rb_tree
  | [], t => Except.ok t
  | k :: ks, t =>
    match binary_insert_tree k t with
    | Except.ok t2 => binaryInsertList ks t2
    | Except.error e => Except.error e

/-- The descent loop of `search_baby`: LESS goes left, GREATER goes right,
EQUAL returns the stored payload; reaching NULL returns the not-found
signal. -/
def search_node (comp : Int → Int → Cmp) (k : Int) : RBNode → Option Int
  | RBNode.nil => none
  | RBNode.node _ l v r =>
    match comp k v with
    | Cmp.less => search_node comp k l
    | Cmp.greater => search_node comp k r
    | Cmp.equal => some v

/-- `search_baby`: run the descent loop from the root with the tree's
comparator. -/
def search_baby (k : Int) (t : sexy_rb_tree) : Option Int :=
  search_node t.comp k t.root

/-- `free_rb_nodes`: its first statement `free(n->data)` dereferences `n`
with no NULL check, so a NULL argument is a null dereference; otherwise it
recursively frees the non-NULL children. -/
def free_rb_nodes : RBNode → Except CErr Unit
  | RBNode.nil => Except.error CErr.nullDeref
  | RBNode.node _ l _ r =>
    match (match l with
           | RBNode.nil => Except.ok ()
           | RBNode.node lc ll lv lr => free_rb_nodes (RBNode.node lc ll lv lr)) with
    | Except.error e => Except.error e
    | Except.ok _ =>
      match r with
      | RBNode.nil => Except.ok ()
      | RBNode.node rc rl rv rr => free_rb_nodes (RBNode.node rc rl rv rr)

/-- `free_rb`: unconditionally calls `free_rb_nodes(t->root)`, then frees
the tree struct. -/
def free_rb (t : sexy_rb_tree) : Except CErr Unit :=
  free_rb_nodes t.root

/-- The while-loop of `replace_with_pred`: walk to the rightmost node of a
(non-NULL) subtree. -/
def rightmost_node : RBNode → RBNode
  | RBNode.nil => RBNode.nil
  | RBNode.node c l v RBNode.nil => RBNode.node c l v RBNode.nil
  | RBNode.node _ _ _ (RBNode.node rc rl rv rr) =>
    rightmost_node (RBNode.node rc rl rv rr)

/-- The while-loop of `replace_with_succ`: walk to the leftmost node of a
(non-NULL) subtree. -/
def leftmost_node : RBNode → RBNode
  | RBNode.nil => RBNode.nil
  | RBNode.node c RBNode.nil v r => RBNode.node c RBNode.nil v r
  | RBNode.node _ (RBNode.node lc ll lv lr) _ _ =>
    leftmost_node (RBNode.node lc ll lv lr)

/-- `replace_with_pred`: NULL (`none`) if `n` has no left child, otherwise
copy the payload of the rightmost node of the left subtree into `n` and
return the updated `n` together with that predecessor node. -/
def replace_with_pred : RBNode → Option (RBNode × RBNode)
  | RBNode.nil => none
  | RBNode.node c l _v r =>
    match l with
    | RBNode.nil => none
    | RBNode.node lc ll lv lr =>
      let pn := rightmost_node (RBNode.node lc ll lv lr)
      some (RBNode.node c l (node_data pn) r, pn)

/-- `replace_with_succ`: mirror image of `replace_with_pred`. -/
def replace_with_succ : RBNode → Option (RBNode × RBNode)
  | RBNode.nil => none
  | RBNode.node c l _v r =>
    match r with
    | RBNode.nil => none
    | RBNode.node rc rl rv rr =>
      let sn := leftmost_node (RBNode.node rc rl rv rr)
      some (RBNode.node c l (node_data sn) r, sn)

/-- `simple_replace`: try the bias side first (SUCC or PRED), fall back to
the other side, `assert(0)` on any other `sorp` value. -/
def simple_replace (n : RBNode) (sorp : Int) :
    Except CErr (Option (RBNode × RBNode)) :=
  if sorp = SUCC then
    match replace_with_succ n with
    | some res => Except.ok (some res)
    | none => Except.ok (replace_with_pred n)
  else if sorp = PRED then
    match replace_with_pred n with
    | some res => Except.ok (some res)
    | none => Except.ok (replace_with_succ n)
  else Except.error CErr.assertFail

/-- `one_red_parent_black_children`: a red node must not have a red child
(NULL children count as black via `is_red`). -/
def one_red_parent_black_children : RBNode → Bool
  | RBNode.nil => true
  | RBNode.node c l v r =>
    if is_red (RBNode.node c l v r) then
      if is_red (get_left (RBNode.node c l v r)) ||
         is_red (get_right (RBNode.node c l v r)) then false
      else true
    else true

/-- `red_parent_black_children`: check the local property at every node,
recursing only into non-NULL children. -/
def red_parent_black_children : RBNode → Bool
  | RBNode.nil => true
  | RBNode.node c l v r =>
    if !one_red_parent_black_children (RBNode.node c l v r) then false
    else if l ≠ RBNode.nil && !red_parent_black_children l then false
    else if r ≠ RBNode.nil && !red_parent_black_children r then false
    else true

/-- The C constant INT_MIN, initial value of the scratch global
`path_max`. -/
def INT_MIN : Int := -2147483648

/-- The C constant INT_MAX, initial value of the scratch global
`path_min`. -/
def INT_MAX : Int := 2147483647

/-- `path_black_nodes_helper`: walk every root-to-NULL path counting black
nodes (plus one for the NULL itself) and fold the counts into the
`(path_max, path_min)` scratch pair, left subtree first. -/
def path_black_nodes_helper : RBNode → Int → Int × Int → Int × Int
  | RBNode.nil, count, st =>
    let c := count + 1
    (if c > st.1 then c else st.1, if c < st.2 then c else st.2)
  | RBNode.node nc l v r, count, st =>
    let count2 := if !is_red (RBNode.node nc l v r) then count + 1 else count
    path_black_nodes_helper r count2 (path_black_nodes_helper l count2 st)

/-- `path_black_nodes`: reset the scratch pair, scan the whole subtree, and
fail when the extrema differ; the recursive re-scans of the children have
their results discarded (exactly as in the source, where only the global
resets surround them). Never called on NULL in the source. -/
def path_black_nodes : RBNode → Bool
  | RBNode.nil => true
  | RBNode.node nc l v r =>
    let st := path_black_nodes_helper (RBNode.node nc l v r) 0 (INT_MIN, INT_MAX)
    if st.1 ≠ st.2 then false
    else
      let _ := if l ≠ RBNode.nil then path_black_nodes l else true
      let _ := if r ≠ RBNode.nil then path_black_nodes r else true
      true

/-- `is_valid_rb_tree`: false for an empty tree or a red root, then the
red-red check and the black-count check. (The `t == NULL` guard of the C
has no counterpart: a tree value always exists here.) -/
def is_valid_rb_tree (t : sexy_rb_tree) : Bool :=
  match get_root t with
  | RBNode.nil => false
  | RBNode.node c l v r =>
    if is_red (RBNode.node c l v r) then false
    else if !red_parent_black_children (RBNode.node c l v r) then false
    else if !path_black_nodes (RBNode.node c l v r) then false
    else true

/-! ## Invariant vocabulary (translations of the spec's properties) -/

/-- Black-height contribution of a color. -/
def black1 : Color → Nat
  | Color.red => 0
  | Color.black => 1

/-- The spec's red invariant: no RED node has a RED child. -/
def noRedRed : RBNode → Bool
  | RBNode.nil => true
  | RBNode.node c l _ r =>
    (c = Color.black || (!is_red l && !is_red r)) && noRedRed l && noRedRed r

/-- The spec's root invariant: the root, if present, is BLACK. -/
def rootBlack : RBNode → Bool
  | RBNode.nil => true
  | RBNode.node c _ _ _ => c = Color.black

/-- Checked black-height: `some h` when every root-to-NULL path in the
subtree passes through exactly `h` BLACK nodes, `none` otherwise. -/
def okBH : RBNode → Option Nat
  | RBNode.nil => some 0
  | RBNode.node c l _ r =>
    match okBH l, okBH r with
    | some a, some b => if a = b then some (a + black1 c) else none
    | _, _ => none

/-- The number of BLACK nodes on each root-to-absent-child path, one list
entry per NULL position, left to right. -/
def pbcounts : RBNode → List Nat
  | RBNode.nil => [0]
  | RBNode.node c l _ r => (pbcounts l ++ pbcounts r).map (· + black1 c)

/-- All entries of a list are equal. -/
def allSame (L : List Nat) : Prop := ∀ x ∈ L, ∀ y ∈ L, x = y

/-- Color of the focus's parent; the virtual parent of the root counts as
black. -/
def headColor : Path → Color
  | Path.root => Color.black
  | Path.goLeft c _ _ _ => c
  | Path.goRight c _ _ _ => c

/-- Black-height consistency of a context: given the black-height `h` of
the subtree to be plugged in, every off-path subtree matches the height of
its sibling hole, and the result is the black-height of the whole tree. -/
def pathOkBH : Path → Nat → Option Nat
  | Path.root, h => some h
  | Path.goLeft c _ r p, h =>
    match okBH r with
    | some hr => if hr = h then pathOkBH p (h + black1 c) else none
    | none => none
  | Path.goRight c l _ p, h =>
    match okBH l with
    | some hl => if hl = h then pathOkBH p (h + black1 c) else none
    | none => none

/-- Red-red soundness of a context, ignoring the focus itself: every
off-path subtree is internally red-red sound, and a red context node has a
non-red off-path child and a black parent. -/
def pathRR : Path → Bool
  | Path.root => true
  | Path.goLeft c _ r p =>
    noRedRed r && (c = Color.black || (!is_red r && headColor p = Color.black))
      && pathRR p
  | Path.goRight c l _ p =>
    noRedRed l && (c = Color.black || (!is_red l && headColor p = Color.black))
      && pathRR p

/-- The outermost node recorded in a context (the tree root, when the
context is non-trivial) is black. -/
def pathTopBlack : Path → Bool
  | Path.root => true
  | Path.goLeft c _ _ Path.root => c = Color.black
  | Path.goRight c _ _ Path.root => c = Color.black
  | Path.goLeft _ _ _ (Path.goLeft c v r p) => pathTopBlack (Path.goLeft c v r p)
  | Path.goLeft _ _ _ (Path.goRight c l v p) => pathTopBlack (Path.goRight c l v p)
  | Path.goRight _ _ _ (Path.goLeft c v r p) => pathTopBlack (Path.goLeft c v r p)
  | Path.goRight _ _ _ (Path.goRight c l v p) => pathTopBlack (Path.goRight c l v p)

/-- A well-formed tree state: all three color invariants, a strictly
sorted in-order key sequence, and the repository's comparator. -/
def GoodTree (t : sexy_rb_tree) : Prop :=
  noRedRed t.root = true ∧ rootBlack t.root = true ∧
    (∃ h, okBH t.root = some h) ∧
    List.Sorted (· < ·) (inorder t.root) ∧ t.comp = int_compare

/-! ## Pointer-level model of the rotations

`rrot` and `lrot` mutate individual `parent`/`left`/`right` fields of nodes
reached through pointers, so for the claims about back-references they are
embedded over an explicit heap: node identities are `Nat` addresses, NULL
is `none`, and each field write updates one field of one cell. -/

/-- A heap cell: the full `rb_node` struct with its three pointers. -/
structure HNode where
  data : Int
  node_color : Color
  parent : Option Nat
  left : Option Nat
  right : Option Nat
deriving DecidableEq

/-- The heap: a partial map from addresses to `rb_node` cells. -/
def Heap := Nat → Option HNode

/-- Write the `left` field of the cell at `i`. -/
def setLeft (hp : Heap) (i : Nat) (x : Option Nat) : Heap :=
  fun j => if j = i
    then (hp j).map (fun nd => ⟨nd.data, nd.node_color, nd.parent, x, nd.right⟩)
    else hp j

/-- Write the `right` field of the cell at `i`. -/
def setRight (hp : Heap) (i : Nat) (x : Option Nat) : Heap :=
  fun j => if j = i
    then (hp j).map (fun nd => ⟨nd.data, nd.node_color, nd.parent, nd.left, x⟩)
    else hp j

/-- Write the `parent` field of the cell at `i`. -/
def setParent (hp : Heap) (i : Nat) (x : Option Nat) : Heap :=
  fun j => if j = i
    then (hp j).map (fun nd => ⟨nd.data, nd.node_color, x, nd.left, nd.right⟩)
    else hp j

/-- `rrot`, pointer level: rotate right around the node at address `n`,
with `rt` the tree's root pointer. The writes follow the C statement by
statement: `n->left = n->left->right`, `l->right = n`, `n->parent = l`,
`l->parent = top_parent`, the conditional `lr->parent = n`, the relink of
`top_parent`'s child slot, and the root update when `n` was the root. -/
def rrot (hp : Heap) (rt : Option Nat) (n : Nat) :
    Except CErr (Heap × Option Nat) :=
  match hp n with
  | none => Except.error CErr.nullDeref
  | some nn =>
    let update_root : Bool := rt = some n
    let top_parent := nn.parent
    match nn.left with
    | none => Except.error CErr.assertFail
    | some l =>
      match hp l with
      | none => Except.error CErr.nullDeref
      | some ln =>
        let lr := ln.right
        let h1 := setLeft hp n lr
        let h2 := setRight h1 l (some n)
        let h3 := setParent h2 n (some l)
        let h4 := setParent h3 l top_parent
        let h5 := match lr with
          | some lrid => setParent h4 lrid (some n)
          | none => h4
        match top_parent with
        | some tp =>
          match h5 tp with
          | none => Except.error CErr.nullDeref
          | some tpn =>
            let h6 := if tpn.left = some n then setLeft h5 tp (some l)
                      else setRight h5 tp (some l)
            Except.ok (h6, if update_root then some l else rt)
        | none => Except.ok (h5, if update_root then some l else rt)

/-- `lrot`, pointer level: mirror image of `rrot`. -/
def lrot (hp : Heap) (rt : Option Nat) (n : Nat) :
    Except CErr (Heap × Option Nat) :=
  match hp n with
  | none => Except.error CErr.nullDeref
  | some nn =>
    let update_root : Bool := rt = some n
    let top_parent := nn.parent
    match nn.right with
    | none => Except.error CErr.assertFail
    | some r =>
      match hp r with
      | none => Except.error CErr.nullDeref
      | some rn =>
        let rl := rn.left
        let h1 := setRight hp n rl
        let h2 := setLeft h1 r (some n)
        let h3 := setParent h2 n (some r)
        let h4 := setParent h3 r top_parent
        let h5 := match rl with
          | some rlid => setParent h4 rlid (some n)
          | none => h4
        match top_parent with
        | some tp =>
          match h5 tp with
          | none => Except.error CErr.nullDeref
          | some tpn =>
            let h6 := if tpn.left = some n then setLeft h5 tp (some r)
                      else setRight h5 tp (some r)
            Except.ok (h6, if update_root then some r else rt)
        | none => Except.ok (h5, if update_root then some r else rt)

/-- The pointer `optId` rooted in heap `hp`, whose parent pointer must be
`par`, represents the functional subtree `m`: cell by cell, data, color,
parent back-reference and both children all match. -/
def reprB (hp : Heap) : Option Nat → Option Nat → RBNode → Bool
  | _, none, RBNode.nil => true
  | par, some i, RBNode.node c l v r =>
    match hp i with
    | some nd =>
      nd.data = v && nd.node_color = c && nd.parent = par &&
      reprB hp (some i) nd.left l && reprB hp (some i) nd.right r
    | none => false
  | _, none, RBNode.node _ _ _ _ => false
  | _, some _, RBNode.nil => false

/-- The addresses visited when checking `reprB` (used to state that they
are pairwise distinct and to frame heap updates). -/
def idList (hp : Heap) : Option Nat → RBNode → List Nat
  | none, _ => []
  | some _, RBNode.nil => []
  | some i, RBNode.node _ l _ r =>
    match hp i with
    | some nd => i :: (idList hp nd.left l ++ idList hp nd.right r)
    | none => [i]

/-- Head of an ancestor address list, as the parent pointer it induces. -/
def parentHead : List Nat → Option Nat
  | [] => none
  | j :: _ => some j

/-- The context `p`, realized in heap `hp` with root pointer `rt`: `ids`
lists the ancestor addresses innermost first, the innermost ancestor's
hole-side child pointer is `holeId`, every ancestor's parent pointer is the
next ancestor (or NULL at the root, which `rt` must then point to), and
every off-path subtree is represented. -/
def reprZipB (hp : Heap) (rt : Option Nat) :
    Option Nat → List Nat → Path → Bool
  | holeId, [], Path.root => rt = holeId
  | holeId, i :: js, Path.goLeft c v r p =>
    match hp i with
    | some nd =>
      nd.data = v && nd.node_color = c && nd.left = holeId &&
      nd.parent = parentHead js && reprB hp (some i) nd.right r &&
      reprZipB hp rt (some i) js p
    | none => false
  | holeId, i :: js, Path.goRight c l v p =>
    match hp i with
    | some nd =>
      nd.data = v && nd.node_color = c && nd.right = holeId &&
      nd.parent = parentHead js && reprB hp (some i) nd.left l &&
      reprZipB hp rt (some i) js p
    | none => false
  | _, _ :: _, Path.root => false
  | _, [], Path.goLeft _ _ _ _ => false
  | _, [], Path.goRight _ _ _ _ => false

/-- The addresses used by a realized context: the ancestors themselves and
their off-path subtrees. -/
def zipIdList (hp : Heap) : List Nat → Path → List Nat
  | [], _ => []
  | _ :: _, Path.root => []
  | i :: js, Path.goLeft _ _ r p =>
    (match hp i with
     | some nd => i :: idList hp nd.right r
     | none => [i]) ++ zipIdList hp js p
  | i :: js, Path.goRight _ l _ p =>
    (match hp i with
     | some nd => i :: idList hp nd.left l
     | none => [i]) ++ zipIdList hp js p

/-- A concrete three-cell heap used as a rotation example: address 1 holds
a black 2 whose children are the red 1 (address 2) and the red 3
(address 3). -/
def rot_demo_heap : Heap := fun j =>
  if j = 1 then some ⟨2, Color.black, none, some 2, some 3⟩
  else if j = 2 then some ⟨1, Color.red, some 1, none, none⟩
  else if j = 3 then some ⟨3, Color.red, some 1, none, none⟩
  else none

/-! ## Basic lemmas -/

theorem inorder_plug (m : RBNode) (p : Path) :
    inorder (plug m p) = ctxL p ++ inorder m ++ ctxR p := by
  induction p generalizing m with
  | root => simp [plug, ctxL, ctxR]
  | goLeft c v r q ih =>
    simp only [plug, ctxL, ctxR, ih, inorder]
    simp
  | goRight c l v q ih =>
    simp only [plug, ctxL, ctxR, ih, inorder]
    simp

theorem rootBlack_of_not_red {m : RBNode} (hm : is_red m = false) :
    rootBlack m = true := by
  cases m with
  | nil => rfl
  | node c l v r =>
    cases c with
    | red => simp [is_red] at hm
    | black => rfl

theorem color_not_red {c : Color} (hc : ¬c = Color.red) : c = Color.black := by
  cases c with
  | red => exact absurd rfl hc
  | black => rfl

/-- Plugging a well-formed subtree into a well-formed context yields a tree
satisfying all three color invariants. -/
theorem plug_good : ∀ (p : Path) (m : RBNode) (h H : Nat),
    pathOkBH p h = some H → pathRR p = true → pathTopBlack p = true →
    okBH m = some h → noRedRed m = true →
    (is_red m = false ∨ (headColor p = Color.black ∧ p ≠ Path.root)) →
    okBH (plug m p) = some H ∧ noRedRed (plug m p) = true ∧
      rootBlack (plug m p) = true := by
  intro p
  induction p with
  | root =>
    intro m h H hbh hrr htop hm hnm hj
    simp only [pathOkBH] at hbh
    cases hbh
    refine ⟨by simpa [plug] using hm, by simpa [plug] using hnm, ?_⟩
    rcases hj with hj | ⟨_, hj⟩
    · exact rootBlack_of_not_red hj
    · exact absurd rfl hj
  | goLeft c v r q ih =>
    intro m h H hbh hrr htop hm hnm hj
    simp only [pathOkBH] at hbh
    rcases hr : okBH r with _ | hrv
    · rw [hr] at hbh; exact absurd hbh (by simp)
    rw [hr] at hbh
    simp only [] at hbh
    by_cases hre : hrv = h
    swap
    · rw [if_neg hre] at hbh; exact absurd hbh (by simp)
    rw [if_pos hre] at hbh
    rw [hre] at hr
    have hrr' := hrr
    simp only [pathRR, Bool.and_eq_true] at hrr'
    obtain ⟨⟨hnr, hcol⟩, hq⟩ := hrr'
    have htop2 : pathTopBlack q = true := by
      cases q with
      | root => rfl
      | goLeft c2 v2 r2 q2 => simpa [pathTopBlack] using htop
      | goRight c2 l2 v2 q2 => simpa [pathTopBlack] using htop
    have hok2 : okBH (RBNode.node c m v r) = some (h + black1 c) := by
      simp [okBH, hm, hr]
    have hn2 : noRedRed (RBNode.node c m v r) = true := by
      cases c with
      | black => simp [noRedRed, hnm, hnr]
      | red =>
        have h1 : is_red r = false ∧ headColor q = Color.black := by
          simpa using hcol
        have h2 : is_red m = false := by
          rcases hj with hx | ⟨hh, _⟩
          · exact hx
          · simp [headColor] at hh
        simp [noRedRed, hnm, hnr, h1.1, h2]
    have hj2 : is_red (RBNode.node c m v r) = false ∨
        (headColor q = Color.black ∧ q ≠ Path.root) := by
      cases c with
      | black => exact Or.inl (by simp [is_red])
      | red =>
        have h1 : is_red r = false ∧ headColor q = Color.black := by
          simpa using hcol
        refine Or.inr ⟨h1.2, ?_⟩
        intro hqr
        rw [hqr] at htop
        simp [pathTopBlack] at htop
    have hfin := ih (RBNode.node c m v r) (h + black1 c) H hbh hq htop2 hok2 hn2 hj2
    simpa [plug] using hfin
  | goRight c l v q ih =>
    intro m h H hbh hrr htop hm hnm hj
    simp only [pathOkBH] at hbh
    rcases hl : okBH l with _ | hlv
    · rw [hl] at hbh; exact absurd hbh (by simp)
    rw [hl] at hbh
    simp only [] at hbh
    by_cases hle : hlv = h
    swap
    · rw [if_neg hle] at hbh; exact absurd hbh (by simp)
    rw [if_pos hle] at hbh
    rw [hle] at hl
    have hrr' := hrr
    simp only [pathRR, Bool.and_eq_true] at hrr'
    obtain ⟨⟨hnl, hcol⟩, hq⟩ := hrr'
    have htop2 : pathTopBlack q = true := by
      cases q with
      | root => rfl
      | goLeft c2 v2 r2 q2 => simpa [pathTopBlack] using htop
      | goRight c2 l2 v2 q2 => simpa [pathTopBlack] using htop
    have hok2 : okBH (RBNode.node c l v m) = some (h + black1 c) := by
      simp [okBH, hm, hl]
    have hn2 : noRedRed (RBNode.node c l v m) = true := by
      cases c with
      | black => simp [noRedRed, hnm, hnl]
      | red =>
        have h1 : is_red l = false ∧ headColor q = Color.black := by
          simpa using hcol
        have h2 : is_red m = false := by
          rcases hj with hx | ⟨hh, _⟩
          · exact hx
          · simp [headColor] at hh
        simp [noRedRed, hnm, hnl, h1.1, h2]
    have hj2 : is_red (RBNode.node c l v m) = false ∨
        (headColor q = Color.black ∧ q ≠ Path.root) := by
      cases c with
      | black => exact Or.inl (by simp [is_red])
      | red =>
        have h1 : is_red l = false ∧ headColor q = Color.black := by
          simpa using hcol
        refine Or.inr ⟨h1.2, ?_⟩
        intro hqr
        rw [hqr] at htop
        simp [pathTopBlack] at htop
    have hfin := ih (RBNode.node c l v m) (h + black1 c) H hbh hq htop2 hok2 hn2 hj2
    simpa [plug] using hfin

theorem int_compare_less {a b : Int} (h : a < b) : int_compare a b = Cmp.less := by
  simp [int_compare, h]

theorem int_compare_greater {a b : Int} (h : b < a) : int_compare a b = Cmp.greater := by
  have h1 : ¬a < b := not_lt.mpr h.le
  simp [int_compare, h1, h]

theorem int_compare_equal {a : Int} : int_compare a a = Cmp.equal := by
  simp [int_compare]

theorem mem_inorder_self (c : Color) (l : RBNode) (v : Int) (r : RBNode) :
    v ∈ inorder (RBNode.node c l v r) := by
  simp [inorder]

/-- Color/black-height bookkeeping of the binary-search descent: attaching
the red leaf for a key not present in the subtree succeeds and yields a
context that is still well formed, with the hole at black-height 0. -/
theorem node_insert_colors : ∀ (cur : RBNode) (p : Path) (k : Int) (h H : Nat),
    cur ≠ RBNode.nil → k ∉ inorder cur →
    okBH cur = some h → pathOkBH p h = some H →
    pathRR p = true → pathTopBlack p = true →
    noRedRed cur = true →
    (is_red cur = true → headColor p = Color.black) →
    (p = Path.root → is_red cur = false) →
    ∃ p2, node_insert_node k cur p int_compare =
        Except.ok (RBNode.node Color.red RBNode.nil k RBNode.nil, p2) ∧
      pathOkBH p2 0 = some H ∧ pathRR p2 = true ∧ pathTopBlack p2 = true := by
  intro cur
  induction cur with
  | nil => intro p k h H hne; exact absurd rfl hne
  | node c l v r ihl ihr =>
    intro p k h H _ hmem hbh hpbh hrr htop hnrr hred hroot
    have hkv : k ≠ v := by
      intro he
      exact hmem (he ▸ mem_inorder_self c l v r)
    -- decompose okBH of the node
    rcases hl : okBH l with _ | hlv
    · rw [okBH] at hbh; rw [hl] at hbh; exact absurd hbh (by simp)
    rcases hrv : okBH r with _ | hrvv
    · rw [okBH] at hbh; rw [hl, hrv] at hbh; exact absurd hbh (by simp)
    have hlr : hlv = hrvv ∧ h = hlv + black1 c := by
      rw [okBH, hl, hrv] at hbh
      simp only [] at hbh
      by_cases he : hlv = hrvv
      · rw [if_pos he] at hbh
        exact ⟨he, by injection hbh with hh; omega⟩
      · rw [if_neg he] at hbh; exact absurd hbh (by simp)
    obtain ⟨hlv_eq, h_eq⟩ := hlr
    -- decompose noRedRed of the node
    have hnrr' := hnrr
    simp only [noRedRed, Bool.and_eq_true] at hnrr'
    obtain ⟨⟨hcc, hnl⟩, hnr⟩ := hnrr'
    have hctopblack : p = Path.root → c = Color.black := by
      intro hp
      have := hroot hp
      cases c with
      | red => simp [is_red] at this
      | black => rfl
    have hchead : c = Color.red → headColor p = Color.black := by
      intro hc
      exact hred (by simp [is_red, hc])
    rcases lt_trichotomy k v with hkv2 | hkv2 | hkv2
    · -- go left
      have hcmp := int_compare_less hkv2
      have hmem2 : k ∉ inorder l := fun hx =>
        hmem (by simp [inorder]; exact Or.inl hx)
      have hpbh2 : pathOkBH (Path.goLeft c v r p) hlv = some H := by
        rw [pathOkBH, hrv]
        simp only []
        rw [if_pos hlv_eq.symm]
        rw [← h_eq]
        exact hpbh
      have hrr2 : pathRR (Path.goLeft c v r p) = true := by
        simp only [pathRR, Bool.and_eq_true]
        refine ⟨⟨hnr, ?_⟩, hrr⟩
        cases c with
        | black => simp
        | red =>
          have h1 := hchead rfl
          rcases Bool.or_eq_true_iff.mp hcc with h2 | h2
          · exact absurd h2 (by simp)
          · simp only [Bool.and_eq_true] at h2
            simp [h1, h2.2]
      have htop2 : pathTopBlack (Path.goLeft c v r p) = true := by
        cases p with
        | root => simp [pathTopBlack, hctopblack rfl]
        | goLeft c2 v2 r2 q2 => simpa [pathTopBlack] using htop
        | goRight c2 l2 v2 q2 => simpa [pathTopBlack] using htop
      cases l with
      | nil =>
        -- attach here
        refine ⟨Path.goLeft c v r p, ?_, ?_, hrr2, htop2⟩
        · simp [node_insert_node, hcmp]
        · have h0 : hlv = 0 := by
            rw [okBH] at hl
            injection hl with hh
            omega
          rw [← h0]; exact hpbh2
      | node lc ll lv2 lr =>
        have hredl : is_red (RBNode.node lc ll lv2 lr) = true →
            headColor (Path.goLeft c v r p) = Color.black := by
          intro hx
          cases c with
          | black => rfl
          | red =>
            rcases Bool.or_eq_true_iff.mp hcc with h2 | h2
            · exact absurd h2 (by simp)
            · simp only [Bool.and_eq_true] at h2
              rw [hx] at h2
              exact absurd h2.1 (by simp)
        have := ihl (Path.goLeft c v r p) k hlv H (by simp) hmem2 hl hpbh2
          hrr2 htop2 hnl hredl (by simp)
        obtain ⟨p2, heq, hc1, hc2, hc3⟩ := this
        refine ⟨p2, ?_, hc1, hc2, hc3⟩
        simp only [node_insert_node, hcmp]
        exact heq
    · exact absurd hkv2 hkv
    · -- go right
      have hcmp := int_compare_greater hkv2
      have hmem2 : k ∉ inorder r := fun hx =>
        hmem (by simp [inorder]; exact Or.inr (Or.inr hx))
      have hpbh2 : pathOkBH (Path.goRight c l v p) hrvv = some H := by
        rw [pathOkBH, hl]
        simp only []
        rw [if_pos hlv_eq]
        rw [hlv_eq] at h_eq
        rw [← h_eq]
        exact hpbh
      have hrr2 : pathRR (Path.goRight c l v p) = true := by
        simp only [pathRR, Bool.and_eq_true]
        refine ⟨⟨hnl, ?_⟩, hrr⟩
        cases c with
        | black => simp
        | red =>
          have h1 := hchead rfl
          rcases Bool.or_eq_true_iff.mp hcc with h2 | h2
          · exact absurd h2 (by simp)
          · simp only [Bool.and_eq_true] at h2
            simp [h1, h2.1]
      have htop2 : pathTopBlack (Path.goRight c l v p) = true := by
        cases p with
        | root => simp [pathTopBlack, hctopblack rfl]
        | goLeft c2 v2 r2 q2 => simpa [pathTopBlack] using htop
        | goRight c2 l2 v2 q2 => simpa [pathTopBlack] using htop
      cases r with
      | nil =>
        refine ⟨Path.goRight c l v p, ?_, ?_, hrr2, htop2⟩
        · simp [node_insert_node, hcmp]
        · have h0 : hrvv = 0 := by
            rw [okBH] at hrv
            injection hrv with hh
            omega
          rw [← h0]; exact hpbh2
      | node rc rl rv2 rr =>
        have hredr : is_red (RBNode.node rc rl rv2 rr) = true →
            headColor (Path.goRight c l v p) = Color.black := by
          intro hx
          cases c with
          | black => rfl
          | red =>
            rcases Bool.or_eq_true_iff.mp hcc with h2 | h2
            · exact absurd h2 (by simp)
            · simp only [Bool.and_eq_true] at h2
              rw [hx] at h2
              exact absurd h2.2 (by simp)
        have := ihr (Path.goRight c l v p) k hrvv H (by simp) hmem2 hrv hpbh2
          hrr2 htop2 hnr hredr (by simp)
        obtain ⟨p2, heq, hc1, hc2, hc3⟩ := this
        refine ⟨p2, ?_, hc1, hc2, hc3⟩
        simp only [node_insert_node, hcmp]
        exact heq

/-- `List.pairwise_append` specialized to sorted lists of keys. -/
theorem sorted_append {l1 l2 : List Int} :
    List.Sorted (· < ·) (l1 ++ l2) ↔
      List.Sorted (· < ·) l1 ∧ List.Sorted (· < ·) l2 ∧
        ∀ a ∈ l1, ∀ b ∈ l2, a < b :=
  List.pairwise_append

/-- Ordering bookkeeping of the binary-search descent: the in-order
sequence of the tree with the red leaf attached is the old sorted sequence
with the new key inserted at its place. -/
theorem node_insert_order : ∀ (cur : RBNode) (p : Path) (k : Int),
    cur ≠ RBNode.nil →
    List.Sorted (· < ·) (ctxL p ++ inorder cur ++ ctxR p) →
    k ∉ ctxL p ++ inorder cur ++ ctxR p →
    (∀ x ∈ ctxL p, x < k) → (∀ x ∈ ctxR p, k < x) →
    ∃ p2, node_insert_node k cur p int_compare =
        Except.ok (RBNode.node Color.red RBNode.nil k RBNode.nil, p2) ∧
      List.Sorted (· < ·) (ctxL p2 ++ k :: ctxR p2) ∧
      (ctxL p2 ++ k :: ctxR p2).Perm (k :: (ctxL p ++ inorder cur ++ ctxR p)) := by
  intro cur
  induction cur with
  | nil => intro p k hne; exact absurd rfl hne
  | node c l v r ihl ihr =>
    intro p k _ hsort hmem hL hR
    have hkv : k ≠ v := by
      intro he
      exact hmem (by
        rw [he]
        simp only [List.mem_append]
        exact Or.inl (Or.inr (mem_inorder_self c l v r)))
    have hlist : ctxL p ++ inorder (RBNode.node c l v r) ++ ctxR p =
        ctxL p ++ inorder l ++ (v :: inorder r ++ ctxR p) := by
      simp [inorder]
    have hlist2 : ctxL p ++ inorder (RBNode.node c l v r) ++ ctxR p =
        (ctxL p ++ inorder l ++ [v]) ++ inorder r ++ ctxR p := by
      simp [inorder]
    rcases lt_trichotomy k v with hkv2 | hkv2 | hkv2
    · -- go left: the new context is goLeft c v r p
      have hcmp := int_compare_less hkv2
      have hsort2 : List.Sorted (· < ·)
          (ctxL (Path.goLeft c v r p) ++ inorder l ++ ctxR (Path.goLeft c v r p)) := by
        rw [hlist] at hsort
        simpa [ctxL, ctxR] using hsort
      have hmem2 : k ∉ ctxL (Path.goLeft c v r p) ++ inorder l ++
          ctxR (Path.goLeft c v r p) := by
        rw [hlist] at hmem
        simpa [ctxL, ctxR] using hmem
      have hvlt : ∀ x ∈ inorder r ++ ctxR p, v < x := by
        have hsub : List.Sublist (v :: (inorder r ++ ctxR p))
            (ctxL p ++ inorder l ++ (v :: inorder r ++ ctxR p)) := by
          have h1 : List.Sublist (v :: (inorder r ++ ctxR p))
              (v :: inorder r ++ ctxR p) := by
            simp
          exact h1.trans (List.sublist_append_right _ _)
        have hs0 := hsort
        rw [hlist] at hs0
        have hs3 : List.Sorted (· < ·) (v :: (inorder r ++ ctxR p)) :=
          hs0.sublist hsub
        exact (List.sorted_cons.mp hs3).1
      have hR2' : ∀ x ∈ v :: inorder r ++ ctxR p, k < x := by
        intro x hx
        rcases List.mem_cons.mp hx with hx | hx
        · rw [hx]; exact hkv2
        · rcases List.mem_append.mp hx with hx | hx
          · exact hkv2.trans (hvlt x (List.mem_append.mpr (Or.inl hx)))
          · exact hR x hx
      have hR2 : ∀ x ∈ ctxR (Path.goLeft c v r p), k < x := by
        simpa [ctxR] using hR2'
      have hL2 : ∀ x ∈ ctxL (Path.goLeft c v r p), x < k := by
        simpa [ctxL] using hL
      cases l with
      | nil =>
        refine ⟨Path.goLeft c v r p, by simp [node_insert_node, hcmp], ?_, ?_⟩
        · -- sortedness of the new full list
          rw [hlist] at hsort
          simp only [inorder, List.append_nil] at hsort
          simp only [ctxL, ctxR]
          rw [sorted_append] at hsort ⊢
          refine ⟨hsort.1, ?_, ?_⟩
          · rw [List.sorted_cons]
            exact ⟨fun b hb => hR2' b hb, hsort.2.1⟩
          · intro a ha b hb
            rcases List.mem_cons.mp hb with hb | hb
            · rw [hb]; exact hL a ha
            · exact hsort.2.2 a ha b hb
        · simp only [ctxL, ctxR]
          rw [hlist]
          simp only [inorder, List.append_nil]
          exact List.perm_middle
      | node lc ll lv2 lr =>
        have := ihl (Path.goLeft c v r p) k (by simp) hsort2 hmem2 hL2 hR2
        obtain ⟨p2, heq, hc1, hc2⟩ := this
        refine ⟨p2, ?_, hc1, ?_⟩
        · simp only [node_insert_node, hcmp]
          exact heq
        · refine hc2.trans ?_
          rw [hlist]
          simp [ctxL, ctxR]
    · exact absurd hkv2 hkv
    · -- go right: the new context is goRight c l v p
      have hcmp := int_compare_greater hkv2
      have hsort2 : List.Sorted (· < ·)
          (ctxL (Path.goRight c l v p) ++ inorder r ++ ctxR (Path.goRight c l v p)) := by
        rw [hlist2] at hsort
        simpa [ctxL, ctxR] using hsort
      have hmem2 : k ∉ ctxL (Path.goRight c l v p) ++ inorder r ++
          ctxR (Path.goRight c l v p) := by
        rw [hlist2] at hmem
        simpa [ctxL, ctxR] using hmem
      have hvgt : ∀ x ∈ ctxL p ++ inorder l, x < v := by
        have hsub : List.Sublist ((ctxL p ++ inorder l) ++ [v])
            ((ctxL p ++ inorder l ++ [v]) ++ inorder r ++ ctxR p) := by
          have h1 : List.Sublist ((ctxL p ++ inorder l) ++ [v])
              ((ctxL p ++ inorder l ++ [v]) ++ inorder r) := by
            simpa using List.sublist_append_left (ctxL p ++ inorder l ++ [v]) (inorder r)
          exact h1.trans (List.sublist_append_left _ _)
        have hs0 := hsort
        rw [hlist2] at hs0
        have hs3 : List.Sorted (· < ·) ((ctxL p ++ inorder l) ++ [v]) :=
          hs0.sublist hsub
        rw [sorted_append] at hs3
        intro x hx
        exact hs3.2.2 x hx v (by simp)
      have hL2' : ∀ x ∈ ctxL p ++ inorder l ++ [v], x < k := by
        intro x hx
        rcases List.mem_append.mp hx with hx | hx
        · exact (hvgt x hx).trans hkv2
        · rcases List.mem_singleton.mp hx with rfl
          exact hkv2
      have hL2 : ∀ x ∈ ctxL (Path.goRight c l v p), x < k := by
        simpa [ctxL] using hL2'
      have hR2 : ∀ x ∈ ctxR (Path.goRight c l v p), k < x := by
        simpa [ctxR] using hR
      cases r with
      | nil =>
        refine ⟨Path.goRight c l v p, by simp [node_insert_node, hcmp], ?_, ?_⟩
        · rw [hlist2] at hsort
          simp only [inorder, List.append_nil] at hsort
          simp only [ctxL, ctxR]
          rw [sorted_append] at hsort ⊢
          refine ⟨hsort.1, ?_, ?_⟩
          · rw [List.sorted_cons]
            exact ⟨fun b hb => hR b hb, hsort.2.1⟩
          · intro a ha b hb
            rcases List.mem_cons.mp hb with hb | hb
            · rw [hb]
              exact hL2' a ha
            · exact hsort.2.2 a ha b hb
        · simp only [ctxL, ctxR]
          rw [hlist2]
          simp only [inorder, List.append_nil]
          exact List.perm_middle
      | node rc rl rv2 rr =>
        have := ihr (Path.goRight c l v p) k (by simp) hsort2 hmem2 hL2 hR2
        obtain ⟨p2, heq, hc1, hc2⟩ := this
        refine ⟨p2, ?_, hc1, ?_⟩
        · simp only [node_insert_node, hcmp]
          exact heq
        · refine hc2.trans ?_
          rw [hlist2]
          simp [ctxL, ctxR]

theorem inorder_set_color (n : RBNode) (c : Color) :
    inorder (set_color n c) = inorder n := by
  cases n <;> simp [set_color, inorder]

theorem is_red_set_black (n : RBNode) :
    is_red (set_color n Color.black) = false := by
  cases n <;> simp [set_color, is_red]

theorem rootBlack_set_black (n : RBNode) :
    rootBlack (set_color n Color.black) = true := by
  cases n <;> simp [set_color, rootBlack]

theorem noRedRed_node {c : Color} {l r : RBNode} {v : Int} :
    noRedRed (RBNode.node c l v r) = true ↔
      (c = Color.black ∨ (is_red l = false ∧ is_red r = false)) ∧
        noRedRed l = true ∧ noRedRed r = true := by
  simp only [noRedRed, Bool.and_eq_true, Bool.or_eq_true, decide_eq_true_eq,
    Bool.not_eq_true']
  tauto

theorem noRedRed_set_black {n : RBNode} (h : noRedRed n = true) :
    noRedRed (set_color n Color.black) = true := by
  cases n with
  | nil => simpa [set_color] using h
  | node c l v r =>
    rw [noRedRed_node] at h
    rw [set_color, noRedRed_node]
    exact ⟨Or.inl rfl, h.2⟩

theorem okBH_node_intro {c : Color} {l r : RBNode} {v : Int} {a : Nat}
    (hl : okBH l = some a) (hr : okBH r = some a) :
    okBH (RBNode.node c l v r) = some (a + black1 c) := by
  simp [okBH, hl, hr]

theorem okBH_node_destruct {c : Color} {l r : RBNode} {v : Int} {h : Nat}
    (hh : okBH (RBNode.node c l v r) = some h) :
    ∃ a, okBH l = some a ∧ okBH r = some a ∧ h = a + black1 c := by
  rw [okBH] at hh
  rcases hl : okBH l with _ | a
  · rw [hl] at hh; exact absurd hh (by simp)
  rcases hr : okBH r with _ | b
  · rw [hl, hr] at hh; exact absurd hh (by simp)
  rw [hl, hr] at hh
  simp only [] at hh
  by_cases he : a = b
  · rw [if_pos he] at hh
    refine ⟨a, rfl, by rw [he], ?_⟩
    injection hh with hh
    omega
  · rw [if_neg he] at hh; exact absurd hh (by simp)

theorem okBH_set_black_of_red {n : RBNode} {h : Nat}
    (hr : is_red n = true) (hb : okBH n = some h) :
    okBH (set_color n Color.black) = some (h + 1) := by
  cases n with
  | nil => simp [is_red] at hr
  | node c l v r =>
    have hc : c = Color.red := by simpa [is_red] using hr
    subst hc
    obtain ⟨a, hl2, hr2, he⟩ := okBH_node_destruct hb
    rw [set_color]
    rw [okBH_node_intro hl2 hr2]
    simp [black1] at he ⊢
    omega

theorem pathOkBH_goLeft {c : Color} {v : Int} {r : RBNode} {p : Path}
    {h H : Nat} :
    pathOkBH (Path.goLeft c v r p) h = some H ↔
      okBH r = some h ∧ pathOkBH p (h + black1 c) = some H := by
  simp only [pathOkBH]
  rcases hr : okBH r with _ | a
  · simp
  · by_cases he : a = h
    · subst he; simp
    · simp [he]

theorem pathOkBH_goRight {c : Color} {v : Int} {l : RBNode} {p : Path}
    {h H : Nat} :
    pathOkBH (Path.goRight c l v p) h = some H ↔
      okBH l = some h ∧ pathOkBH p (h + black1 c) = some H := by
  simp only [pathOkBH]
  rcases hl : okBH l with _ | a
  · simp
  · by_cases he : a = h
    · subst he; simp
    · simp [he]

theorem pathRR_goLeft {c : Color} {v : Int} {r : RBNode} {p : Path} :
    pathRR (Path.goLeft c v r p) = true ↔
      noRedRed r = true ∧
        (c = Color.black ∨ (is_red r = false ∧ headColor p = Color.black)) ∧
        pathRR p = true := by
  simp only [pathRR, Bool.and_eq_true, Bool.or_eq_true, decide_eq_true_eq,
    Bool.not_eq_true']
  tauto

theorem pathRR_goRight {c : Color} {v : Int} {l : RBNode} {p : Path} :
    pathRR (Path.goRight c l v p) = true ↔
      noRedRed l = true ∧
        (c = Color.black ∨ (is_red l = false ∧ headColor p = Color.black)) ∧
        pathRR p = true := by
  simp only [pathRR, Bool.and_eq_true, Bool.or_eq_true, decide_eq_true_eq,
    Bool.not_eq_true']
  tauto

theorem pathTopBlack_go_goLeft {c c2 : Color} {v v2 : Int} {r r2 : RBNode}
    {q : Path} :
    pathTopBlack (Path.goLeft c v r (Path.goLeft c2 v2 r2 q)) =
      pathTopBlack (Path.goLeft c2 v2 r2 q) := by
  rfl

theorem pathTopBlack_step {c : Color} {v : Int} {r : RBNode} {q : Path}
    (hq : q ≠ Path.root)
    (h : pathTopBlack (Path.goLeft c v r q) = true) :
    pathTopBlack q = true := by
  cases q with
  | root => exact absurd rfl hq
  | goLeft c2 v2 r2 q2 => simpa [pathTopBlack] using h
  | goRight c2 l2 v2 q2 => simpa [pathTopBlack] using h

theorem pathTopBlack_step_right {c : Color} {v : Int} {l : RBNode} {q : Path}
    (hq : q ≠ Path.root)
    (h : pathTopBlack (Path.goRight c l v q) = true) :
    pathTopBlack q = true := by
  cases q with
  | root => exact absurd rfl hq
  | goLeft c2 v2 r2 q2 => simpa [pathTopBlack] using h
  | goRight c2 l2 v2 q2 => simpa [pathTopBlack] using h

/-- Case E of the fix-up, outer-left configuration: red parent on the left
of the grandparent, red focus on the left of the parent, non-red uncle.
`insert_pred_ublack_opp` falls straight through to
`insert_pred_ublack_same`, which recolors and right-rotates the
grandparent. -/
theorem fix_case_LL (n pr gr : RBNode) (pv gv : Int) (gc : Color) (gp : Path)
    (h H : Nat)
    (hn : noRedRed n = true) (hnpr : noRedRed pr = true)
    (hngr : noRedRed gr = true)
    (hpr_nr : is_red pr = false) (hgr_nr : is_red gr = false)
    (hbn : okBH n = some h) (hbpr : okBH pr = some h) (hbgr : okBH gr = some h)
    (hgp : pathOkBH gp (h + 1) = some H)
    (hrrgp : pathRR gp = true) (htopgp : pathTopBlack gp = true) :
    ∃ t, insert_pred_ublack_opp n
        (Path.goLeft Color.red pv pr (Path.goLeft gc gv gr gp)) =
        Except.ok t ∧
      noRedRed t = true ∧ (∃ H2, okBH t = some H2) ∧ rootBlack t = true ∧
      inorder t =
        ctxL (Path.goLeft Color.red pv pr (Path.goLeft gc gv gr gp)) ++
          inorder n ++
          ctxR (Path.goLeft Color.red pv pr (Path.goLeft gc gv gr gp)) := by
  have hbin : okBH (RBNode.node Color.red pr gv gr) = some h := by
    have := okBH_node_intro (c := Color.red) (v := gv) hbpr hbgr
    simpa [black1] using this
  have hbfin : okBH (RBNode.node Color.black n pv
      (RBNode.node Color.red pr gv gr)) = some (h + 1) := by
    have := okBH_node_intro (c := Color.black) (v := pv) hbn hbin
    simpa [black1] using this
  have hrrfin : noRedRed (RBNode.node Color.black n pv
      (RBNode.node Color.red pr gv gr)) = true := by
    rw [noRedRed_node]
    exact ⟨Or.inl rfl, hn,
      noRedRed_node.mpr ⟨Or.inr ⟨hpr_nr, hgr_nr⟩, hnpr, hngr⟩⟩
  have hres := plug_good gp
    (RBNode.node Color.black n pv (RBNode.node Color.red pr gv gr))
    (h + 1) H hgp hrrgp htopgp hbfin hrrfin (Or.inl (by simp [is_red]))
  refine ⟨plug (RBNode.node Color.black n pv
      (RBNode.node Color.red pr gv gr)) gp, ?_, hres.2.1, ⟨H, hres.1⟩,
      hres.2.2, ?_⟩
  · simp [insert_pred_ublack_opp, insert_pred_ublack_same, rrot_local]
  · rw [inorder_plug]
    simp [ctxL, ctxR, inorder]

/-- Case E, outer-right configuration (mirror of `fix_case_LL`):
recolor and left-rotate the grandparent. -/
theorem fix_case_RR (n pl gl : RBNode) (pv gv : Int) (gc : Color) (gp : Path)
    (h H : Nat)
    (hn : noRedRed n = true) (hnpl : noRedRed pl = true)
    (hngl : noRedRed gl = true)
    (hpl_nr : is_red pl = false) (hgl_nr : is_red gl = false)
    (hbn : okBH n = some h) (hbpl : okBH pl = some h) (hbgl : okBH gl = some h)
    (hgp : pathOkBH gp (h + 1) = some H)
    (hrrgp : pathRR gp = true) (htopgp : pathTopBlack gp = true) :
    ∃ t, insert_pred_ublack_opp n
        (Path.goRight Color.red pl pv (Path.goRight gc gl gv gp)) =
        Except.ok t ∧
      noRedRed t = true ∧ (∃ H2, okBH t = some H2) ∧ rootBlack t = true ∧
      inorder t =
        ctxL (Path.goRight Color.red pl pv (Path.goRight gc gl gv gp)) ++
          inorder n ++
          ctxR (Path.goRight Color.red pl pv (Path.goRight gc gl gv gp)) := by
  have hbin : okBH (RBNode.node Color.red gl gv pl) = some h := by
    have := okBH_node_intro (c := Color.red) (v := gv) hbgl hbpl
    simpa [black1] using this
  have hbfin : okBH (RBNode.node Color.black
      (RBNode.node Color.red gl gv pl) pv n) = some (h + 1) := by
    have := okBH_node_intro (c := Color.black) (v := pv) hbin hbn
    simpa [black1] using this
  have hrrfin : noRedRed (RBNode.node Color.black
      (RBNode.node Color.red gl gv pl) pv n) = true := by
    rw [noRedRed_node]
    exact ⟨Or.inl rfl,
      noRedRed_node.mpr ⟨Or.inr ⟨hgl_nr, hpl_nr⟩, hngl, hnpl⟩, hn⟩
  have hres := plug_good gp
    (RBNode.node Color.black (RBNode.node Color.red gl gv pl) pv n)
    (h + 1) H hgp hrrgp htopgp hbfin hrrfin (Or.inl (by simp [is_red]))
  refine ⟨plug (RBNode.node Color.black
      (RBNode.node Color.red gl gv pl) pv n) gp, ?_, hres.2.1, ⟨H, hres.1⟩,
      hres.2.2, ?_⟩
  · simp [insert_pred_ublack_opp, insert_pred_ublack_same, lrot_local]
  · rw [inorder_plug]
    simp [ctxL, ctxR, inorder]

/-- Case D followed by case E, inner configuration with the focus left of
its parent and the parent right of the grandparent: right-rotate the
parent, refocus, then recolor and left-rotate the grandparent. The focus is
a red node `(a, w, b)`. -/
theorem fix_case_LR (a b pr gl : RBNode) (w pv gv : Int) (gc : Color)
    (gp : Path) (h H : Nat)
    (hna : noRedRed a = true) (hnb : noRedRed b = true)
    (hnpr : noRedRed pr = true) (hngl : noRedRed gl = true)
    (ha_nr : is_red a = false) (hb_nr : is_red b = false)
    (hpr_nr : is_red pr = false) (hgl_nr : is_red gl = false)
    (hba : okBH a = some h) (hbb : okBH b = some h)
    (hbpr : okBH pr = some h) (hbgl : okBH gl = some h)
    (hgp : pathOkBH gp (h + 1) = some H)
    (hrrgp : pathRR gp = true) (htopgp : pathTopBlack gp = true) :
    ∃ t, insert_pred_ublack_opp (RBNode.node Color.red a w b)
        (Path.goLeft Color.red pv pr (Path.goRight gc gl gv gp)) =
        Except.ok t ∧
      noRedRed t = true ∧ (∃ H2, okBH t = some H2) ∧ rootBlack t = true ∧
      inorder t =
        ctxL (Path.goLeft Color.red pv pr (Path.goRight gc gl gv gp)) ++
          inorder (RBNode.node Color.red a w b) ++
          ctxR (Path.goLeft Color.red pv pr (Path.goRight gc gl gv gp)) := by
  have hbL : okBH (RBNode.node Color.red gl gv a) = some h := by
    have := okBH_node_intro (c := Color.red) (v := gv) hbgl hba
    simpa [black1] using this
  have hbR : okBH (RBNode.node Color.red b pv pr) = some h := by
    have := okBH_node_intro (c := Color.red) (v := pv) hbb hbpr
    simpa [black1] using this
  have hbfin : okBH (RBNode.node Color.black (RBNode.node Color.red gl gv a)
      w (RBNode.node Color.red b pv pr)) = some (h + 1) := by
    have := okBH_node_intro (c := Color.black) (v := w) hbL hbR
    simpa [black1] using this
  have hrrfin : noRedRed (RBNode.node Color.black
      (RBNode.node Color.red gl gv a) w
      (RBNode.node Color.red b pv pr)) = true := by
    rw [noRedRed_node]
    exact ⟨Or.inl rfl,
      noRedRed_node.mpr ⟨Or.inr ⟨hgl_nr, ha_nr⟩, hngl, hna⟩,
      noRedRed_node.mpr ⟨Or.inr ⟨hb_nr, hpr_nr⟩, hnb, hnpr⟩⟩
  have hres := plug_good gp
    (RBNode.node Color.black (RBNode.node Color.red gl gv a) w
      (RBNode.node Color.red b pv pr))
    (h + 1) H hgp hrrgp htopgp hbfin hrrfin (Or.inl (by simp [is_red]))
  refine ⟨plug (RBNode.node Color.black (RBNode.node Color.red gl gv a) w
      (RBNode.node Color.red b pv pr)) gp, ?_, hres.2.1, ⟨H, hres.1⟩,
      hres.2.2, ?_⟩
  · simp [insert_pred_ublack_opp, insert_pred_ublack_same, rrot_local,
      lrot_local]
  · rw [inorder_plug]
    simp [ctxL, ctxR, inorder]

/-- Case D followed by case E, inner configuration with the focus right of
its parent and the parent left of the grandparent: left-rotate the parent,
refocus, then recolor and right-rotate the grandparent. -/
theorem fix_case_RL (a b pl gr : RBNode) (w pv gv : Int) (gc : Color)
    (gp : Path) (h H : Nat)
    (hna : noRedRed a = true) (hnb : noRedRed b = true)
    (hnpl : noRedRed pl = true) (hngr : noRedRed gr = true)
    (ha_nr : is_red a = false) (hb_nr : is_red b = false)
    (hpl_nr : is_red pl = false) (hgr_nr : is_red gr = false)
    (hba : okBH a = some h) (hbb : okBH b = some h)
    (hbpl : okBH pl = some h) (hbgr : okBH gr = some h)
    (hgp : pathOkBH gp (h + 1) = some H)
    (hrrgp : pathRR gp = true) (htopgp : pathTopBlack gp = true) :
    ∃ t, insert_pred_ublack_opp (RBNode.node Color.red a w b)
        (Path.goRight Color.red pl pv (Path.goLeft gc gv gr gp)) =
        Except.ok t ∧
      noRedRed t = true ∧ (∃ H2, okBH t = some H2) ∧ rootBlack t = true ∧
      inorder t =
        ctxL (Path.goRight Color.red pl pv (Path.goLeft gc gv gr gp)) ++
          inorder (RBNode.node Color.red a w b) ++
          ctxR (Path.goRight Color.red pl pv (Path.goLeft gc gv gr gp)) := by
  have hbL : okBH (RBNode.node Color.red pl pv a) = some h := by
    have := okBH_node_intro (c := Color.red) (v := pv) hbpl hba
    simpa [black1] using this
  have hbR : okBH (RBNode.node Color.red b gv gr) = some h := by
    have := okBH_node_intro (c := Color.red) (v := gv) hbb hbgr
    simpa [black1] using this
  have hbfin : okBH (RBNode.node Color.black (RBNode.node Color.red pl pv a)
      w (RBNode.node Color.red b gv gr)) = some (h + 1) := by
    have := okBH_node_intro (c := Color.black) (v := w) hbL hbR
    simpa [black1] using this
  have hrrfin : noRedRed (RBNode.node Color.black
      (RBNode.node Color.red pl pv a) w
      (RBNode.node Color.red b gv gr)) = true := by
    rw [noRedRed_node]
    exact ⟨Or.inl rfl,
      noRedRed_node.mpr ⟨Or.inr ⟨hpl_nr, ha_nr⟩, hnpl, hna⟩,
      noRedRed_node.mpr ⟨Or.inr ⟨hb_nr, hgr_nr⟩, hnb, hngr⟩⟩
  have hres := plug_good gp
    (RBNode.node Color.black (RBNode.node Color.red pl pv a) w
      (RBNode.node Color.red b gv gr))
    (h + 1) H hgp hrrgp htopgp hbfin hrrfin (Or.inl (by simp [is_red]))
  refine ⟨plug (RBNode.node Color.black (RBNode.node Color.red pl pv a) w
      (RBNode.node Color.red b gv gr)) gp, ?_, hres.2.1, ⟨H, hres.1⟩,
      hres.2.2, ?_⟩
  · simp [insert_pred_ublack_opp, insert_pred_ublack_same, rrot_local,
      lrot_local]
  · rw [inorder_plug]
    simp [ctxL, ctxR, inorder]

theorem set_black_of_not_red {n : RBNode} (h : is_red n = false) :
    set_color n Color.black = n := by
  cases n with
  | nil => rfl
  | node c l v r =>
    cases c with
    | red => simp [is_red] at h
    | black => rfl

/-- Root case of the fix-up: blacken the focus and rebuild. -/
theorem insert_base_root_spec (n : RBNode) (h : Nat)
    (hn : noRedRed n = true) (hb : okBH n = some h) :
    ∃ t, insert_base n Path.root = Except.ok t ∧ noRedRed t = true ∧
      (∃ H2, okBH t = some H2) ∧ rootBlack t = true ∧
      inorder t = ctxL Path.root ++ inorder n ++ ctxR Path.root := by
  refine ⟨set_color n Color.black, by simp [insert_base], noRedRed_set_black hn,
    ?_, rootBlack_set_black n, by simp [ctxL, ctxR, inorder_set_color]⟩
  by_cases hr : is_red n = true
  · exact ⟨h + 1, okBH_set_black_of_red hr hb⟩
  · rw [set_black_of_not_red (by simpa using hr)]
    exact ⟨h, hb⟩

/-- The insert fix-up, run from a well-formed focused state, terminates
successfully and restores all three color invariants while leaving the
in-order key sequence of the whole tree unchanged. -/
theorem insert_fix_spec : ∀ (N : Nat) (n : RBNode) (p : Path),
    pathSize p ≤ N →
    noRedRed n = true → pathRR p = true → pathTopBlack p = true →
    ∀ h H, okBH n = some h → pathOkBH p h = some H →
    (p = Path.root ∨ is_red n = true) →
    ∃ t, insert_base n p = Except.ok t ∧ noRedRed t = true ∧
      (∃ H2, okBH t = some H2) ∧ rootBlack t = true ∧
      inorder t = ctxL p ++ inorder n ++ ctxR p := by
  intro N
  induction N with
  | zero =>
    intro n p hsz hn hrr htop h H hb hpb _
    cases p with
    | root => exact insert_base_root_spec n h hn hb
    | goLeft pc pv pr q => simp [pathSize] at hsz
    | goRight pc pl pv q => simp [pathSize] at hsz
  | succ N ih =>
    intro n p hsz hn hrr htop h H hb hpb hdisj
    cases p with
    | root => exact insert_base_root_spec n h hn hb
    | goLeft pc pv pr q =>
      have hredn : is_red n = true := by
        rcases hdisj with hd | hd
        · exact absurd hd (by simp)
        · exact hd
      obtain ⟨hbpr, hpbq⟩ := pathOkBH_goLeft.mp hpb
      obtain ⟨hnpr, hcolp, hrrq⟩ := pathRR_goLeft.mp hrr
      cases pc with
      | black =>
        -- black parent: nothing to fix
        have hres := plug_good (Path.goLeft Color.black pv pr q) n h H hpb hrr
          htop hb hn (Or.inr ⟨rfl, by simp⟩)
        refine ⟨plug n (Path.goLeft Color.black pv pr q), ?_, hres.2.1,
          ⟨H, hres.1⟩, hres.2.2, by rw [inorder_plug]⟩
        simp [insert_base, insert_black_parent]
      | red =>
        have hprcol : is_red pr = false ∧ headColor q = Color.black := by
          rcases hcolp with hx | hx
          · exact absurd hx (by simp)
          · exact hx
        simp only [black1, Nat.add_zero] at hpbq
        cases q with
        | root => simp [pathTopBlack] at htop
        | goLeft gc gv gr gp =>
          -- parent is the left child of the grandparent; uncle = gr
          have hgc : gc = Color.black := by simpa [headColor] using hprcol.2
          subst hgc
          obtain ⟨hbgr, hpbgp⟩ := pathOkBH_goLeft.mp hpbq
          simp only [black1] at hpbgp
          obtain ⟨hngr, _, hrrgp⟩ := pathRR_goLeft.mp hrrq
          have htopq : pathTopBlack (Path.goLeft Color.black gv gr gp) = true :=
            pathTopBlack_step (by simp) htop
          have htopgp : pathTopBlack gp = true := by
            cases gp with
            | root => rfl
            | goLeft c2 v2 r2 q2 => exact pathTopBlack_step (by simp) htopq
            | goRight c2 l2 v2 q2 => exact pathTopBlack_step (by simp) htopq
          have hszgp : pathSize gp ≤ N := by
            simp only [pathSize] at hsz
            omega
          by_cases hu : is_red gr = true
          · -- uncle red: recolor and recurse on the grandparent
            have hg_rr : noRedRed (RBNode.node Color.red
                (RBNode.node Color.black n pv pr) gv
                (set_color gr Color.black)) = true := by
              rw [noRedRed_node]
              refine ⟨Or.inr ⟨by simp [is_red], is_red_set_black gr⟩, ?_, ?_⟩
              · exact noRedRed_node.mpr ⟨Or.inl rfl, hn, hnpr⟩
              · exact noRedRed_set_black hngr
            have hg_bh : okBH (RBNode.node Color.red
                (RBNode.node Color.black n pv pr) gv
                (set_color gr Color.black)) = some (h + 1) := by
              have h1 : okBH (RBNode.node Color.black n pv pr) = some (h + 1) := by
                have := okBH_node_intro (c := Color.black) (v := pv) hb hbpr
                simpa [black1] using this
              have h2 : okBH (set_color gr Color.black) = some (h + 1) :=
                okBH_set_black_of_red hu hbgr
              have := okBH_node_intro (c := Color.red) (v := gv) h1 h2
              simpa [black1] using this
            have := ih (RBNode.node Color.red (RBNode.node Color.black n pv pr)
              gv (set_color gr Color.black)) gp hszgp hg_rr hrrgp htopgp
              (h + 1) H hg_bh hpbgp (Or.inr (by simp [is_red]))
            obtain ⟨t, heq, ht1, ht2, ht3, ht4⟩ := this
            refine ⟨t, ?_, ht1, ht2, ht3, ?_⟩
            · have hstep : insert_base n
                  (Path.goLeft Color.red pv pr (Path.goLeft Color.black gv gr gp)) =
                  insert_base (RBNode.node Color.red
                    (RBNode.node Color.black n pv pr) gv
                    (set_color gr Color.black)) gp := by
                simp [insert_base, insert_black_parent, insert_both_red, hu]
              rw [hstep]
              exact heq
            · rw [ht4]
              simp [ctxL, ctxR, inorder, inorder_set_color]
          · -- uncle black or absent: terminal rotation case
            have hu' : is_red gr = false := by simpa using hu
            have hstep : insert_base n
                (Path.goLeft Color.red pv pr (Path.goLeft Color.black gv gr gp)) =
                insert_pred_ublack_opp n
                  (Path.goLeft Color.red pv pr (Path.goLeft Color.black gv gr gp)) := by
              simp [insert_base, insert_black_parent, insert_both_red, hu']
            rw [hstep]
            exact fix_case_LL n pr gr pv gv Color.black gp h H hn hnpr hngr
              hprcol.1 hu' hb hbpr hbgr hpbgp hrrgp htopgp
        | goRight gc gl gv gp =>
          -- parent is the right child of the grandparent; uncle = gl
          have hgc : gc = Color.black := by simpa [headColor] using hprcol.2
          subst hgc
          obtain ⟨hbgl, hpbgp⟩ := pathOkBH_goRight.mp hpbq
          simp only [black1] at hpbgp
          obtain ⟨hngl, _, hrrgp⟩ := pathRR_goRight.mp hrrq
          have htopq : pathTopBlack (Path.goRight Color.black gl gv gp) = true :=
            pathTopBlack_step (by simp) htop
          have htopgp : pathTopBlack gp = true := by
            cases gp with
            | root => rfl
            | goLeft c2 v2 r2 q2 => exact pathTopBlack_step_right (by simp) htopq
            | goRight c2 l2 v2 q2 => exact pathTopBlack_step_right (by simp) htopq
          have hszgp : pathSize gp ≤ N := by
            simp only [pathSize] at hsz
            omega
          by_cases hu : is_red gl = true
          · -- uncle red: recolor and recurse on the grandparent
            have hg_rr : noRedRed (RBNode.node Color.red
                (set_color gl Color.black) gv
                (RBNode.node Color.black n pv pr)) = true := by
              rw [noRedRed_node]
              refine ⟨Or.inr ⟨is_red_set_black gl, by simp [is_red]⟩, ?_, ?_⟩
              · exact noRedRed_set_black hngl
              · exact noRedRed_node.mpr ⟨Or.inl rfl, hn, hnpr⟩
            have hg_bh : okBH (RBNode.node Color.red
                (set_color gl Color.black) gv
                (RBNode.node Color.black n pv pr)) = some (h + 1) := by
              have h1 : okBH (RBNode.node Color.black n pv pr) = some (h + 1) := by
                have := okBH_node_intro (c := Color.black) (v := pv) hb hbpr
                simpa [black1] using this
              have h2 : okBH (set_color gl Color.black) = some (h + 1) :=
                okBH_set_black_of_red hu hbgl
              have := okBH_node_intro (c := Color.red) (v := gv) h2 h1
              simpa [black1] using this
            have := ih (RBNode.node Color.red (set_color gl Color.black) gv
              (RBNode.node Color.black n pv pr)) gp hszgp hg_rr hrrgp htopgp
              (h + 1) H hg_bh hpbgp (Or.inr (by simp [is_red]))
            obtain ⟨t, heq, ht1, ht2, ht3, ht4⟩ := this
            refine ⟨t, ?_, ht1, ht2, ht3, ?_⟩
            · have hstep : insert_base n
                  (Path.goLeft Color.red pv pr (Path.goRight Color.black gl gv gp)) =
                  insert_base (RBNode.node Color.red
                    (set_color gl Color.black) gv
                    (RBNode.node Color.black n pv pr)) gp := by
                simp [insert_base, insert_black_parent, insert_both_red, hu]
              rw [hstep]
              exact heq
            · rw [ht4]
              simp [ctxL, ctxR, inorder, inorder_set_color]
          · -- uncle black or absent: inner configuration, double rotation
            have hu' : is_red gl = false := by simpa using hu
            cases n with
            | nil => simp [is_red] at hredn
            | node nc a w b =>
              have hnc : nc = Color.red := by simpa [is_red] using hredn
              subst hnc
              obtain ⟨hcab, hna, hnb⟩ := noRedRed_node.mp hn
              have hab_nr : is_red a = false ∧ is_red b = false := by
                rcases hcab with hx | hx
                · exact absurd hx (by simp)
                · exact hx
              obtain ⟨ha2, hba2, hbb2, habh⟩ := okBH_node_destruct hb
              simp only [black1, Nat.add_zero] at habh
              subst habh
              have hstep : insert_base (RBNode.node Color.red a w b)
                  (Path.goLeft Color.red pv pr (Path.goRight Color.black gl gv gp)) =
                  insert_pred_ublack_opp (RBNode.node Color.red a w b)
                    (Path.goLeft Color.red pv pr
                      (Path.goRight Color.black gl gv gp)) := by
                simp [insert_base, insert_black_parent, insert_both_red, hu']
              rw [hstep]
              exact fix_case_LR a b pr gl w pv gv Color.black gp h H hna hnb
                hnpr hngl hab_nr.1 hab_nr.2 hprcol.1 hu' hba2 hbb2 hbpr hbgl
                hpbgp hrrgp htopgp
    | goRight pc pl pv q =>
      have hredn : is_red n = true := by
        rcases hdisj with hd | hd
        · exact absurd hd (by simp)
        · exact hd
      obtain ⟨hbpl, hpbq⟩ := pathOkBH_goRight.mp hpb
      obtain ⟨hnpl, hcolp, hrrq⟩ := pathRR_goRight.mp hrr
      cases pc with
      | black =>
        have hres := plug_good (Path.goRight Color.black pl pv q) n h H hpb hrr
          htop hb hn (Or.inr ⟨rfl, by simp⟩)
        refine ⟨plug n (Path.goRight Color.black pl pv q), ?_, hres.2.1,
          ⟨H, hres.1⟩, hres.2.2, by rw [inorder_plug]⟩
        simp [insert_base, insert_black_parent]
      | red =>
        have hplcol : is_red pl = false ∧ headColor q = Color.black := by
          rcases hcolp with hx | hx
          · exact absurd hx (by simp)
          · exact hx
        simp only [black1, Nat.add_zero] at hpbq
        cases q with
        | root => simp [pathTopBlack] at htop
        | goLeft gc gv gr gp =>
          -- parent is the left child of the grandparent; uncle = gr
          have hgc : gc = Color.black := by simpa [headColor] using hplcol.2
          subst hgc
          obtain ⟨hbgr, hpbgp⟩ := pathOkBH_goLeft.mp hpbq
          simp only [black1] at hpbgp
          obtain ⟨hngr, _, hrrgp⟩ := pathRR_goLeft.mp hrrq
          have htopq : pathTopBlack (Path.goLeft Color.black gv gr gp) = true :=
            pathTopBlack_step_right (by simp) htop
          have htopgp : pathTopBlack gp = true := by
            cases gp with
            | root => rfl
            | goLeft c2 v2 r2 q2 => exact pathTopBlack_step (by simp) htopq
            | goRight c2 l2 v2 q2 => exact pathTopBlack_step (by simp) htopq
          have hszgp : pathSize gp ≤ N := by
            simp only [pathSize] at hsz
            omega
          by_cases hu : is_red gr = true
          · -- uncle red
            have hg_rr : noRedRed (RBNode.node Color.red
                (RBNode.node Color.black pl pv n) gv
                (set_color gr Color.black)) = true := by
              rw [noRedRed_node]
              refine ⟨Or.inr ⟨by simp [is_red], is_red_set_black gr⟩, ?_, ?_⟩
              · exact noRedRed_node.mpr ⟨Or.inl rfl, hnpl, hn⟩
              · exact noRedRed_set_black hngr
            have hg_bh : okBH (RBNode.node Color.red
                (RBNode.node Color.black pl pv n) gv
                (set_color gr Color.black)) = some (h + 1) := by
              have h1 : okBH (RBNode.node Color.black pl pv n) = some (h + 1) := by
                have := okBH_node_intro (c := Color.black) (v := pv) hbpl hb
                simpa [black1] using this
              have h2 : okBH (set_color gr Color.black) = some (h + 1) :=
                okBH_set_black_of_red hu hbgr
              have := okBH_node_intro (c := Color.red) (v := gv) h1 h2
              simpa [black1] using this
            have := ih (RBNode.node Color.red (RBNode.node Color.black pl pv n)
              gv (set_color gr Color.black)) gp hszgp hg_rr hrrgp htopgp
              (h + 1) H hg_bh hpbgp (Or.inr (by simp [is_red]))
            obtain ⟨t, heq, ht1, ht2, ht3, ht4⟩ := this
            refine ⟨t, ?_, ht1, ht2, ht3, ?_⟩
            · have hstep : insert_base n
                  (Path.goRight Color.red pl pv (Path.goLeft Color.black gv gr gp)) =
                  insert_base (RBNode.node Color.red
                    (RBNode.node Color.black pl pv n) gv
                    (set_color gr Color.black)) gp := by
                simp [insert_base, insert_black_parent, insert_both_red, hu]
              rw [hstep]
              exact heq
            · rw [ht4]
              simp [ctxL, ctxR, inorder, inorder_set_color]
          · -- uncle black or absent: inner configuration, double rotation
            have hu' : is_red gr = false := by simpa using hu
            cases n with
            | nil => simp [is_red] at hredn
            | node nc a w b =>
              have hnc : nc = Color.red := by simpa [is_red] using hredn
              subst hnc
              obtain ⟨hcab, hna, hnb⟩ := noRedRed_node.mp hn
              have hab_nr : is_red a = false ∧ is_red b = false := by
                rcases hcab with hx | hx
                · exact absurd hx (by simp)
                · exact hx
              obtain ⟨ha2, hba2, hbb2, habh⟩ := okBH_node_destruct hb
              simp only [black1, Nat.add_zero] at habh
              subst habh
              have hstep : insert_base (RBNode.node Color.red a w b)
                  (Path.goRight Color.red pl pv (Path.goLeft Color.black gv gr gp)) =
                  insert_pred_ublack_opp (RBNode.node Color.red a w b)
                    (Path.goRight Color.red pl pv
                      (Path.goLeft Color.black gv gr gp)) := by
                simp [insert_base, insert_black_parent, insert_both_red, hu']
              rw [hstep]
              exact fix_case_RL a b pl gr w pv gv Color.black gp h H hna hnb
                hnpl hngr hab_nr.1 hab_nr.2 hplcol.1 hu' hba2 hbb2 hbpl hbgr
                hpbgp hrrgp htopgp
        | goRight gc gl gv gp =>
          -- parent is the right child of the grandparent; uncle = gl
          have hgc : gc = Color.black := by simpa [headColor] using hplcol.2
          subst hgc
          obtain ⟨hbgl, hpbgp⟩ := pathOkBH_goRight.mp hpbq
          simp only [black1] at hpbgp
          obtain ⟨hngl, _, hrrgp⟩ := pathRR_goRight.mp hrrq
          have htopq : pathTopBlack (Path.goRight Color.black gl gv gp) = true :=
            pathTopBlack_step_right (by simp) htop
          have htopgp : pathTopBlack gp = true := by
            cases gp with
            | root => rfl
            | goLeft c2 v2 r2 q2 => exact pathTopBlack_step_right (by simp) htopq
            | goRight c2 l2 v2 q2 => exact pathTopBlack_step_right (by simp) htopq
          have hszgp : pathSize gp ≤ N := by
            simp only [pathSize] at hsz
            omega
          by_cases hu : is_red gl = true
          · -- uncle red
            have hg_rr : noRedRed (RBNode.node Color.red
                (set_color gl Color.black) gv
                (RBNode.node Color.black pl pv n)) = true := by
              rw [noRedRed_node]
              refine ⟨Or.inr ⟨is_red_set_black gl, by simp [is_red]⟩, ?_, ?_⟩
              · exact noRedRed_set_black hngl
              · exact noRedRed_node.mpr ⟨Or.inl rfl, hnpl, hn⟩
            have hg_bh : okBH (RBNode.node Color.red
                (set_color gl Color.black) gv
                (RBNode.node Color.black pl pv n)) = some (h + 1) := by
              have h1 : okBH (RBNode.node Color.black pl pv n) = some (h + 1) := by
                have := okBH_node_intro (c := Color.black) (v := pv) hbpl hb
                simpa [black1] using this
              have h2 : okBH (set_color gl Color.black) = some (h + 1) :=
                okBH_set_black_of_red hu hbgl
              have := okBH_node_intro (c := Color.red) (v := gv) h2 h1
              simpa [black1] using this
            have := ih (RBNode.node Color.red (set_color gl Color.black) gv
              (RBNode.node Color.black pl pv n)) gp hszgp hg_rr hrrgp htopgp
              (h + 1) H hg_bh hpbgp (Or.inr (by simp [is_red]))
            obtain ⟨t, heq, ht1, ht2, ht3, ht4⟩ := this
            refine ⟨t, ?_, ht1, ht2, ht3, ?_⟩
            · have hstep : insert_base n
                  (Path.goRight Color.red pl pv (Path.goRight Color.black gl gv gp)) =
                  insert_base (RBNode.node Color.red
                    (set_color gl Color.black) gv
                    (RBNode.node Color.black pl pv n)) gp := by
                simp [insert_base, insert_black_parent, insert_both_red, hu]
              rw [hstep]
              exact heq
            · rw [ht4]
              simp [ctxL, ctxR, inorder, inorder_set_color]
          · -- uncle black or absent: outer configuration
            have hu' : is_red gl = false := by simpa using hu
            have hstep : insert_base n
                (Path.goRight Color.red pl pv (Path.goRight Color.black gl gv gp)) =
                insert_pred_ublack_opp n
                  (Path.goRight Color.red pl pv (Path.goRight Color.black gl gv gp)) := by
              simp [insert_base, insert_black_parent, insert_both_red, hu']
            rw [hstep]
            exact fix_case_RR n pl gl pv gv Color.black gp h H hn hnpl hngl
              hplcol.1 hu' hb hbpl hbgl hpbgp hrrgp htopgp

/-- One `insert_baby` of a fresh key into a well-formed tree succeeds,
keeps the tree well formed, adds exactly that key to the in-order
sequence, and bumps the node count by one. -/
theorem insert_baby_spec (t : sexy_rb_tree) (k : Int)
    (hg : GoodTree t) (hmem : k ∉ inorder t.root) :
    ∃ t2, insert_baby k t = Except.ok t2 ∧ GoodTree t2 ∧
      (inorder t2.root).Perm (k :: inorder t.root) ∧
      t2.num_nodes = t.num_nodes + 1 ∧ t2.sorp = t.sorp := by
  obtain ⟨hn, hrb, ⟨h, hb⟩, hsort, hcomp⟩ := hg
  rcases hroot : t.root with _ | ⟨c, l, v, r⟩
  · -- empty tree: the new node becomes the black root
    refine ⟨⟨RBNode.node Color.black RBNode.nil k RBNode.nil,
      t.num_nodes + 1, t.sorp, t.comp⟩, ?_, ?_, ?_, rfl, rfl⟩
    · simp [insert_baby, insert_rb_node, binary_insert_node, hroot,
        insert_base, set_color]
    · refine ⟨by simp [noRedRed, is_red], by simp [rootBlack], ⟨1, by
        simp [okBH, black1]⟩, ?_, hcomp⟩
      simp [inorder, List.Sorted]
    · simp [inorder]
  · -- non-empty tree: descend, attach, fix up
    have hc : c = Color.black := by
      rw [hroot, rootBlack] at hrb
      simpa using hrb
    subst hc
    rw [hroot] at hn hb hsort hmem
    have hcol := node_insert_colors (RBNode.node Color.black l v r) Path.root
      k h h (by simp) hmem hb (by simp [pathOkBH]) rfl rfl hn
      (by intro hx; simp [is_red] at hx) (by intro hx; simp [is_red])
    obtain ⟨p2, heq, hpb2, hrr2, htop2⟩ := hcol
    have hord := node_insert_order (RBNode.node Color.black l v r) Path.root
      k (by simp)
      (by simpa [ctxL, ctxR] using hsort)
      (by simpa [ctxL, ctxR] using hmem)
      (by simp [ctxL]) (by simp [ctxR])
    obtain ⟨p2w, heqw, hsort2, hperm2⟩ := hord
    have hp2 : p2w = p2 := by
      rw [heq] at heqw
      injection heqw with heqw2
      injection heqw2 with _ h2
      exact h2.symm
    subst hp2
    have hfix := insert_fix_spec (pathSize p2w)
      (RBNode.node Color.red RBNode.nil k RBNode.nil) p2w le_rfl
      (by simp [noRedRed, is_red]) hrr2 htop2 0 h
      (by simp [okBH, black1]) hpb2 (Or.inr (by simp [is_red]))
    obtain ⟨t2root, heqf, hf1, hf2, hf3, hf4⟩ := hfix
    have hio : inorder t2root = ctxL p2w ++ k :: ctxR p2w := by
      rw [hf4]
      simp [inorder]
    have hb1 : binary_insert_node k t =
        Except.ok (RBNode.node Color.red RBNode.nil k RBNode.nil, p2w) := by
      unfold binary_insert_node
      rw [hroot, hcomp]
      exact heq
    have hb2 : insert_rb_node k t = Except.ok t2root := by
      unfold insert_rb_node
      rw [hb1]
      exact heqf
    refine ⟨⟨t2root, t.num_nodes + 1, t.sorp, t.comp⟩, ?_, ?_, ?_, rfl, rfl⟩
    · unfold insert_baby
      rw [hb2]
    · exact ⟨hf1, hf3, hf2, by rw [hio]; exact hsort2, hcomp⟩
    · rw [hio]
      refine hperm2.trans ?_
      simp [ctxL, ctxR]

/-- Inserting a list of pairwise-distinct fresh keys succeeds and yields a
well-formed tree whose keys are the old keys plus the new ones. -/
theorem insertList_spec : ∀ (ks : List Int) (t : sexy_rb_tree),
    GoodTree t → (∀ x ∈ ks, x ∉ inorder t.root) → ks.Nodup →
    ∃ t2, insertList ks t = Except.ok t2 ∧ GoodTree t2 ∧
      (inorder t2.root).Perm (ks ++ inorder t.root) ∧
      t2.num_nodes = t.num_nodes + ks.length ∧ t2.sorp = t.sorp := by
  intro ks
  induction ks with
  | nil =>
    intro t hg _ _
    exact ⟨t, by simp [insertList], hg, by simp, by simp, rfl⟩
  | cons k ks ihk =>
    intro t hg hfresh hnd
    have hk : k ∉ inorder t.root := hfresh k (by simp)
    obtain ⟨t1, heq1, hg1, hperm1, hnum1, hsorp1⟩ := insert_baby_spec t k hg hk
    have hfresh1 : ∀ x ∈ ks, x ∉ inorder t1.root := by
      intro x hx hmem1
      have := hperm1.mem_iff.mp hmem1
      rcases List.mem_cons.mp this with hxx | hxx
      · rw [hxx] at hx
        exact (List.nodup_cons.mp hnd).1 hx
      · exact hfresh x (by simp [hx]) hxx
    obtain ⟨t2, heq2, hg2, hperm2, hnum2, hsorp2⟩ :=
      ihk t1 hg1 hfresh1 (List.nodup_cons.mp hnd).2
    refine ⟨t2, ?_, hg2, ?_, ?_, by rw [hsorp2, hsorp1]⟩
    · simp [insertList, heq1, heq2]
    · refine hperm2.trans ?_
      have h1 : (ks ++ inorder t1.root).Perm (ks ++ (k :: inorder t.root)) :=
        hperm1.append_left ks
      exact h1.trans List.perm_middle
    · rw [hnum2, hnum1]
      simp only [List.length_cons]
      push_cast
      omega

theorem okBH_pbcounts : ∀ (n : RBNode) (h : Nat), okBH n = some h →
    ∀ x ∈ pbcounts n, x = h := by
  intro n
  induction n with
  | nil =>
    intro h hh x hx
    simp only [okBH] at hh
    injection hh with hh
    simp only [pbcounts, List.mem_singleton] at hx
    omega
  | node c l v r ihl ihr =>
    intro h hh x hx
    obtain ⟨a, hl, hr, he⟩ := okBH_node_destruct hh
    simp only [pbcounts, List.mem_map, List.mem_append] at hx
    obtain ⟨y, hy, hxy⟩ := hx
    rcases hy with hy | hy
    · rw [← hxy, ihl a hl y hy, he]
    · rw [← hxy, ihr a hr y hy, he]

theorem allSame_of_okBH {n : RBNode} {h : Nat} (hh : okBH n = some h) :
    allSame (pbcounts n) := by
  intro x hx y hy
  rw [okBH_pbcounts n h hh x hx, okBH_pbcounts n h hh y hy]

theorem goodTree_create : GoodTree (create_rb int_compare) := by
  refine ⟨rfl, rfl, ⟨0, rfl⟩, ?_, rfl⟩
  simp [create_rb, inorder]

/-- Specialization of `insertList_spec` to a tree built from empty. -/
theorem insertList_from_empty (ks : List Int) (hnd : ks.Nodup) :
    ∃ t, insertList ks (create_rb int_compare) = Except.ok t ∧ GoodTree t ∧
      (inorder t.root).Perm ks ∧ t.num_nodes = ks.length ∧ t.sorp = SUCC := by
  have := insertList_spec ks (create_rb int_compare) goodTree_create
    (by intro x _ hx; simp [create_rb, inorder] at hx) hnd
  obtain ⟨t, heq, hg, hperm, hnum, hsorp⟩ := this
  refine ⟨t, heq, hg, ?_, ?_, hsorp⟩
  · simpa [create_rb, inorder] using hperm
  · simpa [create_rb] using hnum

/-- C1: for every sequence of insertions of pairwise-distinct keys into a
tree created empty, the tree resulting after each insertion completes (the
sequences ranging over all duplicate-free lists, so every intermediate
tree is covered) satisfies all three red-black color invariants: black
root, no red node with a red child, and the same number of BLACK nodes on
every root-to-absent-child path. -/
theorem C1_insert_invariants (ks : List Int) (hnd : ks.Nodup) :
    ∃ t, insertList ks (create_rb int_compare) = Except.ok t ∧
      rootBlack t.root = true ∧ noRedRed t.root = true ∧
      allSame (pbcounts t.root) := by
  obtain ⟨t, heq, ⟨hn, hrb, ⟨h, hb⟩, _, _⟩, _, _, _⟩ :=
    insertList_from_empty ks hnd
  exact ⟨t, heq, hrb, hn, allSame_of_okBH hb⟩

/-- Witness for C1 at the concrete key sequence `[1, 2, 3]`. -/
theorem C1_insert_invariants_witness :
    ([1, 2, 3] : List Int).Nodup ∧
      ∃ t, insertList [1, 2, 3] (create_rb int_compare) = Except.ok t ∧
        rootBlack t.root = true ∧ noRedRed t.root = true ∧
        allSame (pbcounts t.root) :=
  ⟨by decide, C1_insert_invariants [1, 2, 3] (by decide)⟩

/-- C2: for every sequence of insertions of pairwise-distinct keys into a
tree created empty, the in-order traversal of the resulting tree yields
exactly the inserted keys, in strictly increasing comparator order. -/
theorem C2_inorder_sorted (ks : List Int) (hnd : ks.Nodup) :
    ∃ t, insertList ks (create_rb int_compare) = Except.ok t ∧
      List.Sorted (· < ·) (inorder t.root) ∧ (inorder t.root).Perm ks := by
  obtain ⟨t, heq, ⟨_, _, _, hsort, _⟩, hperm, _, _⟩ :=
    insertList_from_empty ks hnd
  exact ⟨t, heq, hsort, hperm⟩

/-- Witness for C2 at the concrete key sequence `[2, 1, 3]`. -/
theorem C2_inorder_sorted_witness :
    ([2, 1, 3] : List Int).Nodup ∧
      ∃ t, insertList [2, 1, 3] (create_rb int_compare) = Except.ok t ∧
        List.Sorted (· < ·) (inorder t.root) ∧ (inorder t.root).Perm [2, 1, 3] :=
  ⟨by decide, C2_inorder_sorted [2, 1, 3] (by decide)⟩

/-- Correctness of the `search_baby` descent loop over a subtree with a
sorted in-order sequence: present keys are found (and the stored payload
with that key is returned), absent keys reach an absent child and give the
not-found signal. -/
theorem search_node_spec : ∀ (n : RBNode) (k : Int),
    List.Sorted (· < ·) (inorder n) →
    (k ∈ inorder n → search_node int_compare k n = some k) ∧
    (k ∉ inorder n → search_node int_compare k n = none) := by
  intro n
  induction n with
  | nil =>
    intro k _
    exact ⟨by simp [inorder], fun _ => by simp [search_node]⟩
  | node c l v r ihl ihr =>
    intro k hsort
    simp only [inorder] at hsort
    have hdec := sorted_append.mp hsort
    have hsl : List.Sorted (· < ·) (inorder l) := hdec.1
    have hsvr := hdec.2.1
    have hsr : List.Sorted (· < ·) (inorder r) := (List.sorted_cons.mp hsvr).2
    have hvr : ∀ x ∈ inorder r, v < x := (List.sorted_cons.mp hsvr).1
    have hlv : ∀ x ∈ inorder l, x < v := fun x hx =>
      hdec.2.2 x hx v (by simp)
    rcases lt_trichotomy k v with hkv | hkv | hkv
    · have hcmp := int_compare_less hkv
      have hmem_iff : k ∈ inorder (RBNode.node c l v r) ↔ k ∈ inorder l := by
        simp only [inorder, List.mem_append, List.mem_cons]
        constructor
        · intro hx
          rcases hx with hx | hx | hx
          · exact hx
          · exact absurd hx (by omega)
          · exact absurd (hvr k hx) (by omega)
        · exact fun hx => Or.inl hx
      constructor
      · intro hmem
        rw [search_node, hcmp]
        exact (ihl k hsl).1 (hmem_iff.mp hmem)
      · intro hmem
        rw [search_node, hcmp]
        exact (ihl k hsl).2 (fun hx => hmem (hmem_iff.mpr hx))
    · subst hkv
      constructor
      · intro _
        simp [search_node, int_compare_equal]
      · intro hmem
        exact absurd (by simp [inorder]) hmem
    · have hcmp := int_compare_greater hkv
      have hmem_iff : k ∈ inorder (RBNode.node c l v r) ↔ k ∈ inorder r := by
        simp only [inorder, List.mem_append, List.mem_cons]
        constructor
        · intro hx
          rcases hx with hx | hx | hx
          · exact absurd (hlv k hx) (by omega)
          · exact absurd hx (by omega)
          · exact hx
        · exact fun hx => Or.inr (Or.inr hx)
      constructor
      · intro hmem
        rw [search_node, hcmp]
        exact (ihr k hsr).1 (hmem_iff.mp hmem)
      · intro hmem
        rw [search_node, hcmp]
        exact (ihr k hsr).2 (fun hx => hmem (hmem_iff.mpr hx))

/-- C3: on a tree built by inserting pairwise-distinct keys into an empty
tree, searching for an inserted key returns the stored payload carrying
that key, and searching for a key that was never inserted returns the
not-found signal (`none`, the NULL of the C code), reached when the
comparator-driven descent arrives at an absent child. -/
theorem C3_round_trip (ks : List Int) (t : sexy_rb_tree) (hnd : ks.Nodup)
    (hins : insertList ks (create_rb int_compare) = Except.ok t) :
    (∀ k, k ∈ ks → search_baby k t = some k) ∧
    (∀ k, k ∉ ks → search_baby k t = none) := by
  obtain ⟨t2, heq, ⟨_, _, _, hsort, hcomp⟩, hperm, _, _⟩ :=
    insertList_from_empty ks hnd
  rw [hins] at heq
  injection heq with heq
  subst heq
  have hmem_iff : ∀ k : Int, k ∈ inorder t.root ↔ k ∈ ks :=
    fun k => hperm.mem_iff
  constructor
  · intro k hk
    rw [search_baby, hcomp]
    exact (search_node_spec t.root k hsort).1 ((hmem_iff k).mpr hk)
  · intro k hk
    rw [search_baby, hcomp]
    exact (search_node_spec t.root k hsort).2 (fun hx => hk ((hmem_iff k).mp hx))

/-- Witness for C3: insert `[2, 1, 3]`, search for `1` and for `7`. -/
theorem C3_round_trip_witness :
    ([2, 1, 3] : List Int).Nodup ∧
      ∃ t, insertList [2, 1, 3] (create_rb int_compare) = Except.ok t ∧
        ((∀ k, k ∈ ([2, 1, 3] : List Int) → search_baby k t = some k) ∧
          (∀ k, k ∉ ([2, 1, 3] : List Int) → search_baby k t = none)) := by
  refine ⟨by decide, ?_⟩
  obtain ⟨t, heq, _, _⟩ := insertList_from_empty [2, 1, 3] (by decide)
  exact ⟨t, heq, C3_round_trip [2, 1, 3] t (by decide) heq⟩

/-- A key already stored in a subtree with a sorted in-order sequence is
met by the binary-search descent, which hits the duplicate-key
`assert(0)`. -/
theorem node_insert_dup : ∀ (cur : RBNode) (p : Path) (k : Int),
    List.Sorted (· < ·) (inorder cur) → k ∈ inorder cur →
    node_insert_node k cur p int_compare = Except.error CErr.duplicateKey := by
  intro cur
  induction cur with
  | nil =>
    intro p k _ hmem
    exact absurd hmem (by simp [inorder])
  | node c l v r ihl ihr =>
    intro p k hsort hmem
    simp only [inorder] at hsort hmem
    have hdec := sorted_append.mp hsort
    have hsl : List.Sorted (· < ·) (inorder l) := hdec.1
    have hsvr := hdec.2.1
    have hsr : List.Sorted (· < ·) (inorder r) := (List.sorted_cons.mp hsvr).2
    have hvr : ∀ x ∈ inorder r, v < x := (List.sorted_cons.mp hsvr).1
    have hlv : ∀ x ∈ inorder l, x < v := fun x hx =>
      hdec.2.2 x hx v (by simp)
    rcases lt_trichotomy k v with hkv | hkv | hkv
    · have hcmp := int_compare_less hkv
      have hml : k ∈ inorder l := by
        rcases List.mem_append.mp hmem with hx | hx
        · exact hx
        · rcases List.mem_cons.mp hx with hx | hx
          · exact absurd hx (by omega)
          · exact absurd (hvr k hx) (by omega)
      cases l with
      | nil => exact absurd hml (by simp [inorder])
      | node lc ll lv2 lr =>
        simp only [node_insert_node, hcmp]
        exact ihl (Path.goLeft c v r p) k hsl hml
    · subst hkv
      simp [node_insert_node, int_compare_equal]
    · have hcmp := int_compare_greater hkv
      have hmr : k ∈ inorder r := by
        rcases List.mem_append.mp hmem with hx | hx
        · exact absurd (hlv k hx) (by omega)
        · rcases List.mem_cons.mp hx with hx | hx
          · exact absurd hx (by omega)
          · exact hx
      cases r with
      | nil => exact absurd hmr (by simp [inorder])
      | node rc rl rv2 rr =>
        simp only [node_insert_node, hcmp]
        exact ihr (Path.goRight c l v p) k hsr hmr

/-- C4: inserting a key already present in a tree built from
pairwise-distinct keys fails with the DuplicateKey condition (the
`assert(0)` in `node_insert_node`'s EQUAL branch, which aborts before any
link or color of the existing tree has been mutated: in the embedding the
error carries no tree precisely because the C code publishes no change,
so the structure, colors, payloads and node count the caller holds are
those from before the attempted insert). -/
theorem C4_duplicate_insert (ks : List Int) (t : sexy_rb_tree)
    (hnd : ks.Nodup)
    (hins : insertList ks (create_rb int_compare) = Except.ok t) :
    ∀ k, k ∈ ks → insert_baby k t = Except.error CErr.duplicateKey := by
  obtain ⟨t2, heq, ⟨_, _, _, hsort, hcomp⟩, hperm, _, _⟩ :=
    insertList_from_empty ks hnd
  rw [hins] at heq
  injection heq with heq
  subst heq
  intro k hk
  have hmem : k ∈ inorder t.root := hperm.mem_iff.mpr hk
  rcases hroot : t.root with _ | ⟨c, l, v, r⟩
  · rw [hroot] at hmem
    exact absurd hmem (by simp [inorder])
  · rw [hroot] at hmem hsort
    have hdup := node_insert_dup (RBNode.node c l v r) Path.root k hsort hmem
    have hb1 : binary_insert_node k t = Except.error CErr.duplicateKey := by
      unfold binary_insert_node
      rw [hroot, hcomp]
      exact hdup
    have hb2 : insert_rb_node k t = Except.error CErr.duplicateKey := by
      unfold insert_rb_node
      rw [hb1]
    unfold insert_baby
    rw [hb2]

/-- Witness for C4: insert `[2, 1, 3]`, then insert `3` again. -/
theorem C4_duplicate_insert_witness :
    ([2, 1, 3] : List Int).Nodup ∧
      ∃ t, insertList [2, 1, 3] (create_rb int_compare) = Except.ok t ∧
        insert_baby 3 t = Except.error CErr.duplicateKey := by
  refine ⟨by decide, ?_⟩
  obtain ⟨t, heq, _, _⟩ := insertList_from_empty [2, 1, 3] (by decide)
  exact ⟨t, heq, C4_duplicate_insert [2, 1, 3] t (by decide) heq 3 (by decide)⟩

/-- C7: inserting the keys 1, 2, 3 in that order into an empty tree.
Before fix-up (bare `binary_insert_node` calls, as exercised by the
source's `test_1`) the tree is the right chain with root 1, right child 2
and right-right child 3; after the full insert with fix-up the tree has
root 2 with left child 1 and right child 3 (and the count of nodes is 3). -/
theorem C7_three_node_rebalance :
    binaryInsertList [1, 2, 3] (create_rb int_compare) =
      Except.ok ⟨RBNode.node Color.black RBNode.nil 1
          (RBNode.node Color.red RBNode.nil 2
            (RBNode.node Color.red RBNode.nil 3 RBNode.nil)),
        0, SUCC, int_compare⟩ ∧
    insertList [1, 2, 3] (create_rb int_compare) =
      Except.ok ⟨RBNode.node Color.black
          (RBNode.node Color.red RBNode.nil 1 RBNode.nil) 2
          (RBNode.node Color.red RBNode.nil 3 RBNode.nil),
        3, SUCC, int_compare⟩ := by
  constructor
  · simp [binaryInsertList, binary_insert_tree, binary_insert_node,
      node_insert_node, create_rb, int_compare, plug]
  · simp [insertList, insert_baby, insert_rb_node, binary_insert_node,
      node_insert_node, insert_base, insert_black_parent, insert_both_red,
      insert_pred_ublack_opp, insert_pred_ublack_same, rrot_local,
      lrot_local, create_rb, int_compare, set_color, plug, is_red]

/-- C9: `create_rb` returns an empty tree (absent root, zero node count)
whose comparator field is the supplied comparator, for every comparator
argument. (The model does not represent allocation failure; the claim is
conditional on the `malloc` succeeding.) -/
theorem C9_create (comp : Int → Int → Cmp) :
    (create_rb comp).root = RBNode.nil ∧ (create_rb comp).num_nodes = 0 ∧
      (create_rb comp).comp = comp :=
  ⟨rfl, rfl, rfl⟩

theorem free_rb_nodes_ok : ∀ (n : RBNode), n ≠ RBNode.nil →
    free_rb_nodes n = Except.ok () := by
  intro n
  induction n with
  | nil => intro hne; exact absurd rfl hne
  | node c l v r ihl ihr =>
    intro _
    cases l with
    | nil =>
      cases r with
      | nil => rfl
      | node rc rl rv rr =>
        simp only [free_rb_nodes]
        exact ihr (by simp)
    | node lc ll lv lr =>
      cases r with
      | nil =>
        simp only [free_rb_nodes, ihl (by simp)]
      | node rc rl rv rr =>
        simp only [free_rb_nodes, ihl (by simp)]
        exact ihr (by simp)

/-- C10: calling `free_rb` on an empty tree (absent root) dereferences a
NULL pointer, because `free_rb_nodes` unconditionally reads `n->data`
from the root with no NULL check; on a tree with at least one node the
tear-down completes. -/
theorem C10_free_empty_null_deref (t : sexy_rb_tree) :
    (t.root = RBNode.nil → free_rb t = Except.error CErr.nullDeref) ∧
    (t.root ≠ RBNode.nil → free_rb t = Except.ok ()) := by
  constructor
  · intro hroot
    rw [free_rb, hroot]
    rfl
  · intro hroot
    rw [free_rb]
    exact free_rb_nodes_ok t.root hroot

/-- Witness for C10 on the empty tree and on a one-node tree. -/
theorem C10_free_empty_null_deref_witness :
    ((create_rb int_compare).root = RBNode.nil →
      free_rb (create_rb int_compare) = Except.error CErr.nullDeref) ∧
    (create_rb int_compare).root = RBNode.nil ∧
    free_rb (create_rb int_compare) = Except.error CErr.nullDeref :=
  ⟨(C10_free_empty_null_deref (create_rb int_compare)).1, rfl,
    (C10_free_empty_null_deref (create_rb int_compare)).1 rfl⟩

theorem rightmost_right_nil : ∀ (l : RBNode), l ≠ RBNode.nil →
    get_right (rightmost_node l) = RBNode.nil := by
  intro l
  induction l with
  | nil => intro hne; exact absurd rfl hne
  | node c a v r ihl ihr =>
    intro _
    cases r with
    | nil => rfl
    | node rc rl rv rr =>
      rw [rightmost_node]
      exact ihr (by simp)

theorem leftmost_left_nil : ∀ (r : RBNode), r ≠ RBNode.nil →
    get_left (leftmost_node r) = RBNode.nil := by
  intro r
  induction r with
  | nil => intro hne; exact absurd rfl hne
  | node c l v b ihl ihr =>
    intro _
    cases l with
    | nil => rfl
    | node lc ll lv lr =>
      rw [leftmost_node]
      exact ihl (by simp)

/-- C8: for a node `n` and a valid bias, `simple_replace` returns NULL
exactly when `n` has no children; otherwise it copies into `n` the payload
of the predecessor (the rightmost descendant of `n`'s left subtree) or the
successor (the leftmost descendant of `n`'s right subtree), chosen by the
`sorp` bias with fallback to the other side when the preferred side is
absent, and returns that neighbor node, which has at most one child. -/
theorem C8_simple_replace (c : Color) (l r : RBNode) (v : Int) (sorp : Int)
    (hs : sorp = PRED ∨ sorp = SUCC) :
    (simple_replace (RBNode.node c l v r) sorp = Except.ok none ↔
      (l = RBNode.nil ∧ r = RBNode.nil)) ∧
    (∀ upd nb, simple_replace (RBNode.node c l v r) sorp =
        Except.ok (some (upd, nb)) →
      upd = RBNode.node c l (node_data nb) r ∧
      nb = (if sorp = SUCC then
              (if r = RBNode.nil then rightmost_node l else leftmost_node r)
            else
              (if l = RBNode.nil then leftmost_node r else rightmost_node l)) ∧
      (get_left nb = RBNode.nil ∨ get_right nb = RBNode.nil)) := by
  rcases hs with hs | hs
  · -- bias PRED: try the predecessor, fall back to the successor
    subst hs
    have hne : ¬(PRED = SUCC) := by decide
    cases l with
    | nil =>
      cases r with
      | nil =>
        refine ⟨by simp [simple_replace, replace_with_pred,
          replace_with_succ, hne], ?_⟩
        intro upd nb h
        simp [simple_replace, replace_with_pred, replace_with_succ, hne] at h
      | node rc rl rv rr =>
        refine ⟨by simp [simple_replace, replace_with_pred,
          replace_with_succ, hne], ?_⟩
        intro upd nb h
        simp only [simple_replace, replace_with_pred, replace_with_succ,
          if_neg hne, if_pos rfl] at h
        injection h with h
        injection h with h
        injection h with h1 h2
        subst h1
        subst h2
        refine ⟨rfl, by simp [hne], Or.inl ?_⟩
        exact leftmost_left_nil (RBNode.node rc rl rv rr) (by simp)
    | node lc ll lv lr =>
      refine ⟨by simp [simple_replace, replace_with_pred,
        replace_with_succ, hne], ?_⟩
      intro upd nb h
      simp only [simple_replace, replace_with_pred, replace_with_succ,
        if_neg hne, if_pos rfl] at h
      injection h with h
      injection h with h
      injection h with h1 h2
      subst h1
      subst h2
      refine ⟨rfl, by simp [hne], Or.inr ?_⟩
      exact rightmost_right_nil (RBNode.node lc ll lv lr) (by simp)
  · -- bias SUCC: try the successor, fall back to the predecessor
    subst hs
    cases r with
    | nil =>
      cases l with
      | nil =>
        refine ⟨by simp [simple_replace, replace_with_pred,
          replace_with_succ], ?_⟩
        intro upd nb h
        simp [simple_replace, replace_with_pred, replace_with_succ] at h
      | node lc ll lv lr =>
        refine ⟨by simp [simple_replace, replace_with_pred,
          replace_with_succ], ?_⟩
        intro upd nb h
        simp only [simple_replace, replace_with_pred, replace_with_succ,
          if_pos rfl] at h
        injection h with h
        injection h with h
        injection h with h1 h2
        subst h1
        subst h2
        refine ⟨rfl, by simp, Or.inr ?_⟩
        exact rightmost_right_nil (RBNode.node lc ll lv lr) (by simp)
    | node rc rl rv rr =>
      refine ⟨by simp [simple_replace, replace_with_pred,
        replace_with_succ], ?_⟩
      intro upd nb h
      simp only [simple_replace, replace_with_pred, replace_with_succ,
        if_pos rfl] at h
      injection h with h
      injection h with h
      injection h with h1 h2
      subst h1
      subst h2
      refine ⟨rfl, by simp, Or.inl ?_⟩
      exact leftmost_left_nil (RBNode.node rc rl rv rr) (by simp)

/-- The source's `red_parent_black_children` recursion checks exactly the
red invariant. -/
theorem rpbc_true_iff : ∀ n, red_parent_black_children n = true ↔
    noRedRed n = true := by
  intro n
  induction n with
  | nil => simp [red_parent_black_children, noRedRed]
  | node c l v r ihl ihr =>
    rw [red_parent_black_children, noRedRed_node]
    constructor
    · intro h
      split at h
      · exact absurd h (by simp)
      · split at h
        · exact absurd h (by simp)
        · split at h
          · exact absurd h (by simp)
          · next h1 h2 h3 =>
            refine ⟨?_, ?_, ?_⟩
            · -- the local one-node check
              simp only [Bool.not_eq_true'] at h1
              cases c with
              | black => exact Or.inl rfl
              | red =>
                simp only [one_red_parent_black_children, is_red, get_left,
                  get_right] at h1
                simp at h1
                exact Or.inr ⟨by simp [is_red, h1.1], by simp [is_red, h1.2]⟩
            · -- left subtree
              simp only [Bool.and_eq_true, Bool.not_eq_true',
                decide_eq_true_eq] at h2
              push_neg at h2
              by_cases hl : l = RBNode.nil
              · subst hl; rfl
              · exact ihl.mp (by simpa using h2 hl)
            · -- right subtree
              simp only [Bool.and_eq_true, Bool.not_eq_true',
                decide_eq_true_eq] at h3
              push_neg at h3
              by_cases hr : r = RBNode.nil
              · subst hr; rfl
              · exact ihr.mp (by simpa using h3 hr)
    · intro h
      obtain ⟨hc, hl, hr⟩ := h
      have hone : one_red_parent_black_children (RBNode.node c l v r) = true := by
        rcases hc with hc | hc
        · subst hc
          simp [one_red_parent_black_children, is_red]
        · rw [one_red_parent_black_children]
          have hlr : (is_red (get_left (RBNode.node c l v r)) ||
              is_red (get_right (RBNode.node c l v r))) = false := by
            simp [get_left, get_right, hc.1, hc.2]
          by_cases hcr : is_red (RBNode.node c l v r) = true
          · rw [if_pos hcr, if_neg (by simp [hlr])]
          · rw [if_neg hcr]
      simp [hone, ihl.mpr hl, ihr.mpr hr]

theorem maxIf (a c : Int) : (if c > a then c else a) = max a c := by
  split
  · next h => exact (max_eq_right h.le).symm
  · next h => exact (max_eq_left (not_lt.mp h)).symm

theorem minIf (a c : Int) : (if c < a then c else a) = min a c := by
  split
  · next h => exact (min_eq_right h.le).symm
  · next h => exact (min_eq_left (not_lt.mp h)).symm

/-- The scratch-global scan of `path_black_nodes_helper` is a fold of
max/min over the per-path black counts (each shifted by the running count
plus one for the NULL itself). -/
theorem helper_eq : ∀ (n : RBNode) (count pm pmn : Int),
    path_black_nodes_helper n count (pm, pmn) =
      ((pbcounts n).foldl (fun (a : Int) (x : Nat) => max a (x + count + 1)) pm,
       (pbcounts n).foldl (fun (a : Int) (x : Nat) => min a (x + count + 1)) pmn) := by
  intro n
  induction n with
  | nil =>
    intro count pm pmn
    rw [path_black_nodes_helper]
    simp only [pbcounts, List.foldl_cons, List.foldl_nil]
    rw [maxIf, minIf]
    norm_num
  | node c l v r ihl ihr =>
    intro count pm pmn
    rw [path_black_nodes_helper]
    have hcount : (if !is_red (RBNode.node c l v r) then count + 1 else count)
        = count + (black1 c : Int) := by
      cases c <;> simp [is_red, black1]
    rw [hcount, ihl, ihr]
    have hfeq1 : (fun (a : Int) (x : Nat) =>
          max a (x + (count + (black1 c : Int)) + 1)) =
        (fun (a : Int) (x : Nat) =>
          max a ((x + black1 c : Nat) + count + 1)) := by
      funext a x
      push_cast
      ring_nf
    have hfeq2 : (fun (a : Int) (x : Nat) =>
          min a (x + (count + (black1 c : Int)) + 1)) =
        (fun (a : Int) (x : Nat) =>
          min a ((x + black1 c : Nat) + count + 1)) := by
      funext a x
      push_cast
      ring_nf
    rw [hfeq1, hfeq2]
    simp only [pbcounts, List.foldl_map, List.foldl_append]

theorem fold_max_init (g : Nat → Int) : ∀ (L : List Nat) (a : Int),
    a ≤ L.foldl (fun a x => max a (g x)) a := by
  intro L
  induction L with
  | nil => intro a; simp
  | cons y ys ih =>
    intro a
    calc a ≤ max a (g y) := le_max_left _ _
      _ ≤ ys.foldl (fun a x => max a (g x)) (max a (g y)) := ih _
      _ = (y :: ys).foldl (fun a x => max a (g x)) a := by simp

theorem fold_max_ge (g : Nat → Int) : ∀ (L : List Nat) (a : Int) (x : Nat),
    x ∈ L → g x ≤ L.foldl (fun a x => max a (g x)) a := by
  intro L
  induction L with
  | nil => intro a x hx; simp at hx
  | cons y ys ih =>
    intro a x hx
    rcases List.mem_cons.mp hx with hx | hx
    · subst hx
      calc g x ≤ max a (g x) := le_max_right _ _
        _ ≤ ys.foldl (fun a x => max a (g x)) (max a (g x)) := fold_max_init g _ _
        _ = (x :: ys).foldl (fun a x => max a (g x)) a := by simp
    · simpa using ih (max a (g y)) x hx

theorem fold_min_init (g : Nat → Int) : ∀ (L : List Nat) (a : Int),
    L.foldl (fun a x => min a (g x)) a ≤ a := by
  intro L
  induction L with
  | nil => intro a; simp
  | cons y ys ih =>
    intro a
    calc (y :: ys).foldl (fun a x => min a (g x)) a
        = ys.foldl (fun a x => min a (g x)) (min a (g y)) := by simp
      _ ≤ min a (g y) := ih _
      _ ≤ a := min_le_left _ _

theorem fold_min_le (g : Nat → Int) : ∀ (L : List Nat) (a : Int) (x : Nat),
    x ∈ L → L.foldl (fun a x => min a (g x)) a ≤ g x := by
  intro L
  induction L with
  | nil => intro a x hx; simp at hx
  | cons y ys ih =>
    intro a x hx
    rcases List.mem_cons.mp hx with hx | hx
    · subst hx
      calc (x :: ys).foldl (fun a x => min a (g x)) a
          = ys.foldl (fun a x => min a (g x)) (min a (g x)) := by simp
        _ ≤ min a (g x) := fold_min_init g _ _
        _ ≤ g x := min_le_right _ _
    · simpa using ih (min a (g y)) x hx

theorem fold_max_const (g : Nat → Int) (w : Int) : ∀ (L : List Nat) (a : Int),
    (∀ x ∈ L, g x = w) → L ≠ [] →
    L.foldl (fun a x => max a (g x)) a = max a w := by
  intro L
  induction L with
  | nil => intro a _ hne; exact absurd rfl hne
  | cons y ys ih =>
    intro a hall _
    have hy : g y = w := hall y (by simp)
    cases ys with
    | nil => simp [hy]
    | cons z zs =>
      have hrec := ih (max a (g y)) (fun x hx => hall x (by simp [hx]))
        (by simp)
      calc (y :: z :: zs).foldl (fun a x => max a (g x)) a
          = (z :: zs).foldl (fun a x => max a (g x)) (max a (g y)) := by simp
        _ = max (max a (g y)) w := hrec
        _ = max a w := by rw [hy, max_assoc, max_self]

theorem fold_min_const (g : Nat → Int) (w : Int) : ∀ (L : List Nat) (a : Int),
    (∀ x ∈ L, g x = w) → L ≠ [] →
    L.foldl (fun a x => min a (g x)) a = min a w := by
  intro L
  induction L with
  | nil => intro a _ hne; exact absurd rfl hne
  | cons y ys ih =>
    intro a hall _
    have hy : g y = w := hall y (by simp)
    cases ys with
    | nil => simp [hy]
    | cons z zs =>
      have hrec := ih (min a (g y)) (fun x hx => hall x (by simp [hx]))
        (by simp)
      calc (y :: z :: zs).foldl (fun a x => min a (g x)) a
          = (z :: zs).foldl (fun a x => min a (g x)) (min a (g y)) := by simp
        _ = min (min a (g y)) w := hrec
        _ = min a w := by rw [hy, min_assoc, min_self]

theorem pbcounts_ne_nil : ∀ (n : RBNode), pbcounts n ≠ [] := by
  intro n
  cases n with
  | nil => simp [pbcounts]
  | node c l v r =>
    simp only [pbcounts, ne_eq, List.map_eq_nil_iff, List.append_eq_nil]
    intro hcon
    exact pbcounts_ne_nil l hcon.1

/-- A field write leaves every other cell unchanged. -/
theorem setLeft_ne (hp : Heap) (i : Nat) (x : Option Nat) (j : Nat)
    (h : j ≠ i) : setLeft hp i x j = hp j := by
  simp [setLeft, h]

theorem setRight_ne (hp : Heap) (i : Nat) (x : Option Nat) (j : Nat)
    (h : j ≠ i) : setRight hp i x j = hp j := by
  simp [setRight, h]

theorem setParent_ne (hp : Heap) (i : Nat) (x : Option Nat) (j : Nat)
    (h : j ≠ i) : setParent hp i x j = hp j := by
  simp [setParent, h]

theorem setLeft_eq (hp : Heap) (i : Nat) (x : Option Nat) :
    setLeft hp i x i = (hp i).map
      (fun nd => ⟨nd.data, nd.node_color, nd.parent, x, nd.right⟩) := by
  simp [setLeft]

theorem setRight_eq (hp : Heap) (i : Nat) (x : Option Nat) :
    setRight hp i x i = (hp i).map
      (fun nd => ⟨nd.data, nd.node_color, nd.parent, nd.left, x⟩) := by
  simp [setRight]

theorem setParent_eq (hp : Heap) (i : Nat) (x : Option Nat) :
    setParent hp i x i = (hp i).map
      (fun nd => ⟨nd.data, nd.node_color, x, nd.left, nd.right⟩) := by
  simp [setParent]

/-- `reprB` only reads the cells in `idList`: a heap agreeing there
represents the same subtree, with the same address list. -/
theorem reprB_frame (hp hpv : Heap) (par oid : Option Nat) (m : RBNode)
    (h : reprB hp par oid m = true)
    (hag : ∀ j ∈ idList hp oid m, hpv j = hp j) :
    reprB hpv par oid m = true ∧ idList hpv oid m = idList hp oid m := by
  induction m generalizing par oid with
  | nil =>
    cases oid with
    | none => exact ⟨rfl, rfl⟩
    | some i => simp [reprB] at h
  | node c l v r ihl ihr =>
    cases oid with
    | none => simp [reprB] at h
    | some i =>
      rw [reprB] at h
      cases hpi : hp i with
      | none => rw [hpi] at h; exact absurd h (by simp)
      | some nd =>
        rw [hpi] at h
        simp only [Bool.and_eq_true, decide_eq_true_eq] at h
        obtain ⟨⟨⟨⟨hd, hc⟩, hpr⟩, hl⟩, hr⟩ := h
        have hidl : idList hp (some i) (RBNode.node c l v r) =
            i :: (idList hp nd.left l ++ idList hp nd.right r) := by
          rw [idList, hpi]
        have hvi : hpv i = some nd := by
          rw [hag i (by rw [hidl]; simp), hpi]
        have hagl : ∀ j ∈ idList hp nd.left l, hpv j = hp j := by
          intro j hj; exact hag j (by rw [hidl]; simp [hj])
        have hagr : ∀ j ∈ idList hp nd.right r, hpv j = hp j := by
          intro j hj; exact hag j (by rw [hidl]; simp [hj])
        obtain ⟨hl2, hl3⟩ := ihl (some i) nd.left hl hagl
        obtain ⟨hr2, hr3⟩ := ihr (some i) nd.right hr hagr
        constructor
        · rw [reprB, hvi]
          simp [hd, hc, hpr, hl2, hr2]
        · rw [idList, hvi, hidl]
          simp only [hl3, hr3]

/-- `reprZipB` only reads the cells in `zipIdList`. -/
theorem reprZipB_frame (hp hpv : Heap) (rt : Option Nat) :
    ∀ (p : Path) (holeId : Option Nat) (ids : List Nat),
    reprZipB hp rt holeId ids p = true →
    (∀ j ∈ zipIdList hp ids p, hpv j = hp j) →
    reprZipB hpv rt holeId ids p = true ∧
      zipIdList hpv ids p = zipIdList hp ids p := by
  intro p
  induction p with
  | root =>
    intro holeId ids h hag
    cases ids with
    | nil => exact ⟨h, rfl⟩
    | cons i js => simp [reprZipB] at h
  | goLeft c v r q ih =>
    intro holeId ids h hag
    cases ids with
    | nil => simp [reprZipB] at h
    | cons i js =>
      rw [reprZipB] at h
      cases hpi : hp i with
      | none => rw [hpi] at h; exact absurd h (by simp)
      | some nd =>
        rw [hpi] at h
        simp only [Bool.and_eq_true, decide_eq_true_eq] at h
        obtain ⟨⟨⟨⟨⟨hd, hc⟩, hhl⟩, hpr⟩, hsub⟩, hrec⟩ := h
        have hzid : zipIdList hp (i :: js) (Path.goLeft c v r q) =
            (i :: idList hp nd.right r) ++ zipIdList hp js q := by
          rw [zipIdList, hpi]
        have hvi : hpv i = some nd := by
          rw [hag i (by rw [hzid]; simp), hpi]
        have hagr : ∀ j ∈ idList hp nd.right r, hpv j = hp j := by
          intro j hj; exact hag j (by rw [hzid]; simp [hj])
        have hagq : ∀ j ∈ zipIdList hp js q, hpv j = hp j := by
          intro j hj; exact hag j (by rw [hzid]; simp [hj])
        obtain ⟨hs2, hs3⟩ := reprB_frame hp hpv (some i) nd.right r hsub hagr
        obtain ⟨hq2, hq3⟩ := ih (some i) js hrec hagq
        constructor
        · rw [reprZipB, hvi]
          simp [hd, hc, hhl, hpr, hs2, hq2]
        · rw [zipIdList, hvi, hzid]
          simp only [hs3, hq3]
  | goRight c l v q ih =>
    intro holeId ids h hag
    cases ids with
    | nil => simp [reprZipB] at h
    | cons i js =>
      rw [reprZipB] at h
      cases hpi : hp i with
      | none => rw [hpi] at h; exact absurd h (by simp)
      | some nd =>
        rw [hpi] at h
        simp only [Bool.and_eq_true, decide_eq_true_eq] at h
        obtain ⟨⟨⟨⟨⟨hd, hc⟩, hhl⟩, hpr⟩, hsub⟩, hrec⟩ := h
        have hzid : zipIdList hp (i :: js) (Path.goRight c l v q) =
            (i :: idList hp nd.left l) ++ zipIdList hp js q := by
          rw [zipIdList, hpi]
        have hvi : hpv i = some nd := by
          rw [hag i (by rw [hzid]; simp), hpi]
        have hagl : ∀ j ∈ idList hp nd.left l, hpv j = hp j := by
          intro j hj; exact hag j (by rw [hzid]; simp [hj])
        have hagq : ∀ j ∈ zipIdList hp js q, hpv j = hp j := by
          intro j hj; exact hag j (by rw [hzid]; simp [hj])
        obtain ⟨hs2, hs3⟩ := reprB_frame hp hpv (some i) nd.left l hsub hagl
        obtain ⟨hq2, hq3⟩ := ih (some i) js hrec hagq
        constructor
        · rw [reprZipB, hvi]
          simp [hd, hc, hhl, hpr, hs2, hq2]
        · rw [zipIdList, hvi, hzid]
          simp only [hs3, hq3]

/-- The root pointer of a realized context is the hole (no ancestors) or
one of the ancestor addresses. -/
theorem reprZipB_rt_mem (hp : Heap) (rt : Option Nat) :
    ∀ (p : Path) (holeId : Option Nat) (ids : List Nat),
    reprZipB hp rt holeId ids p = true →
    (ids = [] ∧ rt = holeId) ∨ ∃ j ∈ ids, rt = some j := by
  intro p
  induction p with
  | root =>
    intro holeId ids h
    cases ids with
    | nil =>
      left
      refine ⟨rfl, ?_⟩
      rw [reprZipB] at h
      exact of_decide_eq_true h
    | cons i js => simp [reprZipB] at h
  | goLeft c v r q ih =>
    intro holeId ids h
    cases ids with
    | nil => simp [reprZipB] at h
    | cons i js =>
      rw [reprZipB] at h
      cases hpi : hp i with
      | none => rw [hpi] at h; exact absurd h (by simp)
      | some nd =>
        rw [hpi] at h
        simp only [Bool.and_eq_true, decide_eq_true_eq] at h
        rcases ih (some i) js h.2 with ⟨hjs, hrt⟩ | ⟨j, hj, hrt⟩
        · exact Or.inr ⟨i, by simp, hrt⟩
        · exact Or.inr ⟨j, by simp [hj], hrt⟩
  | goRight c l v q ih =>
    intro holeId ids h
    cases ids with
    | nil => simp [reprZipB] at h
    | cons i js =>
      rw [reprZipB] at h
      cases hpi : hp i with
      | none => rw [hpi] at h; exact absurd h (by simp)
      | some nd =>
        rw [hpi] at h
        simp only [Bool.and_eq_true, decide_eq_true_eq] at h
        rcases ih (some i) js h.2 with ⟨hjs, hrt⟩ | ⟨j, hj, hrt⟩
        · exact Or.inr ⟨i, by simp, hrt⟩
        · exact Or.inr ⟨j, by simp [hj], hrt⟩

/-- Every ancestor address occurs in the context's address list. -/
theorem ids_subset_zip (hp : Heap) (rt : Option Nat) :
    ∀ (p : Path) (holeId : Option Nat) (ids : List Nat),
    reprZipB hp rt holeId ids p = true →
    ∀ j ∈ ids, j ∈ zipIdList hp ids p := by
  intro p
  induction p with
  | root =>
    intro holeId ids h
    cases ids with
    | nil => intro j hj; simp at hj
    | cons i js => simp [reprZipB] at h
  | goLeft c v r q ih =>
    intro holeId ids h
    cases ids with
    | nil => simp [reprZipB] at h
    | cons i js =>
      rw [reprZipB] at h
      cases hpi : hp i with
      | none => rw [hpi] at h; exact absurd h (by simp)
      | some nd =>
        rw [hpi] at h
        simp only [Bool.and_eq_true, decide_eq_true_eq] at h
        intro j hj
        rw [zipIdList, hpi]
        rcases List.mem_cons.mp hj with hj | hj
        · subst hj; simp
        · simp [ih (some i) js h.2 j hj]
  | goRight c l v q ih =>
    intro holeId ids h
    cases ids with
    | nil => simp [reprZipB] at h
    | cons i js =>
      rw [reprZipB] at h
      cases hpi : hp i with
      | none => rw [hpi] at h; exact absurd h (by simp)
      | some nd =>
        rw [hpi] at h
        simp only [Bool.and_eq_true, decide_eq_true_eq] at h
        intro j hj
        rw [zipIdList, hpi]
        rcases List.mem_cons.mp hj with hj | hj
        · subst hj; simp
        · simp [ih (some i) js h.2 j hj]

/-- A non-NULL represented subtree's own address heads its address list. -/
theorem mem_idList_self (hp : Heap) (n : Nat) (c : Color) (l : RBNode)
    (v : Int) (r : RBNode) :
    n ∈ idList hp (some n) (RBNode.node c l v r) := by
  rw [idList]
  cases hp n <;> simp

/-- Re-pointing the top cell's parent field re-roots a represented subtree
under a new parent. -/
theorem reprB_reparent (hp H : Heap) (oldpar newpar oid : Option Nat)
    (m : RBNode) (h : reprB hp oldpar oid m = true)
    (hhead : ∀ k nd, oid = some k → hp k = some nd →
        H k = some ⟨nd.data, nd.node_color, newpar, nd.left, nd.right⟩)
    (hag : ∀ j ∈ idList hp oid m, oid ≠ some j → H j = hp j)
    (hnd : (idList hp oid m).Nodup) :
    reprB H newpar oid m = true := by
  cases m with
  | nil =>
    cases oid with
    | none => rfl
    | some i => simp [reprB] at h
  | node c l v r =>
    cases oid with
    | none => simp [reprB] at h
    | some k =>
      rw [reprB] at h
      cases hpk : hp k with
      | none => rw [hpk] at h; exact absurd h (by simp)
      | some nd =>
        rw [hpk] at h
        simp only [Bool.and_eq_true, decide_eq_true_eq] at h
        obtain ⟨⟨⟨⟨hd, hc⟩, hpr⟩, hl⟩, hr⟩ := h
        have hidl : idList hp (some k) (RBNode.node c l v r) =
            k :: (idList hp nd.left l ++ idList hp nd.right r) := by
          rw [idList, hpk]
        rw [hidl, List.nodup_cons] at hnd
        have hagl : ∀ j ∈ idList hp nd.left l, H j = hp j := by
          intro j hj
          refine hag j (by rw [hidl]; simp [hj]) ?_
          intro hkj
          injection hkj with hkj
          exact hnd.1 (by rw [hkj]; simp [hj])
        have hagr : ∀ j ∈ idList hp nd.right r, H j = hp j := by
          intro j hj
          refine hag j (by rw [hidl]; simp [hj]) ?_
          intro hkj
          injection hkj with hkj
          exact hnd.1 (by rw [hkj]; simp [hj])
        rw [reprB, hhead k nd rfl hpk]
        simp [hd, hc, (reprB_frame hp H (some k) nd.left l hl hagl).1,
          (reprB_frame hp H (some k) nd.right r hr hagr).1]

/-- After a right rotation the heap `H` represents the rotated subtree
shape, given the three rewritten cells and untouched everything else. -/
theorem rrot_shape (hp H : Heap) (par : Option Nat)
    (n l : Nat) (c lc : Color) (LL LR R : RBNode) (lv v : Int)
    (nn ln : HNode)
    (hLL : reprB hp (some l) ln.left LL = true)
    (hLR : reprB hp (some l) ln.right LR = true)
    (hR : reprB hp (some n) nn.right R = true)
    (hHl : H l = some ⟨lv, lc, par, ln.left, some n⟩)
    (hHn : H n = some ⟨v, c, some l, ln.right, nn.right⟩)
    (hHlr : ∀ k nd, ln.right = some k → hp k = some nd →
        H k = some ⟨nd.data, nd.node_color, some n, nd.left, nd.right⟩)
    (hagLL : ∀ j ∈ idList hp ln.left LL, H j = hp j)
    (hagLR : ∀ j ∈ idList hp ln.right LR, ln.right ≠ some j → H j = hp j)
    (hndLR : (idList hp ln.right LR).Nodup)
    (hagR : ∀ j ∈ idList hp nn.right R, H j = hp j) :
    reprB H par (some l) (RBNode.node lc LL lv (RBNode.node c LR v R)) = true := by
  have h1 := (reprB_frame hp H (some l) ln.left LL hLL hagLL).1
  have h2 := reprB_reparent hp H (some l) (some n) ln.right LR hLR hHlr
    hagLR hndLR
  have h3 := (reprB_frame hp H (some n) nn.right R hR hagR).1
  have hmid : reprB H (some l) (some n) (RBNode.node c LR v R) = true := by
    rw [reprB, hHn]
    simp [h2, h3]
  rw [reprB, hHl]
  simp [h1, hmid]

/-- Mirror of `rrot_shape` for the left rotation. -/
theorem lrot_shape (hp H : Heap) (par : Option Nat)
    (n r : Nat) (c rc : Color) (RL RR L : RBNode) (rv v : Int)
    (nn rn : HNode)
    (hRR : reprB hp (some r) rn.right RR = true)
    (hRL : reprB hp (some r) rn.left RL = true)
    (hL : reprB hp (some n) nn.left L = true)
    (hHr : H r = some ⟨rv, rc, par, some n, rn.right⟩)
    (hHn : H n = some ⟨v, c, some r, nn.left, rn.left⟩)
    (hHrl : ∀ k nd, rn.left = some k → hp k = some nd →
        H k = some ⟨nd.data, nd.node_color, some n, nd.left, nd.right⟩)
    (hagRR : ∀ j ∈ idList hp rn.right RR, H j = hp j)
    (hagRL : ∀ j ∈ idList hp rn.left RL, rn.left ≠ some j → H j = hp j)
    (hndRL : (idList hp rn.left RL).Nodup)
    (hagL : ∀ j ∈ idList hp nn.left L, H j = hp j) :
    reprB H par (some r) (RBNode.node rc (RBNode.node c L v RL) rv RR) = true := by
  have h1 := (reprB_frame hp H (some r) rn.right RR hRR hagRR).1
  have h2 := reprB_reparent hp H (some r) (some n) rn.left RL hRL hHrl
    hagRL hndRL
  have h3 := (reprB_frame hp H (some n) nn.left L hL hagL).1
  have hmid : reprB H (some r) (some n) (RBNode.node c L v RL) = true := by
    rw [reprB, hHn]
    simp [h2, h3]
  rw [reprB, hHr]
  simp [h1, hmid]

/-- A realized context whose innermost ancestor's left slot is rewritten
to the new child realizes the same context with the new hole. -/
theorem zip_relink_left (hp H : Heap) (rt : Option Nat) (tp : Nat)
    (js : List Nat) (q : Path) (c : Color) (v : Int) (r : RBNode)
    (newHole : Option Nat) (tpn : HNode)
    (hd : tpn.data = v) (hc : tpn.node_color = c)
    (hpr : tpn.parent = parentHead js)
    (hsub : reprB hp (some tp) tpn.right r = true)
    (hrec : reprZipB hp rt (some tp) js q = true)
    (hHtp : H tp = some ⟨tpn.data, tpn.node_color, tpn.parent, newHole,
      tpn.right⟩)
    (hagD : ∀ j ∈ idList hp tpn.right r, H j = hp j)
    (hagZ : ∀ j ∈ zipIdList hp js q, H j = hp j) :
    reprZipB H rt newHole (tp :: js) (Path.goLeft c v r q) = true := by
  rw [reprZipB, hHtp]
  simp [hd, hc, hpr,
    (reprB_frame hp H (some tp) tpn.right r hsub hagD).1,
    (reprZipB_frame hp H rt q (some tp) js hrec hagZ).1]

/-- Mirror of `zip_relink_left` for a right slot. -/
theorem zip_relink_right (hp H : Heap) (rt : Option Nat) (tp : Nat)
    (js : List Nat) (q : Path) (c : Color) (v : Int) (l : RBNode)
    (newHole : Option Nat) (tpn : HNode)
    (hd : tpn.data = v) (hc : tpn.node_color = c)
    (hpr : tpn.parent = parentHead js)
    (hsub : reprB hp (some tp) tpn.left l = true)
    (hrec : reprZipB hp rt (some tp) js q = true)
    (hHtp : H tp = some ⟨tpn.data, tpn.node_color, tpn.parent, tpn.left,
      newHole⟩)
    (hagD : ∀ j ∈ idList hp tpn.left l, H j = hp j)
    (hagZ : ∀ j ∈ zipIdList hp js q, H j = hp j) :
    reprZipB H rt newHole (tp :: js) (Path.goRight c l v q) = true := by
  rw [reprZipB, hHtp]
  simp [hd, hc, hpr,
    (reprB_frame hp H (some tp) tpn.left l hsub hagD).1,
    (reprZipB_frame hp H rt q (some tp) js hrec hagZ).1]

/-- Inversion of `reprB` at a node with a known address. -/
theorem reprB_node_inv (hp : Heap) (par : Option Nat) (i : Nat) (c : Color)
    (l : RBNode) (v : Int) (r : RBNode)
    (h : reprB hp par (some i) (RBNode.node c l v r) = true) :
    ∃ nd, hp i = some nd ∧ nd.data = v ∧ nd.node_color = c ∧
      nd.parent = par ∧ reprB hp (some i) nd.left l = true ∧
      reprB hp (some i) nd.right r = true := by
  rw [reprB] at h
  cases hpi : hp i with
  | none => rw [hpi] at h; exact absurd h (by simp)
  | some nd =>
    rw [hpi] at h
    simp only [Bool.and_eq_true, decide_eq_true_eq] at h
    exact ⟨nd, rfl, h.1.1.1.1, h.1.1.1.2, h.1.1.2, h.1.2, h.2⟩

/-- A represented node subtree has a non-NULL address. -/
theorem reprB_oid_node (hp : Heap) (par oid : Option Nat) (c : Color)
    (l : RBNode) (v : Int) (r : RBNode)
    (h : reprB hp par oid (RBNode.node c l v r) = true) :
    ∃ i, oid = some i := by
  cases oid with
  | none => simp [reprB] at h
  | some i => exact ⟨i, rfl⟩

/-- A represented subtree at a non-NULL address is a node. -/
theorem reprB_some_node (hp : Heap) (par : Option Nat) (k : Nat) (m : RBNode)
    (h : reprB hp par (some k) m = true) :
    ∃ c l v r, m = RBNode.node c l v r := by
  cases m with
  | nil => simp [reprB] at h
  | node c l v r => exact ⟨c, l, v, r, rfl⟩

/-- Inversion of `reprZipB` at a left-descending ancestor. -/
theorem reprZipB_goLeft_inv (hp : Heap) (rt holeId : Option Nat) (tp : Nat)
    (js : List Nat) (c : Color) (v : Int) (r : RBNode) (q : Path)
    (h : reprZipB hp rt holeId (tp :: js) (Path.goLeft c v r q) = true) :
    ∃ tpn, hp tp = some tpn ∧ tpn.data = v ∧ tpn.node_color = c ∧
      tpn.left = holeId ∧ tpn.parent = parentHead js ∧
      reprB hp (some tp) tpn.right r = true ∧
      reprZipB hp rt (some tp) js q = true := by
  rw [reprZipB] at h
  cases hpi : hp tp with
  | none => rw [hpi] at h; exact absurd h (by simp)
  | some tpn =>
    rw [hpi] at h
    simp only [Bool.and_eq_true, decide_eq_true_eq] at h
    exact ⟨tpn, rfl, h.1.1.1.1.1, h.1.1.1.1.2, h.1.1.1.2, h.1.1.2, h.1.2, h.2⟩

/-- Inversion of `reprZipB` at a right-descending ancestor. -/
theorem reprZipB_goRight_inv (hp : Heap) (rt holeId : Option Nat) (tp : Nat)
    (js : List Nat) (c : Color) (l : RBNode) (v : Int) (q : Path)
    (h : reprZipB hp rt holeId (tp :: js) (Path.goRight c l v q) = true) :
    ∃ tpn, hp tp = some tpn ∧ tpn.data = v ∧ tpn.node_color = c ∧
      tpn.right = holeId ∧ tpn.parent = parentHead js ∧
      reprB hp (some tp) tpn.left l = true ∧
      reprZipB hp rt (some tp) js q = true := by
  rw [reprZipB] at h
  cases hpi : hp tp with
  | none => rw [hpi] at h; exact absurd h (by simp)
  | some tpn =>
    rw [hpi] at h
    simp only [Bool.and_eq_true, decide_eq_true_eq] at h
    exact ⟨tpn, rfl, h.1.1.1.1.1, h.1.1.1.1.2, h.1.1.1.2, h.1.1.2, h.1.2, h.2⟩

/-- `rrot` on a realized tree: succeeds, re-roots the rotated subtree in
the same hole (or the root pointer), rewires every parent back-reference
and hands the inner grandchild to `n`. -/
theorem rrot_spec (hp : Heap) (rt : Option Nat) (n : Nat) (ids : List Nat)
    (p : Path) (c lc : Color) (LL LR R : RBNode) (lv v : Int)
    (hz : reprZipB hp rt (some n) ids p = true)
    (hf : reprB hp (parentHead ids) (some n)
        (RBNode.node c (RBNode.node lc LL lv LR) v R) = true)
    (hnd : (zipIdList hp ids p ++ idList hp (some n)
        (RBNode.node c (RBNode.node lc LL lv LR) v R)).Nodup) :
    ∃ H RT l, rrot hp rt n = Except.ok (H, RT) ∧
      reprZipB H RT (some l) ids p = true ∧
      reprB H (parentHead ids) (some l)
        (RBNode.node lc LL lv (RBNode.node c LR v R)) = true := by
  obtain ⟨nn, hpn, hdat, hcol, hpar, hfl, hfr⟩ :=
    reprB_node_inv hp (parentHead ids) n c (RBNode.node lc LL lv LR) v R hf
  obtain ⟨l, hnl⟩ := reprB_oid_node hp (some n) nn.left lc LL lv LR hfl
  rw [hnl] at hfl
  obtain ⟨ln, hpl, hld, hlc, hlp, hLL, hLR⟩ :=
    reprB_node_inv hp (some n) l lc LL lv LR hfl
  -- the focus's address list, decomposed
  have hLfoc : idList hp (some n)
      (RBNode.node c (RBNode.node lc LL lv LR) v R) =
      n :: ((l :: (idList hp ln.left LL ++ idList hp ln.right LR)) ++
        idList hp nn.right R) := by
    simp only [idList, hpn, hnl, hpl]
  -- distinctness facts
  have hZdisj := List.disjoint_of_nodup_append hnd
  have hFnd := hnd.of_append_right
  rw [hLfoc, List.nodup_cons] at hFnd
  obtain ⟨hnF1, hFnd2⟩ := hFnd
  simp only [List.mem_append, List.mem_cons, not_or] at hnF1
  obtain ⟨⟨hn_l, hnA, hnB⟩, hnC⟩ := hnF1
  have hABl := hFnd2.of_append_left
  have hlbC := List.disjoint_of_nodup_append hFnd2
  rw [List.nodup_cons] at hABl
  obtain ⟨hlAB, hABnd⟩ := hABl
  simp only [List.mem_append, not_or] at hlAB
  obtain ⟨hlA, hlB⟩ := hlAB
  have hBnd : (idList hp ln.right LR).Nodup := hABnd.of_append_right
  have hAdB := List.disjoint_of_nodup_append hABnd
  have hlC : l ∉ idList hp nn.right R := hlbC (by simp)
  have hBC : ∀ j ∈ idList hp ln.right LR, j ∉ idList hp nn.right R :=
    fun j hj => hlbC (by simp [hj])
  -- membership in the focus list
  have hnF : n ∈ idList hp (some n)
      (RBNode.node c (RBNode.node lc LL lv LR) v R) := by
    rw [hLfoc]; simp
  have hlF : l ∈ idList hp (some n)
      (RBNode.node c (RBNode.node lc LL lv LR) v R) := by
    rw [hLfoc]; simp
  have hAF : ∀ j ∈ idList hp ln.left LL, j ∈ idList hp (some n)
      (RBNode.node c (RBNode.node lc LL lv LR) v R) := by
    intro j hj; rw [hLfoc]; simp [hj]
  have hBF : ∀ j ∈ idList hp ln.right LR, j ∈ idList hp (some n)
      (RBNode.node c (RBNode.node lc LL lv LR) v R) := by
    intro j hj; rw [hLfoc]; simp [hj]
  have hCF : ∀ j ∈ idList hp nn.right R, j ∈ idList hp (some n)
      (RBNode.node c (RBNode.node lc LL lv LR) v R) := by
    intro j hj; rw [hLfoc]; simp [hj]
  have hZn : n ∉ zipIdList hp ids p := fun hin => hZdisj hin hnF
  have hZl : l ∉ zipIdList hp ids p := fun hin => hZdisj hin hlF
  have hZB : ∀ j ∈ idList hp ln.right LR, j ∉ zipIdList hp ids p :=
    fun j hj hin => hZdisj hin (hBF j hj)
  have hln : l ≠ n := Ne.symm hn_l
  cases ids with
  | nil =>
    cases p with
    | goLeft c2 v2 r2 q => simp [reprZipB] at hz
    | goRight c2 l2 v2 q => simp [reprZipB] at hz
    | root =>
      have hrt : rt = some n := by
        rw [reprZipB] at hz
        exact of_decide_eq_true hz
      cases hlr : ln.right with
      | none =>
        refine ⟨setParent (setParent (setRight (setLeft hp n none) l
          (some n)) n (some l)) l none, some l, l, ?_, ?_, ?_⟩
        · unfold rrot
          rw [hpn]
          simp only [hnl, hpl, hlr, hpar, parentHead, hrt]
          simp
        · simp [reprZipB]
        · refine rrot_shape hp _ (parentHead []) n l c lc LL LR R lv v nn ln
            hLL hLR hfr ?_ ?_ ?_ ?_ ?_ hBnd ?_
          · simp [setParent, setRight, setLeft, parentHead, hpl, hln,
              hld, hlc]
          · simp [setParent, setRight, setLeft, hpn, hn_l, hdat, hcol, hlr]
          · intro k nd hk
            rw [hlr] at hk
            exact absurd hk (by simp)
          · intro j hj
            have h1 : j ≠ l := fun he => hlA (he ▸ hj)
            have h2 : j ≠ n := fun he => hnA (he ▸ hj)
            simp [setParent, setRight, setLeft, h1, h2]
          · intro j hj _
            rw [hlr] at hj
            simp [idList] at hj
          · intro j hj
            have h1 : j ≠ l := fun he => hlC (he ▸ hj)
            have h2 : j ≠ n := fun he => hnC (he ▸ hj)
            simp [setParent, setRight, setLeft, h1, h2]
      | some lrid =>
        rw [hlr] at hLR
        obtain ⟨lrc, lrl, lrv2, lrr, hLReq⟩ :=
          reprB_some_node hp (some l) lrid LR hLR
        have hlridB : lrid ∈ idList hp ln.right LR := by
          rw [hlr, hLReq]
          exact mem_idList_self hp lrid lrc lrl lrv2 lrr
        have hlrid_n : lrid ≠ n := fun he => hnB (he ▸ hlridB)
        have hlrid_l : lrid ≠ l := fun he => hlB (he ▸ hlridB)
        refine ⟨setParent (setParent (setParent (setRight (setLeft hp n
          (some lrid)) l (some n)) n (some l)) l none) lrid (some n),
          some l, l, ?_, ?_, ?_⟩
        · unfold rrot
          rw [hpn]
          simp only [hnl, hpl, hlr, hpar, parentHead, hrt]
          simp
        · simp [reprZipB]
        · refine rrot_shape hp _ (parentHead []) n l c lc LL LR R lv v nn ln
            hLL (by rw [hlr]; exact hLR) hfr ?_ ?_ ?_ ?_ ?_ hBnd ?_
          · simp [setParent, setRight, setLeft, parentHead, hpl, hln,
              hld, hlc, hlrid_l.symm]
          · simp [setParent, setRight, setLeft, hpn, hn_l, hdat, hcol,
              hlr, hlrid_n.symm]
          · intro k nd hk hpk
            rw [hlr] at hk
            injection hk with hk
            subst hk
            simp [setParent, setRight, setLeft, hlrid_n, hlrid_l, hpk]
          · intro j hj
            have h1 : j ≠ l := fun he => hlA (he ▸ hj)
            have h2 : j ≠ n := fun he => hnA (he ▸ hj)
            have h3 : j ≠ lrid := fun he => hAdB hj (he ▸ hlridB)
            simp [setParent, setRight, setLeft, h1, h2, h3]
          · intro j hj hguard
            have h1 : j ≠ l := fun he => hlB (he ▸ hj)
            have h2 : j ≠ n := fun he => hnB (he ▸ hj)
            have h3 : j ≠ lrid := by
              intro he
              rw [hlr] at hguard
              exact hguard (by rw [he])
            simp [setParent, setRight, setLeft, h1, h2, h3]
          · intro j hj
            have h1 : j ≠ l := fun he => hlC (he ▸ hj)
            have h2 : j ≠ n := fun he => hnC (he ▸ hj)
            have h3 : j ≠ lrid := fun he => hBC lrid hlridB (he ▸ hj)
            simp [setParent, setRight, setLeft, h1, h2, h3]
  | cons tp js =>
    have hnFm := hnF
    cases p with
    | root => simp [reprZipB] at hz
    | goLeft c2 v2 r2 q =>
      obtain ⟨tpn, hptp, htpd, htpc, htpl, htppr, htpsub, htprec⟩ :=
        reprZipB_goLeft_inv hp rt (some n) tp js c2 v2 r2 q hz
      have hZdef : zipIdList hp (tp :: js) (Path.goLeft c2 v2 r2 q) =
          (tp :: idList hp tpn.right r2) ++ zipIdList hp js q := by
        simp only [zipIdList, hptp]
      have htpF : tp ∉ idList hp (some n)
          (RBNode.node c (RBNode.node lc LL lv LR) v R) :=
        hZdisj (by rw [hZdef]; simp)
      have htp_n : tp ≠ n := fun he => htpF (he ▸ hnF)
      have htp_l : tp ≠ l := fun he => htpF (he ▸ hlF)
      have hZnd := hnd.of_append_left
      rw [hZdef] at hZnd
      have htpZq : tp ∉ zipIdList hp js q :=
        List.disjoint_of_nodup_append hZnd (by simp)
      have htpD : tp ∉ idList hp tpn.right r2 :=
        (List.nodup_cons.mp hZnd.of_append_left).1
      have hDmem : ∀ j ∈ idList hp tpn.right r2,
          j ∈ zipIdList hp (tp :: js) (Path.goLeft c2 v2 r2 q) := by
        intro j hj; rw [hZdef]; simp [hj]
      have hZqmem : ∀ j ∈ zipIdList hp js q,
          j ∈ zipIdList hp (tp :: js) (Path.goLeft c2 v2 r2 q) := by
        intro j hj; rw [hZdef]; simp [hj]
      have hrtne : rt ≠ some n := by
        rcases reprZipB_rt_mem hp rt (Path.goLeft c2 v2 r2 q) (some n)
            (tp :: js) hz with ⟨hcon, _⟩ | ⟨j, hjmem, hrtj⟩
        · exact absurd hcon (by simp)
        · have hjZ := ids_subset_zip hp rt (Path.goLeft c2 v2 r2 q)
            (some n) (tp :: js) hz j hjmem
          intro he
          rw [hrtj] at he
          injection he with he
          exact hZdisj hjZ (he ▸ hnF)
      have hur : decide (rt = some n) = false := decide_eq_false hrtne
      cases hlr : ln.right with
      | none =>
        have hH5tp : (setParent (setParent (setRight (setLeft hp n none) l
            (some n)) n (some l)) l (some tp)) tp = some tpn := by
          simp [setParent, setRight, setLeft, htp_n, htp_l, hptp]
        refine ⟨setLeft (setParent (setParent (setRight (setLeft hp n none)
          l (some n)) n (some l)) l (some tp)) tp (some l), rt, l,
          ?_, ?_, ?_⟩
        · unfold rrot
          rw [hpn]
          simp only [hnl, hpl, hlr, hpar, parentHead]
          rw [hH5tp]
          simp only [htpl]
          simp [hur]
        · refine zip_relink_left hp _ rt tp js q c2 v2 r2 (some l) tpn
            htpd htpc htppr htpsub htprec ?_ ?_ ?_
          · simp [setLeft, setParent, setRight, htp_n, htp_l, hptp]
          · intro j hj
            have h1 : j ≠ n := fun he => hZdisj (hDmem j hj) (he ▸ hnF)
            have h2 : j ≠ l := fun he => hZdisj (hDmem j hj) (he ▸ hlF)
            have h3 : j ≠ tp := fun he => htpD (he ▸ hj)
            simp [setLeft, setParent, setRight, h1, h2, h3]
          · intro j hj
            have h1 : j ≠ n := fun he => hZdisj (hZqmem j hj) (he ▸ hnF)
            have h2 : j ≠ l := fun he => hZdisj (hZqmem j hj) (he ▸ hlF)
            have h3 : j ≠ tp := fun he => htpZq (he ▸ hj)
            simp [setLeft, setParent, setRight, h1, h2, h3]
        · refine rrot_shape hp _ (parentHead (tp :: js)) n l c lc LL LR R
            lv v nn ln hLL hLR hfr ?_ ?_ ?_ ?_ ?_ hBnd ?_
          · simp [setLeft, setParent, setRight, parentHead, hpl, hln,
              hld, hlc, htp_l.symm]
          · simp [setLeft, setParent, setRight, hpn, hn_l, hdat, hcol,
              hlr, htp_n.symm]
          · intro k nd hk
            rw [hlr] at hk
            exact absurd hk (by simp)
          · intro j hj
            have h1 : j ≠ l := fun he => hlA (he ▸ hj)
            have h2 : j ≠ n := fun he => hnA (he ▸ hj)
            have h3 : j ≠ tp := fun he => htpF (he ▸ hAF j hj)
            simp [setLeft, setParent, setRight, h1, h2, h3]
          · intro j hj _
            rw [hlr] at hj
            simp [idList] at hj
          · intro j hj
            have h1 : j ≠ l := fun he => hlC (he ▸ hj)
            have h2 : j ≠ n := fun he => hnC (he ▸ hj)
            have h3 : j ≠ tp := fun he => htpF (he ▸ hCF j hj)
            simp [setLeft, setParent, setRight, h1, h2, h3]
      | some lrid =>
        rw [hlr] at hLR
        obtain ⟨lrc, lrl, lrv2, lrr, hLReq⟩ :=
          reprB_some_node hp (some l) lrid LR hLR
        have hlridB : lrid ∈ idList hp ln.right LR := by
          rw [hlr, hLReq]
          exact mem_idList_self hp lrid lrc lrl lrv2 lrr
        have hlrid_n : lrid ≠ n := fun he => hnB (he ▸ hlridB)
        have hlrid_l : lrid ≠ l := fun he => hlB (he ▸ hlridB)
        have htp_lrid : tp ≠ lrid := fun he => htpF (he ▸ hBF lrid hlridB)
        have hH5tp : (setParent (setParent (setParent (setRight (setLeft hp
            n (some lrid)) l (some n)) n (some l)) l (some tp)) lrid
            (some n)) tp = some tpn := by
          simp [setParent, setRight, setLeft, htp_n, htp_l, htp_lrid, hptp]
        refine ⟨setLeft (setParent (setParent (setParent (setRight (setLeft
          hp n (some lrid)) l (some n)) n (some l)) l (some tp)) lrid
          (some n)) tp (some l), rt, l, ?_, ?_, ?_⟩
        · unfold rrot
          rw [hpn]
          simp only [hnl, hpl, hlr, hpar, parentHead]
          rw [hH5tp]
          simp only [htpl]
          simp [hur]
        · refine zip_relink_left hp _ rt tp js q c2 v2 r2 (some l) tpn
            htpd htpc htppr htpsub htprec ?_ ?_ ?_
          · simp [setLeft, setParent, setRight, htp_n, htp_l, htp_lrid,
              hptp]
          · intro j hj
            have h1 : j ≠ n := fun he => hZdisj (hDmem j hj) (he ▸ hnF)
            have h2 : j ≠ l := fun he => hZdisj (hDmem j hj) (he ▸ hlF)
            have h3 : j ≠ tp := fun he => htpD (he ▸ hj)
            have h4 : j ≠ lrid := fun he =>
              hZdisj (hDmem j hj) (he ▸ hBF lrid hlridB)
            simp [setLeft, setParent, setRight, h1, h2, h3, h4]
          · intro j hj
            have h1 : j ≠ n := fun he => hZdisj (hZqmem j hj) (he ▸ hnF)
            have h2 : j ≠ l := fun he => hZdisj (hZqmem j hj) (he ▸ hlF)
            have h3 : j ≠ tp := fun he => htpZq (he ▸ hj)
            have h4 : j ≠ lrid := fun he =>
              hZdisj (hZqmem j hj) (he ▸ hBF lrid hlridB)
            simp [setLeft, setParent, setRight, h1, h2, h3, h4]
        · refine rrot_shape hp _ (parentHead (tp :: js)) n l c lc LL LR R
            lv v nn ln hLL (by rw [hlr]; exact hLR) hfr ?_ ?_ ?_ ?_ ?_
            hBnd ?_
          · simp [setLeft, setParent, setRight, parentHead, hpl, hln,
              hld, hlc, htp_l.symm, hlrid_l.symm]
          · simp [setLeft, setParent, setRight, hpn, hn_l, hdat, hcol,
              hlr, htp_n.symm, hlrid_n.symm]
          · intro k nd hk hpk
            rw [hlr] at hk
            injection hk with hk
            subst hk
            simp [setLeft, setParent, setRight, hlrid_n, hlrid_l,
              htp_lrid.symm, hpk]
          · intro j hj
            have h1 : j ≠ l := fun he => hlA (he ▸ hj)
            have h2 : j ≠ n := fun he => hnA (he ▸ hj)
            have h3 : j ≠ tp := fun he => htpF (he ▸ hAF j hj)
            have h4 : j ≠ lrid := fun he => hAdB hj (he ▸ hlridB)
            simp [setLeft, setParent, setRight, h1, h2, h3, h4]
          · intro j hj hguard
            have h1 : j ≠ l := fun he => hlB (he ▸ hj)
            have h2 : j ≠ n := fun he => hnB (he ▸ hj)
            have h3 : j ≠ tp := fun he => htpF (he ▸ hBF j hj)
            have h4 : j ≠ lrid := by
              intro he
              rw [hlr] at hguard
              exact hguard (by rw [he])
            simp [setLeft, setParent, setRight, h1, h2, h3, h4]
          · intro j hj
            have h1 : j ≠ l := fun he => hlC (he ▸ hj)
            have h2 : j ≠ n := fun he => hnC (he ▸ hj)
            have h3 : j ≠ tp := fun he => htpF (he ▸ hCF j hj)
            have h4 : j ≠ lrid := fun he => hBC lrid hlridB (he ▸ hj)
            simp [setLeft, setParent, setRight, h1, h2, h3, h4]
    | goRight c2 l2 v2 q =>
      obtain ⟨tpn, hptp, htpd, htpc, htpr, htppr, htpsub, htprec⟩ :=
        reprZipB_goRight_inv hp rt (some n) tp js c2 l2 v2 q hz
      have hZdef : zipIdList hp (tp :: js) (Path.goRight c2 l2 v2 q) =
          (tp :: idList hp tpn.left l2) ++ zipIdList hp js q := by
        simp only [zipIdList, hptp]
      have htpF : tp ∉ idList hp (some n)
          (RBNode.node c (RBNode.node lc LL lv LR) v R) :=
        hZdisj (by rw [hZdef]; simp)
      have htp_n : tp ≠ n := fun he => htpF (he ▸ hnF)
      have htp_l : tp ≠ l := fun he => htpF (he ▸ hlF)
      have hZnd := hnd.of_append_left
      rw [hZdef] at hZnd
      have htpZq : tp ∉ zipIdList hp js q :=
        List.disjoint_of_nodup_append hZnd (by simp)
      have htpD : tp ∉ idList hp tpn.left l2 :=
        (List.nodup_cons.mp hZnd.of_append_left).1
      have hDmem : ∀ j ∈ idList hp tpn.left l2,
          j ∈ zipIdList hp (tp :: js) (Path.goRight c2 l2 v2 q) := by
        intro j hj; rw [hZdef]; simp [hj]
      have hZqmem : ∀ j ∈ zipIdList hp js q,
          j ∈ zipIdList hp (tp :: js) (Path.goRight c2 l2 v2 q) := by
        intro j hj; rw [hZdef]; simp [hj]
      have hrtne : rt ≠ some n := by
        rcases reprZipB_rt_mem hp rt (Path.goRight c2 l2 v2 q) (some n)
            (tp :: js) hz with ⟨hcon, _⟩ | ⟨j, hjmem, hrtj⟩
        · exact absurd hcon (by simp)
        · have hjZ := ids_subset_zip hp rt (Path.goRight c2 l2 v2 q)
            (some n) (tp :: js) hz j hjmem
          intro he
          rw [hrtj] at he
          injection he with he
          exact hZdisj hjZ (he ▸ hnF)
      have hur : decide (rt = some n) = false := decide_eq_false hrtne
      have htplne : tpn.left ≠ some n := by
        intro he
        rw [he] at htpsub
        obtain ⟨c3, l3, v3, r3, heq⟩ :=
          reprB_some_node hp (some tp) n l2 htpsub
        have hmem : n ∈ idList hp tpn.left l2 := by
          rw [he, heq]
          exact mem_idList_self hp n c3 l3 v3 r3
        exact hZn (hDmem n hmem)
      cases hlr : ln.right with
      | none =>
        have hH5tp : (setParent (setParent (setRight (setLeft hp n none) l
            (some n)) n (some l)) l (some tp)) tp = some tpn := by
          simp [setParent, setRight, setLeft, htp_n, htp_l, hptp]
        refine ⟨setRight (setParent (setParent (setRight (setLeft hp n
          none) l (some n)) n (some l)) l (some tp)) tp (some l), rt, l,
          ?_, ?_, ?_⟩
        · unfold rrot
          rw [hpn]
          simp only [hnl, hpl, hlr, hpar, parentHead]
          rw [hH5tp]
          simp only [if_neg htplne]
          simp [hur]
        · refine zip_relink_right hp _ rt tp js q c2 v2 l2 (some l) tpn
            htpd htpc htppr htpsub htprec ?_ ?_ ?_
          · simp [setRight, setParent, setLeft, htp_n, htp_l, hptp]
          · intro j hj
            have h1 : j ≠ n := fun he => hZdisj (hDmem j hj) (he ▸ hnF)
            have h2 : j ≠ l := fun he => hZdisj (hDmem j hj) (he ▸ hlF)
            have h3 : j ≠ tp := fun he => htpD (he ▸ hj)
            simp [setRight, setParent, setLeft, h1, h2, h3]
          · intro j hj
            have h1 : j ≠ n := fun he => hZdisj (hZqmem j hj) (he ▸ hnF)
            have h2 : j ≠ l := fun he => hZdisj (hZqmem j hj) (he ▸ hlF)
            have h3 : j ≠ tp := fun he => htpZq (he ▸ hj)
            simp [setRight, setParent, setLeft, h1, h2, h3]
        · refine rrot_shape hp _ (parentHead (tp :: js)) n l c lc LL LR R
            lv v nn ln hLL hLR hfr ?_ ?_ ?_ ?_ ?_ hBnd ?_
          · simp [setRight, setParent, setLeft, parentHead, hpl, hln,
              hld, hlc, htp_l.symm]
          · simp [setRight, setParent, setLeft, hpn, hn_l, hdat, hcol,
              hlr, htp_n.symm]
          · intro k nd hk
            rw [hlr] at hk
            exact absurd hk (by simp)
          · intro j hj
            have h1 : j ≠ l := fun he => hlA (he ▸ hj)
            have h2 : j ≠ n := fun he => hnA (he ▸ hj)
            have h3 : j ≠ tp := fun he => htpF (he ▸ hAF j hj)
            simp [setRight, setParent, setLeft, h1, h2, h3]
          · intro j hj _
            rw [hlr] at hj
            simp [idList] at hj
          · intro j hj
            have h1 : j ≠ l := fun he => hlC (he ▸ hj)
            have h2 : j ≠ n := fun he => hnC (he ▸ hj)
            have h3 : j ≠ tp := fun he => htpF (he ▸ hCF j hj)
            simp [setRight, setParent, setLeft, h1, h2, h3]
      | some lrid =>
        rw [hlr] at hLR
        obtain ⟨lrc, lrl, lrv2, lrr, hLReq⟩ :=
          reprB_some_node hp (some l) lrid LR hLR
        have hlridB : lrid ∈ idList hp ln.right LR := by
          rw [hlr, hLReq]
          exact mem_idList_self hp lrid lrc lrl lrv2 lrr
        have hlrid_n : lrid ≠ n := fun he => hnB (he ▸ hlridB)
        have hlrid_l : lrid ≠ l := fun he => hlB (he ▸ hlridB)
        have htp_lrid : tp ≠ lrid := fun he => htpF (he ▸ hBF lrid hlridB)
        have hH5tp : (setParent (setParent (setParent (setRight (setLeft hp
            n (some lrid)) l (some n)) n (some l)) l (some tp)) lrid
            (some n)) tp = some tpn := by
          simp [setParent, setRight, setLeft, htp_n, htp_l, htp_lrid, hptp]
        refine ⟨setRight (setParent (setParent (setParent (setRight
          (setLeft hp n (some lrid)) l (some n)) n (some l)) l (some tp))
          lrid (some n)) tp (some l), rt, l, ?_, ?_, ?_⟩
        · unfold rrot
          rw [hpn]
          simp only [hnl, hpl, hlr, hpar, parentHead]
          rw [hH5tp]
          simp only [if_neg htplne]
          simp [hur]
        · refine zip_relink_right hp _ rt tp js q c2 v2 l2 (some l) tpn
            htpd htpc htppr htpsub htprec ?_ ?_ ?_
          · simp [setRight, setParent, setLeft, htp_n, htp_l, htp_lrid,
              hptp]
          · intro j hj
            have h1 : j ≠ n := fun he => hZdisj (hDmem j hj) (he ▸ hnF)
            have h2 : j ≠ l := fun he => hZdisj (hDmem j hj) (he ▸ hlF)
            have h3 : j ≠ tp := fun he => htpD (he ▸ hj)
            have h4 : j ≠ lrid := fun he =>
              hZdisj (hDmem j hj) (he ▸ hBF lrid hlridB)
            simp [setRight, setParent, setLeft, h1, h2, h3, h4]
          · intro j hj
            have h1 : j ≠ n := fun he => hZdisj (hZqmem j hj) (he ▸ hnF)
            have h2 : j ≠ l := fun he => hZdisj (hZqmem j hj) (he ▸ hlF)
            have h3 : j ≠ tp := fun he => htpZq (he ▸ hj)
            have h4 : j ≠ lrid := fun he =>
              hZdisj (hZqmem j hj) (he ▸ hBF lrid hlridB)
            simp [setRight, setParent, setLeft, h1, h2, h3, h4]
        · refine rrot_shape hp _ (parentHead (tp :: js)) n l c lc LL LR R
            lv v nn ln hLL (by rw [hlr]; exact hLR) hfr ?_ ?_ ?_ ?_ ?_
            hBnd ?_
          · simp [setRight, setParent, setLeft, parentHead, hpl, hln,
              hld, hlc, htp_l.symm, hlrid_l.symm]
          · simp [setRight, setParent, setLeft, hpn, hn_l, hdat, hcol,
              hlr, htp_n.symm, hlrid_n.symm]
          · intro k nd hk hpk
            rw [hlr] at hk
            injection hk with hk
            subst hk
            simp [setRight, setParent, setLeft, hlrid_n, hlrid_l,
              htp_lrid.symm, hpk]
          · intro j hj
            have h1 : j ≠ l := fun he => hlA (he ▸ hj)
            have h2 : j ≠ n := fun he => hnA (he ▸ hj)
            have h3 : j ≠ tp := fun he => htpF (he ▸ hAF j hj)
            have h4 : j ≠ lrid := fun he => hAdB hj (he ▸ hlridB)
            simp [setRight, setParent, setLeft, h1, h2, h3, h4]
          · intro j hj hguard
            have h1 : j ≠ l := fun he => hlB (he ▸ hj)
            have h2 : j ≠ n := fun he => hnB (he ▸ hj)
            have h3 : j ≠ tp := fun he => htpF (he ▸ hBF j hj)
            have h4 : j ≠ lrid := by
              intro he
              rw [hlr] at hguard
              exact hguard (by rw [he])
            simp [setRight, setParent, setLeft, h1, h2, h3, h4]
          · intro j hj
            have h1 : j ≠ l := fun he => hlC (he ▸ hj)
            have h2 : j ≠ n := fun he => hnC (he ▸ hj)
            have h3 : j ≠ tp := fun he => htpF (he ▸ hCF j hj)
            have h4 : j ≠ lrid := fun he => hBC lrid hlridB (he ▸ hj)
            simp [setRight, setParent, setLeft, h1, h2, h3, h4]

/-- `lrot` on a realized tree: mirror of `rrot_spec`. -/
theorem lrot_spec (hp : Heap) (rt : Option Nat) (n : Nat) (ids : List Nat)
    (p : Path) (c rc : Color) (L RL RR : RBNode) (rv v : Int)
    (hz : reprZipB hp rt (some n) ids p = true)
    (hf : reprB hp (parentHead ids) (some n)
        (RBNode.node c L v (RBNode.node rc RL rv RR)) = true)
    (hnd : (zipIdList hp ids p ++ idList hp (some n)
        (RBNode.node c L v (RBNode.node rc RL rv RR))).Nodup) :
    ∃ H RT r, lrot hp rt n = Except.ok (H, RT) ∧
      reprZipB H RT (some r) ids p = true ∧
      reprB H (parentHead ids) (some r)
        (RBNode.node rc (RBNode.node c L v RL) rv RR) = true := by
  obtain ⟨nn, hpn, hdat, hcol, hpar, hfl, hfr⟩ :=
    reprB_node_inv hp (parentHead ids) n c L v (RBNode.node rc RL rv RR) hf
  obtain ⟨r, hnr⟩ := reprB_oid_node hp (some n) nn.right rc RL rv RR hfr
  rw [hnr] at hfr
  obtain ⟨rn, hpr2, hrd, hrc, hrp, hRL, hRR⟩ :=
    reprB_node_inv hp (some n) r rc RL rv RR hfr
  have hLfoc : idList hp (some n)
      (RBNode.node c L v (RBNode.node rc RL rv RR)) =
      n :: (idList hp nn.left L ++
        (r :: (idList hp rn.left RL ++ idList hp rn.right RR))) := by
    simp only [idList, hpn, hnr, hpr2]
  have hZdisj := List.disjoint_of_nodup_append hnd
  have hFnd := hnd.of_append_right
  rw [hLfoc, List.nodup_cons] at hFnd
  obtain ⟨hnF1, hFnd2⟩ := hFnd
  simp only [List.mem_append, List.mem_cons, not_or] at hnF1
  obtain ⟨hnC, hn_r, hnB, hnA⟩ := hnF1
  have hCdisj := List.disjoint_of_nodup_append hFnd2
  have hrnd := hFnd2.of_append_right
  rw [List.nodup_cons] at hrnd
  obtain ⟨hr1, hBAnd⟩ := hrnd
  simp only [List.mem_append, not_or] at hr1
  obtain ⟨hrB, hrA⟩ := hr1
  have hBnd : (idList hp rn.left RL).Nodup := hBAnd.of_append_left
  have hBdA := List.disjoint_of_nodup_append hBAnd
  have hrC : r ∉ idList hp nn.left L := fun he => hCdisj he (by simp)
  have hCnB : ∀ j ∈ idList hp nn.left L, j ∉ idList hp rn.left RL :=
    fun j hj hin => hCdisj hj (by simp [hin])
  have hnF : n ∈ idList hp (some n)
      (RBNode.node c L v (RBNode.node rc RL rv RR)) := by
    rw [hLfoc]; simp
  have hrF : r ∈ idList hp (some n)
      (RBNode.node c L v (RBNode.node rc RL rv RR)) := by
    rw [hLfoc]; simp
  have hAF : ∀ j ∈ idList hp rn.right RR, j ∈ idList hp (some n)
      (RBNode.node c L v (RBNode.node rc RL rv RR)) := by
    intro j hj; rw [hLfoc]; simp [hj]
  have hBF : ∀ j ∈ idList hp rn.left RL, j ∈ idList hp (some n)
      (RBNode.node c L v (RBNode.node rc RL rv RR)) := by
    intro j hj; rw [hLfoc]; simp [hj]
  have hCF : ∀ j ∈ idList hp nn.left L, j ∈ idList hp (some n)
      (RBNode.node c L v (RBNode.node rc RL rv RR)) := by
    intro j hj; rw [hLfoc]; simp [hj]
  have hZn : n ∉ zipIdList hp ids p := fun hin => hZdisj hin hnF
  have hZr : r ∉ zipIdList hp ids p := fun hin => hZdisj hin hrF
  have hrn : r ≠ n := Ne.symm hn_r
  cases ids with
  | nil =>
    cases p with
    | goLeft c2 v2 r2 q => simp [reprZipB] at hz
    | goRight c2 l2 v2 q => simp [reprZipB] at hz
    | root =>
      have hrt : rt = some n := by
        rw [reprZipB] at hz
        exact of_decide_eq_true hz
      cases hlr : rn.left with
      | none =>
        refine ⟨setParent (setParent (setLeft (setRight hp n none) r
          (some n)) n (some r)) r none, some r, r, ?_, ?_, ?_⟩
        · unfold lrot
          rw [hpn]
          simp only [hnr, hpr2, hlr, hpar, parentHead, hrt]
          simp
        · simp [reprZipB]
        · refine lrot_shape hp _ (parentHead []) n r c rc RL RR L rv v nn rn
            hRR hRL hfl ?_ ?_ ?_ ?_ ?_ hBnd ?_
          · simp [setParent, setLeft, setRight, parentHead, hpr2, hrn,
              hrd, hrc]
          · simp [setParent, setLeft, setRight, hpn, hn_r, hdat, hcol, hlr]
          · intro k nd hk
            rw [hlr] at hk
            exact absurd hk (by simp)
          · intro j hj
            have h1 : j ≠ r := fun he => hrA (he ▸ hj)
            have h2 : j ≠ n := fun he => hnA (he ▸ hj)
            simp [setParent, setLeft, setRight, h1, h2]
          · intro j hj _
            rw [hlr] at hj
            simp [idList] at hj
          · intro j hj
            have h1 : j ≠ r := fun he => hrC (he ▸ hj)
            have h2 : j ≠ n := fun he => hnC (he ▸ hj)
            simp [setParent, setLeft, setRight, h1, h2]
      | some rlid =>
        rw [hlr] at hRL
        obtain ⟨rlc, rll, rlv2, rlr, hRLeq⟩ :=
          reprB_some_node hp (some r) rlid RL hRL
        have hrlidB : rlid ∈ idList hp rn.left RL := by
          rw [hlr, hRLeq]
          exact mem_idList_self hp rlid rlc rll rlv2 rlr
        have hrlid_n : rlid ≠ n := fun he => hnB (he ▸ hrlidB)
        have hrlid_r : rlid ≠ r := fun he => hrB (he ▸ hrlidB)
        refine ⟨setParent (setParent (setParent (setLeft (setRight hp n
          (some rlid)) r (some n)) n (some r)) r none) rlid (some n),
          some r, r, ?_, ?_, ?_⟩
        · unfold lrot
          rw [hpn]
          simp only [hnr, hpr2, hlr, hpar, parentHead, hrt]
          simp
        · simp [reprZipB]
        · refine lrot_shape hp _ (parentHead []) n r c rc RL RR L rv v nn rn
            hRR (by rw [hlr]; exact hRL) hfl ?_ ?_ ?_ ?_ ?_ hBnd ?_
          · simp [setParent, setLeft, setRight, parentHead, hpr2, hrn,
              hrd, hrc, hrlid_r.symm]
          · simp [setParent, setLeft, setRight, hpn, hn_r, hdat, hcol,
              hlr, hrlid_n.symm]
          · intro k nd hk hpk
            rw [hlr] at hk
            injection hk with hk
            subst hk
            simp [setParent, setLeft, setRight, hrlid_n, hrlid_r, hpk]
          · intro j hj
            have h1 : j ≠ r := fun he => hrA (he ▸ hj)
            have h2 : j ≠ n := fun he => hnA (he ▸ hj)
            have h3 : j ≠ rlid := fun he => hBdA (he ▸ hrlidB) hj
            simp [setParent, setLeft, setRight, h1, h2, h3]
          · intro j hj hguard
            have h1 : j ≠ r := fun he => hrB (he ▸ hj)
            have h2 : j ≠ n := fun he => hnB (he ▸ hj)
            have h3 : j ≠ rlid := by
              intro he
              rw [hlr] at hguard
              exact hguard (by rw [he])
            simp [setParent, setLeft, setRight, h1, h2, h3]
          · intro j hj
            have h1 : j ≠ r := fun he => hrC (he ▸ hj)
            have h2 : j ≠ n := fun he => hnC (he ▸ hj)
            have h3 : j ≠ rlid := fun he => hCnB j hj (he ▸ hrlidB)
            simp [setParent, setLeft, setRight, h1, h2, h3]
  | cons tp js =>
    cases p with
    | root => simp [reprZipB] at hz
    | goLeft c2 v2 r2 q =>
      obtain ⟨tpn, hptp, htpd, htpc, htpl, htppr, htpsub, htprec⟩ :=
        reprZipB_goLeft_inv hp rt (some n) tp js c2 v2 r2 q hz
      have hZdef : zipIdList hp (tp :: js) (Path.goLeft c2 v2 r2 q) =
          (tp :: idList hp tpn.right r2) ++ zipIdList hp js q := by
        simp only [zipIdList, hptp]
      have htpF : tp ∉ idList hp (some n)
          (RBNode.node c L v (RBNode.node rc RL rv RR)) :=
        hZdisj (by rw [hZdef]; simp)
      have htp_n : tp ≠ n := fun he => htpF (he ▸ hnF)
      have htp_r : tp ≠ r := fun he => htpF (he ▸ hrF)
      have hZnd := hnd.of_append_left
      rw [hZdef] at hZnd
      have htpZq : tp ∉ zipIdList hp js q :=
        List.disjoint_of_nodup_append hZnd (by simp)
      have htpD : tp ∉ idList hp tpn.right r2 :=
        (List.nodup_cons.mp hZnd.of_append_left).1
      have hDmem : ∀ j ∈ idList hp tpn.right r2,
          j ∈ zipIdList hp (tp :: js) (Path.goLeft c2 v2 r2 q) := by
        intro j hj; rw [hZdef]; simp [hj]
      have hZqmem : ∀ j ∈ zipIdList hp js q,
          j ∈ zipIdList hp (tp :: js) (Path.goLeft c2 v2 r2 q) := by
        intro j hj; rw [hZdef]; simp [hj]
      have hrtne : rt ≠ some n := by
        rcases reprZipB_rt_mem hp rt (Path.goLeft c2 v2 r2 q) (some n)
            (tp :: js) hz with ⟨hcon, _⟩ | ⟨j, hjmem, hrtj⟩
        · exact absurd hcon (by simp)
        · have hjZ := ids_subset_zip hp rt (Path.goLeft c2 v2 r2 q)
            (some n) (tp :: js) hz j hjmem
          intro he
          rw [hrtj] at he
          injection he with he
          exact hZdisj hjZ (he ▸ hnF)
      have hur : decide (rt = some n) = false := decide_eq_false hrtne
      cases hlr : rn.left with
      | none =>
        have hH5tp : (setParent (setParent (setLeft (setRight hp n none) r
            (some n)) n (some r)) r (some tp)) tp = some tpn := by
          simp [setParent, setLeft, setRight, htp_n, htp_r, hptp]
        refine ⟨setLeft (setParent (setParent (setLeft (setRight hp n none)
          r (some n)) n (some r)) r (some tp)) tp (some r), rt, r,
          ?_, ?_, ?_⟩
        · unfold lrot
          rw [hpn]
          simp only [hnr, hpr2, hlr, hpar, parentHead]
          rw [hH5tp]
          simp only [htpl]
          simp [hur]
        · refine zip_relink_left hp _ rt tp js q c2 v2 r2 (some r) tpn
            htpd htpc htppr htpsub htprec ?_ ?_ ?_
          · simp [setLeft, setParent, setRight, htp_n, htp_r, hptp]
          · intro j hj
            have h1 : j ≠ n := fun he => hZdisj (hDmem j hj) (he ▸ hnF)
            have h2 : j ≠ r := fun he => hZdisj (hDmem j hj) (he ▸ hrF)
            have h3 : j ≠ tp := fun he => htpD (he ▸ hj)
            simp [setLeft, setParent, setRight, h1, h2, h3]
          · intro j hj
            have h1 : j ≠ n := fun he => hZdisj (hZqmem j hj) (he ▸ hnF)
            have h2 : j ≠ r := fun he => hZdisj (hZqmem j hj) (he ▸ hrF)
            have h3 : j ≠ tp := fun he => htpZq (he ▸ hj)
            simp [setLeft, setParent, setRight, h1, h2, h3]
        · refine lrot_shape hp _ (parentHead (tp :: js)) n r c rc RL RR L
            rv v nn rn hRR hRL hfl ?_ ?_ ?_ ?_ ?_ hBnd ?_
          · simp [setLeft, setParent, setRight, parentHead, hpr2, hrn,
              hrd, hrc, htp_r.symm]
          · simp [setLeft, setParent, setRight, hpn, hn_r, hdat, hcol,
              hlr, htp_n.symm]
          · intro k nd hk
            rw [hlr] at hk
            exact absurd hk (by simp)
          · intro j hj
            have h1 : j ≠ r := fun he => hrA (he ▸ hj)
            have h2 : j ≠ n := fun he => hnA (he ▸ hj)
            have h3 : j ≠ tp := fun he => htpF (he ▸ hAF j hj)
            simp [setLeft, setParent, setRight, h1, h2, h3]
          · intro j hj _
            rw [hlr] at hj
            simp [idList] at hj
          · intro j hj
            have h1 : j ≠ r := fun he => hrC (he ▸ hj)
            have h2 : j ≠ n := fun he => hnC (he ▸ hj)
            have h3 : j ≠ tp := fun he => htpF (he ▸ hCF j hj)
            simp [setLeft, setParent, setRight, h1, h2, h3]
      | some rlid =>
        rw [hlr] at hRL
        obtain ⟨rlc, rll, rlv2, rlr, hRLeq⟩ :=
          reprB_some_node hp (some r) rlid RL hRL
        have hrlidB : rlid ∈ idList hp rn.left RL := by
          rw [hlr, hRLeq]
          exact mem_idList_self hp rlid rlc rll rlv2 rlr
        have hrlid_n : rlid ≠ n := fun he => hnB (he ▸ hrlidB)
        have hrlid_r : rlid ≠ r := fun he => hrB (he ▸ hrlidB)
        have htp_rlid : tp ≠ rlid := fun he => htpF (he ▸ hBF rlid hrlidB)
        have hH5tp : (setParent (setParent (setParent (setLeft (setRight hp
            n (some rlid)) r (some n)) n (some r)) r (some tp)) rlid
            (some n)) tp = some tpn := by
          simp [setParent, setLeft, setRight, htp_n, htp_r, htp_rlid, hptp]
        refine ⟨setLeft (setParent (setParent (setParent (setLeft (setRight
          hp n (some rlid)) r (some n)) n (some r)) r (some tp)) rlid
          (some n)) tp (some r), rt, r, ?_, ?_, ?_⟩
        · unfold lrot
          rw [hpn]
          simp only [hnr, hpr2, hlr, hpar, parentHead]
          rw [hH5tp]
          simp only [htpl]
          simp [hur]
        · refine zip_relink_left hp _ rt tp js q c2 v2 r2 (some r) tpn
            htpd htpc htppr htpsub htprec ?_ ?_ ?_
          · simp [setLeft, setParent, setRight, htp_n, htp_r, htp_rlid,
              hptp]
          · intro j hj
            have h1 : j ≠ n := fun he => hZdisj (hDmem j hj) (he ▸ hnF)
            have h2 : j ≠ r := fun he => hZdisj (hDmem j hj) (he ▸ hrF)
            have h3 : j ≠ tp := fun he => htpD (he ▸ hj)
            have h4 : j ≠ rlid := fun he =>
              hZdisj (hDmem j hj) (he ▸ hBF rlid hrlidB)
            simp [setLeft, setParent, setRight, h1, h2, h3, h4]
          · intro j hj
            have h1 : j ≠ n := fun he => hZdisj (hZqmem j hj) (he ▸ hnF)
            have h2 : j ≠ r := fun he => hZdisj (hZqmem j hj) (he ▸ hrF)
            have h3 : j ≠ tp := fun he => htpZq (he ▸ hj)
            have h4 : j ≠ rlid := fun he =>
              hZdisj (hZqmem j hj) (he ▸ hBF rlid hrlidB)
            simp [setLeft, setParent, setRight, h1, h2, h3, h4]
        · refine lrot_shape hp _ (parentHead (tp :: js)) n r c rc RL RR L
            rv v nn rn hRR (by rw [hlr]; exact hRL) hfl ?_ ?_ ?_ ?_ ?_
            hBnd ?_
          · simp [setLeft, setParent, setRight, parentHead, hpr2, hrn,
              hrd, hrc, htp_r.symm, hrlid_r.symm]
          · simp [setLeft, setParent, setRight, hpn, hn_r, hdat, hcol,
              hlr, htp_n.symm, hrlid_n.symm]
          · intro k nd hk hpk
            rw [hlr] at hk
            injection hk with hk
            subst hk
            simp [setLeft, setParent, setRight, hrlid_n, hrlid_r,
              htp_rlid.symm, hpk]
          · intro j hj
            have h1 : j ≠ r := fun he => hrA (he ▸ hj)
            have h2 : j ≠ n := fun he => hnA (he ▸ hj)
            have h3 : j ≠ tp := fun he => htpF (he ▸ hAF j hj)
            have h4 : j ≠ rlid := fun he => hBdA (he ▸ hrlidB) hj
            simp [setLeft, setParent, setRight, h1, h2, h3, h4]
          · intro j hj hguard
            have h1 : j ≠ r := fun he => hrB (he ▸ hj)
            have h2 : j ≠ n := fun he => hnB (he ▸ hj)
            have h3 : j ≠ tp := fun he => htpF (he ▸ hBF j hj)
            have h4 : j ≠ rlid := by
              intro he
              rw [hlr] at hguard
              exact hguard (by rw [he])
            simp [setLeft, setParent, setRight, h1, h2, h3, h4]
          · intro j hj
            have h1 : j ≠ r := fun he => hrC (he ▸ hj)
            have h2 : j ≠ n := fun he => hnC (he ▸ hj)
            have h3 : j ≠ tp := fun he => htpF (he ▸ hCF j hj)
            have h4 : j ≠ rlid := fun he => hCnB j hj (he ▸ hrlidB)
            simp [setLeft, setParent, setRight, h1, h2, h3, h4]
    | goRight c2 l2 v2 q =>
      obtain ⟨tpn, hptp, htpd, htpc, htpr2, htppr, htpsub, htprec⟩ :=
        reprZipB_goRight_inv hp rt (some n) tp js c2 l2 v2 q hz
      have hZdef : zipIdList hp (tp :: js) (Path.goRight c2 l2 v2 q) =
          (tp :: idList hp tpn.left l2) ++ zipIdList hp js q := by
        simp only [zipIdList, hptp]
      have htpF : tp ∉ idList hp (some n)
          (RBNode.node c L v (RBNode.node rc RL rv RR)) :=
        hZdisj (by rw [hZdef]; simp)
      have htp_n : tp ≠ n := fun he => htpF (he ▸ hnF)
      have htp_r : tp ≠ r := fun he => htpF (he ▸ hrF)
      have hZnd := hnd.of_append_left
      rw [hZdef] at hZnd
      have htpZq : tp ∉ zipIdList hp js q :=
        List.disjoint_of_nodup_append hZnd (by simp)
      have htpD : tp ∉ idList hp tpn.left l2 :=
        (List.nodup_cons.mp hZnd.of_append_left).1
      have hDmem : ∀ j ∈ idList hp tpn.left l2,
          j ∈ zipIdList hp (tp :: js) (Path.goRight c2 l2 v2 q) := by
        intro j hj; rw [hZdef]; simp [hj]
      have hZqmem : ∀ j ∈ zipIdList hp js q,
          j ∈ zipIdList hp (tp :: js) (Path.goRight c2 l2 v2 q) := by
        intro j hj; rw [hZdef]; simp [hj]
      have hrtne : rt ≠ some n := by
        rcases reprZipB_rt_mem hp rt (Path.goRight c2 l2 v2 q) (some n)
            (tp :: js) hz with ⟨hcon, _⟩ | ⟨j, hjmem, hrtj⟩
        · exact absurd hcon (by simp)
        · have hjZ := ids_subset_zip hp rt (Path.goRight c2 l2 v2 q)
            (some n) (tp :: js) hz j hjmem
          intro he
          rw [hrtj] at he
          injection he with he
          exact hZdisj hjZ (he ▸ hnF)
      have hur : decide (rt = some n) = false := decide_eq_false hrtne
      have htplne : tpn.left ≠ some n := by
        intro he
        rw [he] at htpsub
        obtain ⟨c3, l3, v3, r3, heq⟩ :=
          reprB_some_node hp (some tp) n l2 htpsub
        have hmem : n ∈ idList hp tpn.left l2 := by
          rw [he, heq]
          exact mem_idList_self hp n c3 l3 v3 r3
        exact hZn (hDmem n hmem)
      cases hlr : rn.left with
      | none =>
        have hH5tp : (setParent (setParent (setLeft (setRight hp n none) r
            (some n)) n (some r)) r (some tp)) tp = some tpn := by
          simp [setParent, setLeft, setRight, htp_n, htp_r, hptp]
        refine ⟨setRight (setParent (setParent (setLeft (setRight hp n
          none) r (some n)) n (some r)) r (some tp)) tp (some r), rt, r,
          ?_, ?_, ?_⟩
        · unfold lrot
          rw [hpn]
          simp only [hnr, hpr2, hlr, hpar, parentHead]
          rw [hH5tp]
          simp only [if_neg htplne]
          simp [hur]
        · refine zip_relink_right hp _ rt tp js q c2 v2 l2 (some r) tpn
            htpd htpc htppr htpsub htprec ?_ ?_ ?_
          · simp [setRight, setParent, setLeft, htp_n, htp_r, hptp]
          · intro j hj
            have h1 : j ≠ n := fun he => hZdisj (hDmem j hj) (he ▸ hnF)
            have h2 : j ≠ r := fun he => hZdisj (hDmem j hj) (he ▸ hrF)
            have h3 : j ≠ tp := fun he => htpD (he ▸ hj)
            simp [setRight, setParent, setLeft, h1, h2, h3]
          · intro j hj
            have h1 : j ≠ n := fun he => hZdisj (hZqmem j hj) (he ▸ hnF)
            have h2 : j ≠ r := fun he => hZdisj (hZqmem j hj) (he ▸ hrF)
            have h3 : j ≠ tp := fun he => htpZq (he ▸ hj)
            simp [setRight, setParent, setLeft, h1, h2, h3]
        · refine lrot_shape hp _ (parentHead (tp :: js)) n r c rc RL RR L
            rv v nn rn hRR hRL hfl ?_ ?_ ?_ ?_ ?_ hBnd ?_
          · simp [setRight, setParent, setLeft, parentHead, hpr2, hrn,
              hrd, hrc, htp_r.symm]
          · simp [setRight, setParent, setLeft, hpn, hn_r, hdat, hcol,
              hlr, htp_n.symm]
          · intro k nd hk
            rw [hlr] at hk
            exact absurd hk (by simp)
          · intro j hj
            have h1 : j ≠ r := fun he => hrA (he ▸ hj)
            have h2 : j ≠ n := fun he => hnA (he ▸ hj)
            have h3 : j ≠ tp := fun he => htpF (he ▸ hAF j hj)
            simp [setRight, setParent, setLeft, h1, h2, h3]
          · intro j hj _
            rw [hlr] at hj
            simp [idList] at hj
          · intro j hj
            have h1 : j ≠ r := fun he => hrC (he ▸ hj)
            have h2 : j ≠ n := fun he => hnC (he ▸ hj)
            have h3 : j ≠ tp := fun he => htpF (he ▸ hCF j hj)
            simp [setRight, setParent, setLeft, h1, h2, h3]
      | some rlid =>
        rw [hlr] at hRL
        obtain ⟨rlc, rll, rlv2, rlr, hRLeq⟩ :=
          reprB_some_node hp (some r) rlid RL hRL
        have hrlidB : rlid ∈ idList hp rn.left RL := by
          rw [hlr, hRLeq]
          exact mem_idList_self hp rlid rlc rll rlv2 rlr
        have hrlid_n : rlid ≠ n := fun he => hnB (he ▸ hrlidB)
        have hrlid_r : rlid ≠ r := fun he => hrB (he ▸ hrlidB)
        have htp_rlid : tp ≠ rlid := fun he => htpF (he ▸ hBF rlid hrlidB)
        have hH5tp : (setParent (setParent (setParent (setLeft (setRight hp
            n (some rlid)) r (some n)) n (some r)) r (some tp)) rlid
            (some n)) tp = some tpn := by
          simp [setParent, setLeft, setRight, htp_n, htp_r, htp_rlid, hptp]
        refine ⟨setRight (setParent (setParent (setParent (setLeft
          (setRight hp n (some rlid)) r (some n)) n (some r)) r (some tp))
          rlid (some n)) tp (some r), rt, r, ?_, ?_, ?_⟩
        · unfold lrot
          rw [hpn]
          simp only [hnr, hpr2, hlr, hpar, parentHead]
          rw [hH5tp]
          simp only [if_neg htplne]
          simp [hur]
        · refine zip_relink_right hp _ rt tp js q c2 v2 l2 (some r) tpn
            htpd htpc htppr htpsub htprec ?_ ?_ ?_
          · simp [setRight, setParent, setLeft, htp_n, htp_r, htp_rlid,
              hptp]
          · intro j hj
            have h1 : j ≠ n := fun he => hZdisj (hDmem j hj) (he ▸ hnF)
            have h2 : j ≠ r := fun he => hZdisj (hDmem j hj) (he ▸ hrF)
            have h3 : j ≠ tp := fun he => htpD (he ▸ hj)
            have h4 : j ≠ rlid := fun he =>
              hZdisj (hDmem j hj) (he ▸ hBF rlid hrlidB)
            simp [setRight, setParent, setLeft, h1, h2, h3, h4]
          · intro j hj
            have h1 : j ≠ n := fun he => hZdisj (hZqmem j hj) (he ▸ hnF)
            have h2 : j ≠ r := fun he => hZdisj (hZqmem j hj) (he ▸ hrF)
            have h3 : j ≠ tp := fun he => htpZq (he ▸ hj)
            have h4 : j ≠ rlid := fun he =>
              hZdisj (hZqmem j hj) (he ▸ hBF rlid hrlidB)
            simp [setRight, setParent, setLeft, h1, h2, h3, h4]
        · refine lrot_shape hp _ (parentHead (tp :: js)) n r c rc RL RR L
            rv v nn rn hRR (by rw [hlr]; exact hRL) hfl ?_ ?_ ?_ ?_ ?_
            hBnd ?_
          · simp [setRight, setParent, setLeft, parentHead, hpr2, hrn,
              hrd, hrc, htp_r.symm, hrlid_r.symm]
          · simp [setRight, setParent, setLeft, hpn, hn_r, hdat, hcol,
              hlr, htp_n.symm, hrlid_n.symm]
          · intro k nd hk hpk
            rw [hlr] at hk
            injection hk with hk
            subst hk
            simp [setRight, setParent, setLeft, hrlid_n, hrlid_r,
              htp_rlid.symm, hpk]
          · intro j hj
            have h1 : j ≠ r := fun he => hrA (he ▸ hj)
            have h2 : j ≠ n := fun he => hnA (he ▸ hj)
            have h3 : j ≠ tp := fun he => htpF (he ▸ hAF j hj)
            have h4 : j ≠ rlid := fun he => hBdA (he ▸ hrlidB) hj
            simp [setRight, setParent, setLeft, h1, h2, h3, h4]
          · intro j hj hguard
            have h1 : j ≠ r := fun he => hrB (he ▸ hj)
            have h2 : j ≠ n := fun he => hnB (he ▸ hj)
            have h3 : j ≠ tp := fun he => htpF (he ▸ hBF j hj)
            have h4 : j ≠ rlid := by
              intro he
              rw [hlr] at hguard
              exact hguard (by rw [he])
            simp [setRight, setParent, setLeft, h1, h2, h3, h4]
          · intro j hj
            have h1 : j ≠ r := fun he => hrC (he ▸ hj)
            have h2 : j ≠ n := fun he => hnC (he ▸ hj)
            have h3 : j ≠ tp := fun he => htpF (he ▸ hCF j hj)
            have h4 : j ≠ rlid := fun he => hCnB j hj (he ▸ hrlidB)
            simp [setRight, setParent, setLeft, h1, h2, h3, h4]

/-- With the untouched sentinels as initial accumulators, the max-fold
equals the min-fold over a nonempty list exactly when all entries map to
the same value under `g`. -/
theorem fold_eq_iff (g : Nat → Int) (L : List Nat) (hne : L ≠ [])
    (hlo : ∀ x ∈ L, INT_MIN ≤ g x) (hhi : ∀ x ∈ L, g x ≤ INT_MAX)
    (hinj : ∀ x y : Nat, g x = g y → x = y) :
    (L.foldl (fun a x => max a (g x)) INT_MIN =
     L.foldl (fun a x => min a (g x)) INT_MAX) ↔ allSame L := by
  constructor
  · intro h x hx y hy
    have h1 := fold_max_ge g L INT_MIN x hx
    have h2 := fold_min_le g L INT_MAX y hy
    have h1h := fold_max_ge g L INT_MIN y hy
    have h2h := fold_min_le g L INT_MAX x hx
    rw [h] at h1 h1h
    exact hinj x y (le_antisymm (le_trans h1 h2) (le_trans h1h h2h))
  · intro h
    cases L with
    | nil => exact absurd rfl hne
    | cons w ws =>
      have hall : ∀ x ∈ (w :: ws), g x = g w := fun x hx => by
        rw [h x hx w (by simp)]
      rw [fold_max_const g (g w) (w :: ws) INT_MIN hall (by simp),
          fold_min_const g (g w) (w :: ws) INT_MAX hall (by simp),
          max_eq_right (hlo w (by simp)), min_eq_right (hhi w (by simp))]

/-- On a non-NULL node the source's scratch-global black-path check
succeeds exactly when all root-to-NULL black counts agree, provided each
count stays below INT_MAX (true of every tree that fits in memory). -/
theorem path_black_nodes_node_iff (c : Color) (l r : RBNode) (v : Int)
    (hbound : ∀ x ∈ pbcounts (RBNode.node c l v r), x ≤ 2147483646) :
    path_black_nodes (RBNode.node c l v r) = true ↔
      allSame (pbcounts (RBNode.node c l v r)) := by
  have hiff := fold_eq_iff (fun x : Nat => (x : Int) + 0 + 1)
    (pbcounts (RBNode.node c l v r)) (pbcounts_ne_nil _)
    (fun x _ => by simp only [INT_MIN]; omega)
    (fun x hx => by have hb := hbound x hx; simp only [INT_MAX]; omega)
    (fun x y hxy => by
      have hxy2 : (x : Int) + 0 + 1 = (y : Int) + 0 + 1 := hxy
      omega)
  simp only [path_black_nodes]
  rw [helper_eq]
  constructor
  · intro h
    split at h
    · exact absurd h (by simp)
    · next hcond => exact hiff.mp (not_not.mp hcond)
  · intro h
    rw [if_neg (not_not_intro (hiff.mpr h))]

/-- C6: the validator returns false for an empty tree and for a red root;
for a non-empty black-rooted tree (with every per-path black count below
INT_MAX, true of any tree that fits in memory) it returns true exactly
when no RED node has a RED child and every root-to-absent-child path
carries the same number of BLACK nodes; the discarded re-scans do not
affect the verdict. -/
theorem C6_validator (t : sexy_rb_tree) :
    (get_root t = RBNode.nil → is_valid_rb_tree t = false) ∧
    (is_red (get_root t) = true → is_valid_rb_tree t = false) ∧
    (get_root t ≠ RBNode.nil → is_red (get_root t) = false →
      (∀ x ∈ pbcounts (get_root t), x ≤ 2147483646) →
      (is_valid_rb_tree t = true ↔
        (noRedRed (get_root t) = true ∧ allSame (pbcounts (get_root t))))) := by
  cases hroot : get_root t with
  | nil =>
    refine ⟨fun _ => ?_, fun hred => ?_, fun hne => absurd rfl hne⟩
    · rw [is_valid_rb_tree, hroot]
    · rw [is_red] at hred
      exact absurd hred (by simp)
  | node c l v r =>
    refine ⟨fun hn => absurd hn (by simp), fun hred => ?_, ?_⟩
    · simp only [is_valid_rb_tree, hroot]
      rw [if_pos hred]
    · intro _ hblack hbound
      have hval : is_valid_rb_tree t =
          (red_parent_black_children (RBNode.node c l v r) &&
           path_black_nodes (RBNode.node c l v r)) := by
        simp only [is_valid_rb_tree, hroot]
        rw [if_neg (by simp [hblack])]
        cases hr1 : red_parent_black_children (RBNode.node c l v r) <;>
          cases hr2 : path_black_nodes (RBNode.node c l v r) <;> simp
      rw [hval, Bool.and_eq_true, rpbc_true_iff,
        path_black_nodes_node_iff c l r v hbound]

/-- Witness for C6: the classic three-node tree meets every side
condition, and the validator verdict matches the two invariants. -/
theorem C6_validator_witness :
    (get_root (sexy_rb_tree.mk (RBNode.node Color.black
        (RBNode.node Color.red RBNode.nil 1 RBNode.nil) 2
        (RBNode.node Color.red RBNode.nil 3 RBNode.nil)) 3 PRED int_compare)
      ≠ RBNode.nil) ∧
    (is_red (get_root (sexy_rb_tree.mk (RBNode.node Color.black
        (RBNode.node Color.red RBNode.nil 1 RBNode.nil) 2
        (RBNode.node Color.red RBNode.nil 3 RBNode.nil)) 3 PRED int_compare))
      = false) ∧
    (∀ x ∈ pbcounts (get_root (sexy_rb_tree.mk (RBNode.node Color.black
        (RBNode.node Color.red RBNode.nil 1 RBNode.nil) 2
        (RBNode.node Color.red RBNode.nil 3 RBNode.nil)) 3 PRED int_compare)),
      x ≤ 2147483646) ∧
    (is_valid_rb_tree (sexy_rb_tree.mk (RBNode.node Color.black
        (RBNode.node Color.red RBNode.nil 1 RBNode.nil) 2
        (RBNode.node Color.red RBNode.nil 3 RBNode.nil)) 3 PRED int_compare)
        = true ↔
      (noRedRed (get_root (sexy_rb_tree.mk (RBNode.node Color.black
          (RBNode.node Color.red RBNode.nil 1 RBNode.nil) 2
          (RBNode.node Color.red RBNode.nil 3 RBNode.nil)) 3 PRED int_compare))
          = true ∧
        allSame (pbcounts (get_root (sexy_rb_tree.mk (RBNode.node Color.black
          (RBNode.node Color.red RBNode.nil 1 RBNode.nil) 2
          (RBNode.node Color.red RBNode.nil 3 RBNode.nil)) 3 PRED
          int_compare))))) :=
  ⟨by decide, by decide, by decide,
    (C6_validator (sexy_rb_tree.mk (RBNode.node Color.black
        (RBNode.node Color.red RBNode.nil 1 RBNode.nil) 2
        (RBNode.node Color.red RBNode.nil 3 RBNode.nil)) 3 PRED
        int_compare)).2.2 (by decide) (by decide) (by decide)⟩

/-- Witness for C8: a node with two leaf children, bias SUCC. -/
theorem C8_simple_replace_witness :
    ((SUCC : Int) = PRED ∨ (SUCC : Int) = SUCC) ∧
    (simple_replace (RBNode.node Color.black
        (RBNode.node Color.red RBNode.nil 1 RBNode.nil) 2
        (RBNode.node Color.red RBNode.nil 3 RBNode.nil)) SUCC =
          Except.ok none ↔
      (RBNode.node Color.red RBNode.nil 1 RBNode.nil = RBNode.nil ∧
        RBNode.node Color.red RBNode.nil 3 RBNode.nil = RBNode.nil)) :=
  ⟨Or.inr rfl,
    (C8_simple_replace Color.black
      (RBNode.node Color.red RBNode.nil 1 RBNode.nil)
      (RBNode.node Color.red RBNode.nil 3 RBNode.nil) 2 SUCC
      (Or.inr rfl)).1⟩

/-- C5: for every node whose required-direction child exists (a left child
for `rrot`, a right child for `lrot`), the rotation succeeds; the rotated
subtree's new top node is relinked into the node's former parent slot (the
same context `ids`, `p` is realized with the new hole) or replaces the
root pointer when the node was the root; every affected parent
back-reference is reassigned (checked cell by cell by `reprB`/`reprZipB`);
the displaced inner grandchild is relinked under the rotated node; and the
in-order key sequence of the whole tree is preserved. -/
theorem C5_rotations :
    (∀ (hp : Heap) (rt : Option Nat) (n : Nat) (ids : List Nat) (p : Path)
        (c lc : Color) (LL LR R : RBNode) (lv v : Int),
      reprZipB hp rt (some n) ids p = true →
      reprB hp (parentHead ids) (some n)
          (RBNode.node c (RBNode.node lc LL lv LR) v R) = true →
      (zipIdList hp ids p ++ idList hp (some n)
          (RBNode.node c (RBNode.node lc LL lv LR) v R)).Nodup →
      (∃ H RT l, rrot hp rt n = Except.ok (H, RT) ∧
        reprZipB H RT (some l) ids p = true ∧
        reprB H (parentHead ids) (some l)
            (RBNode.node lc LL lv (RBNode.node c LR v R)) = true) ∧
      inorder (plug (RBNode.node lc LL lv (RBNode.node c LR v R)) p) =
        inorder (plug (RBNode.node c (RBNode.node lc LL lv LR) v R) p)) ∧
    (∀ (hp : Heap) (rt : Option Nat) (n : Nat) (ids : List Nat) (p : Path)
        (c rc : Color) (L RL RR : RBNode) (rv v : Int),
      reprZipB hp rt (some n) ids p = true →
      reprB hp (parentHead ids) (some n)
          (RBNode.node c L v (RBNode.node rc RL rv RR)) = true →
      (zipIdList hp ids p ++ idList hp (some n)
          (RBNode.node c L v (RBNode.node rc RL rv RR))).Nodup →
      (∃ H RT r, lrot hp rt n = Except.ok (H, RT) ∧
        reprZipB H RT (some r) ids p = true ∧
        reprB H (parentHead ids) (some r)
            (RBNode.node rc (RBNode.node c L v RL) rv RR) = true) ∧
      inorder (plug (RBNode.node rc (RBNode.node c L v RL) rv RR) p) =
        inorder (plug (RBNode.node c L v (RBNode.node rc RL rv RR)) p)) := by
  constructor
  · intro hp rt n ids p c lc LL LR R lv v hz hf hnd
    refine ⟨rrot_spec hp rt n ids p c lc LL LR R lv v hz hf hnd, ?_⟩
    rw [inorder_plug, inorder_plug]
    simp [inorder]
  · intro hp rt n ids p c rc L RL RR rv v hz hf hnd
    refine ⟨lrot_spec hp rt n ids p c rc L RL RR rv v hz hf hnd, ?_⟩
    rw [inorder_plug, inorder_plug]
    simp [inorder]

/-- Witness for C5: a right rotation about the black root 2 of the
concrete three-cell heap. -/
theorem C5_rotations_witness :
    (reprZipB rot_demo_heap (some 1) (some 1) [] Path.root = true) ∧
    (reprB rot_demo_heap (parentHead []) (some 1)
        (RBNode.node Color.black
          (RBNode.node Color.red RBNode.nil 1 RBNode.nil) 2
          (RBNode.node Color.red RBNode.nil 3 RBNode.nil)) = true) ∧
    ((zipIdList rot_demo_heap [] Path.root ++
        idList rot_demo_heap (some 1)
          (RBNode.node Color.black
            (RBNode.node Color.red RBNode.nil 1 RBNode.nil) 2
            (RBNode.node Color.red RBNode.nil 3 RBNode.nil))).Nodup) ∧
    ((∃ H RT l, rrot rot_demo_heap (some 1) 1 = Except.ok (H, RT) ∧
        reprZipB H RT (some l) [] Path.root = true ∧
        reprB H (parentHead []) (some l)
            (RBNode.node Color.red RBNode.nil 1
              (RBNode.node Color.black RBNode.nil 2
                (RBNode.node Color.red RBNode.nil 3 RBNode.nil)))
          = true) ∧
      inorder (plug (RBNode.node Color.red RBNode.nil 1
          (RBNode.node Color.black RBNode.nil 2
            (RBNode.node Color.red RBNode.nil 3 RBNode.nil))) Path.root) =
        inorder (plug (RBNode.node Color.black
          (RBNode.node Color.red RBNode.nil 1 RBNode.nil) 2
          (RBNode.node Color.red RBNode.nil 3 RBNode.nil)) Path.root)) :=
  ⟨by decide, by decide, by decide,
    C5_rotations.1 rot_demo_heap (some 1) 1 [] Path.root Color.black
      Color.red RBNode.nil RBNode.nil
      (RBNode.node Color.red RBNode.nil 3 RBNode.nil) 1 2
      (by decide) (by decide) (by decide)⟩

end RBT
